import Mathlib

/-!
# ILI9xxx display driver: dirty-rectangle buffered rendering

A shallow embedding of `esphome/components/ili9xxx/ili9xxx_display.cpp`.

* C integers are `Int`/`Nat`; every conversion to an unsigned C type is an explicit
  reduction (`toU8`, `toU16`, `toU32`).
* The driver object is the record `ILI9XXXDisplay`; a member function that mutates the
  object is a function returning the new record.
* The SPI transport is a trace of `BusEvent`s appended to the field `bus`.
* The framebuffer and the staging buffer are lists of bytes. A read outside the list
  yields `0` and a write outside the list is dropped (C leaves both undefined).
* Loops whose termination depends on data carry fuel and return `none` when it runs out.
-/

namespace esphome.ili9xxx

/-! ## Machine integers -/

/-- Conversion to `uint8_t`. -/
def toU8 (v : Int) : Nat := (v % 256).toNat

/-- Conversion to `uint16_t`. -/
def toU16 (v : Int) : Nat := (v % 65536).toNat

/-- Conversion to `uint32_t`. -/
def toU32 (v : Int) : Nat := (v % 4294967296).toNat

/-! ## Colours and the pixel codec -/

/-- The canonical colour value handed in by the caller (`esphome::Color`). -/
structure Color where
  red : Nat
  green : Nat
  blue : Nat
  white : Nat
deriving DecidableEq

/-- The functions of `display::ColorUtil` that the driver calls. Their bodies are not
among the sources, so they are parameters of the embedding. The C return types
(`uint16_t` for `color_to_565`, `uint8_t` for the two 8-bit encoders) are applied where the
driver calls them. -/
structure ColorUtil where
  color_to_565 : Color → Nat
  color_to_332 : Color → Nat
  color_to_index8_palette888 : Color → List Nat → Nat
  index8_to_color_palette888 : Nat → List Nat → Color
  rgb332_to_color : Nat → Color

/-- Modelled from the spec: the three buffer encodings, `enum ILI9XXXColorMode` of the
header, which is not among the sources. The code names `BITS_8_INDEXED` (the palette
index) and `BITS_16` (565); `BITS_8` (332) is the `default` branch of its switches. -/
inductive ILI9XXXColorMode where
  | BITS_8
  | BITS_8_INDEXED
  | BITS_16
deriving DecidableEq

/-! ## Transport -/

/-- What the driver does on the transport: a byte written while the data/command line has
the level `dc` (`false` is a command byte, `true` a data byte), a byte read, and a
`delay` call. -/
inductive BusEvent where
  | write (dc : Bool) (value : Nat)
  | read (value : Nat)
  | delay (ms : Nat)
deriving DecidableEq

/-- Modelled from the spec: the column-address-set opcode `ILI9XXX_CASET`; the defines
header is not among the sources. The results use only that it is a byte. -/
def ILI9XXX_CASET : Nat := 0x2A

/-- Modelled from the spec: the row-address-set opcode `ILI9XXX_PASET`; the defines
header is not among the sources. The results use only that it is a byte. -/
def ILI9XXX_PASET : Nat := 0x2B

/-- Modelled from the spec: the memory-write opcode `ILI9XXX_RAMWR`; the defines header
is not among the sources. The results use only that it is a byte. -/
def ILI9XXX_RAMWR : Nat := 0x2C

/-- Modelled from the spec: the inversion-off opcode `ILI9XXX_INVOFF`; the defines header
is not among the sources. The results use only that it is a byte. -/
def ILI9XXX_INVOFF : Nat := 0x20

/-- Modelled from the spec: the inversion-on opcode `ILI9XXX_INVON`; the defines header
is not among the sources. The results use only that it is a byte. -/
def ILI9XXX_INVON : Nat := 0x21

/-! ## The driver object -/

/-- Modelled from the spec: the class declaration is in the header, which is not among
the sources; these are the members the code reads or writes. `width_`/`height_` are
`int16_t`, the four watermarks `uint16_t` (the type of the `set_addr_window_` parameters
they are passed as), `buffer_` and `transfer_buffer_` byte arrays (`sizeof(transfer_buffer_)`
is the length of `transfer_buffer_`). `reset_pin_` and `backlight_pin_` are `none` for a
null pointer, else the level last written. `failed` records `mark_failed()`. -/
structure ILI9XXXDisplay where
  width_ : Int
  height_ : Int
  x_low_ : Nat
  y_low_ : Nat
  x_high_ : Nat
  y_high_ : Nat
  palette_ : List Nat
  buffer_color_mode_ : ILI9XXXColorMode
  buffer_ : List Nat
  transfer_buffer_ : List Nat
  dc_pin_ : Bool
  reset_pin_ : Option Bool
  backlight_pin_ : Option Bool
  bus : List BusEvent
  failed : Bool
deriving DecidableEq

namespace ILI9XXXDisplay

/-- The ranges of the C types of the scalar members. -/
def InRange (s : ILI9XXXDisplay) : Prop :=
  (-32768 ≤ s.width_ ∧ s.width_ ≤ 32767) ∧ (-32768 ≤ s.height_ ∧ s.height_ ≤ 32767) ∧
  s.x_low_ < 65536 ∧ s.y_low_ < 65536 ∧ s.x_high_ < 65536 ∧ s.y_high_ < 65536

instance (s : ILI9XXXDisplay) : Decidable s.InRange := by
  unfold InRange; infer_instance

/-- `get_width_internal`. -/
def get_width_internal (s : ILI9XXXDisplay) : Int := s.width_

/-- `get_height_internal`. -/
def get_height_internal (s : ILI9XXXDisplay) : Int := s.height_

/-- `get_buffer_length_`: the number of pixels, as `uint32_t`. -/
def get_buffer_length_ (s : ILI9XXXDisplay) : Nat :=
  toU32 (s.get_width_internal * s.get_height_internal)

/-! ### Transport primitives -/

/-- `write_byte`: one byte on the bus at the current data/command level. -/
def write_byte (s : ILI9XXXDisplay) (value : Int) : ILI9XXXDisplay :=
  { s with bus := s.bus ++ [BusEvent.write s.dc_pin_ (toU8 value)] }

/-- `write_array(data, length)`: the first `length` bytes of `data`, in order. -/
def write_array (s : ILI9XXXDisplay) (data : List Nat) (length : Nat) : ILI9XXXDisplay :=
  { s with bus := s.bus ++ (data.take length).map (BusEvent.write s.dc_pin_) }

/-- `delay(ms)`. -/
def delay (s : ILI9XXXDisplay) (ms : Nat) : ILI9XXXDisplay :=
  { s with bus := s.bus ++ [BusEvent.delay ms] }

/-- `start_command_`: data/command line low, then chip select. -/
def start_command_ (s : ILI9XXXDisplay) : ILI9XXXDisplay := { s with dc_pin_ := false }

/-- `start_data_`: data/command line high, then chip select. -/
def start_data_ (s : ILI9XXXDisplay) : ILI9XXXDisplay := { s with dc_pin_ := true }

/-- `end_command_`: chip select released. -/
def end_command_ (s : ILI9XXXDisplay) : ILI9XXXDisplay := s

/-- `end_data_`: chip select released. -/
def end_data_ (s : ILI9XXXDisplay) : ILI9XXXDisplay := s

/-- `command(value)`. -/
def command (s : ILI9XXXDisplay) (value : Nat) : ILI9XXXDisplay :=
  end_command_ (write_byte (start_command_ s) value)

/-- `data(value)`. -/
def data (s : ILI9XXXDisplay) (value : Nat) : ILI9XXXDisplay :=
  end_data_ (write_byte (start_data_ s) value)

/-- `send_command(command_byte, data_bytes, num_data_bytes)`. -/
def send_command (s : ILI9XXXDisplay) (command_byte : Nat) (data_bytes : List Nat)
    (num_data_bytes : Nat) : ILI9XXXDisplay :=
  end_data_ (write_array (start_data_ (command s command_byte)) data_bytes num_data_bytes)

/-- `set_addr_window_(x1, y1, w, h)`, all four arguments `uint16_t`. -/
def set_addr_window_ (s : ILI9XXXDisplay) (x1 y1 w h : Nat) : ILI9XXXDisplay :=
  let x2 := toU16 ((x1 : Int) + w - 1)
  let y2 := toU16 ((y1 : Int) + h - 1)
  let s := command s ILI9XXX_CASET
  let s := start_data_ s
  let s := write_byte s (x1 >>> 8)
  let s := write_byte s x1
  let s := write_byte s (x2 >>> 8)
  let s := write_byte s x2
  let s := end_data_ s
  let s := command s ILI9XXX_PASET
  let s := start_data_ s
  let s := write_byte s (y1 >>> 8)
  let s := write_byte s y1
  let s := write_byte s (y2 >>> 8)
  let s := write_byte s y2
  let s := end_data_ s
  command s ILI9XXX_RAMWR

/-- `invert_display_(invert)`. -/
def invert_display_ (s : ILI9XXXDisplay) (invert : Bool) : ILI9XXXDisplay :=
  command s (if invert then ILI9XXX_INVON else ILI9XXX_INVOFF)

/-! ### Drawing -/

/-- The body of the 16-bit `for` loop of `fill`: `n` pixels from byte index `i` on, each
set to the bytes `hi`, `lo`. -/
def fill_loop (hi lo : Nat) : Nat → Nat → List Nat → List Nat
  | 0, _, buffer => buffer
  | n + 1, i, buffer => fill_loop hi lo n (i + 2) ((buffer.set i hi).set (i + 1) lo)

/-- `memset(buffer, value, n)`. -/
def memset : List Nat → Nat → Nat → List Nat
  | [], _, _ => []
  | b :: bs, _, 0 => b :: bs
  | _ :: bs, value, n + 1 => value :: memset bs value n

/-- `fill(color)`. The watermarks are set to the full extent first; the 16-bit case
writes the two bytes of the 565 value pixel by pixel and returns, the 8-bit cases end
in the `memset`. -/
def fill (cu : ColorUtil) (s : ILI9XXXDisplay) (color : Color) : ILI9XXXDisplay :=
  let s := { s with x_low_ := 0, y_low_ := 0,
                    x_high_ := toU16 (s.get_width_internal - 1),
                    y_high_ := toU16 (s.get_height_internal - 1) }
  match s.buffer_color_mode_ with
  | ILI9XXXColorMode.BITS_8_INDEXED =>
    let new_color := cu.color_to_index8_palette888 color s.palette_ % 256
    { s with buffer_ := memset s.buffer_ (toU8 new_color) s.get_buffer_length_ }
  | ILI9XXXColorMode.BITS_16 =>
    let new_color := cu.color_to_565 color % 65536
    { s with buffer_ := fill_loop (toU8 (new_color >>> 8)) (toU8 new_color)
                          (s.get_buffer_length_ * 2 % 4294967296 / 2) 0 s.buffer_ }
  | ILI9XXXColorMode.BITS_8 =>
    let new_color := cu.color_to_332 color % 256
    { s with buffer_ := memset s.buffer_ (toU8 new_color) s.get_buffer_length_ }

/-- `draw_absolute_pixel_internal(x, y, color)`, the pixel write. `x` and `y` are `int`. -/
def draw_absolute_pixel_internal (cu : ColorUtil) (s : ILI9XXXDisplay) (x y : Int)
    (color : Color) : ILI9XXXDisplay :=
  if x ≥ s.get_width_internal ∨ x < 0 ∨ y ≥ s.get_height_internal ∨ y < 0 then s
  else
    let pos0 := toU32 (y * s.width_ + x)
    -- the `switch`: position and value of the final byte, buffer and flag so far
    let sw : Nat × Nat × List Nat × Bool :=
      match s.buffer_color_mode_ with
      | ILI9XXXColorMode.BITS_8_INDEXED =>
        (pos0, cu.color_to_index8_palette888 color s.palette_ % 256, s.buffer_, false)
      | ILI9XXXColorMode.BITS_16 =>
        let pos := pos0 * 2 % 4294967296
        let new_color := cu.color_to_565 color % 65536
        let hi := toU8 (new_color >>> 8)
        let pos1 := (pos + 1) % 4294967296
        if s.buffer_.getD pos 0 ≠ hi then
          (pos1, new_color &&& 0xFF, s.buffer_.set pos hi, true)
        else
          (pos1, new_color &&& 0xFF, s.buffer_, false)
      | ILI9XXXColorMode.BITS_8 =>
        (pos0, cu.color_to_332 color % 256, s.buffer_, false)
    let pos := sw.1
    let new_color := sw.2.1
    let buffer := sw.2.2.1
    let updated := sw.2.2.2
    let fin : List Nat × Bool :=
      if buffer.getD pos 0 ≠ new_color then (buffer.set pos (toU8 new_color), true)
      else (buffer, updated)
    if fin.2 then
      { s with buffer_ := fin.1,
               x_low_ := toU16 (if x < s.x_low_ then x else s.x_low_),
               y_low_ := toU16 (if y < s.y_low_ then y else s.y_low_),
               x_high_ := toU16 (if x > s.x_high_ then x else s.x_high_),
               y_high_ := toU16 (if y > s.y_high_ then y else s.y_high_) }
    else
      { s with buffer_ := fin.1 }

/-! ### Flush -/

/-- The `for` loop of `buffer_to_transfer_`: `n` pixels, reading the framebuffer from
index `src` and writing the staging buffer from index `dst`. -/
def transfer_loop (cu : ColorUtil) (mode : ILI9XXXColorMode) (palette buffer : List Nat) :
    Nat → Nat → Nat → List Nat → List Nat
  | 0, _, _, tb => tb
  | n + 1, src, dst, tb =>
    match mode with
    | ILI9XXXColorMode.BITS_8_INDEXED =>
      let color :=
        cu.color_to_565 (cu.index8_to_color_palette888 (buffer.getD src 0) palette) % 65536
      transfer_loop cu mode palette buffer n (src + 1) (dst + 2)
        ((tb.set dst (toU8 (color >>> 8))).set (dst + 1) (toU8 color))
    | ILI9XXXColorMode.BITS_16 =>
      transfer_loop cu mode palette buffer n (src + 2) (dst + 2)
        ((tb.set dst (buffer.getD src 0)).set (dst + 1) (buffer.getD (src + 1) 0))
    | ILI9XXXColorMode.BITS_8 =>
      let color := cu.color_to_565 (cu.rgb332_to_color (buffer.getD src 0)) % 65536
      transfer_loop cu mode palette buffer n (src + 1) (dst + 2)
        ((tb.set dst (toU8 (color >>> 8))).set (dst + 1) (toU8 color))

/-- `buffer_to_transfer_(pos, sz)`: stages at most `sizeof(transfer_buffer_) / 2` pixels
read from `buffer_ + pos` and returns the number staged. -/
def buffer_to_transfer_ (cu : ColorUtil) (s : ILI9XXXDisplay) (pos sz : Nat) :
    ILI9XXXDisplay × Nat :=
  let sz := if sz > s.transfer_buffer_.length / 2 then s.transfer_buffer_.length / 2 else sz
  ({ s with transfer_buffer_ :=
      transfer_loop cu s.buffer_color_mode_ s.palette_ s.buffer_ sz pos 0 s.transfer_buffer_ },
   sz)

/-- The `while (rem > 0)` loop of `display_` for one row. It runs out of fuel, and
yields `none`, exactly when the C loop does not finish within `fuel` rounds. -/
def display_row (cu : ColorUtil) : Nat → ILI9XXXDisplay → Nat → Nat → Option ILI9XXXDisplay
  | 0, s, _, rem => if rem > 0 then none else some s
  | fuel + 1, s, pos, rem =>
    if rem > 0 then
      let r := buffer_to_transfer_ cu s pos rem
      let s := write_array r.1 r.1.transfer_buffer_ (2 * r.2)
      display_row cu fuel s ((pos + r.2) % 4294967296) (rem - r.2)
    else some s

/-- The `for (row = 0; row < h; row++)` loop of `display_`: `n` rows from `row` on. Each
row may take as many rounds as it has pixels. -/
def display_rows (cu : ColorUtil) (start_pos w : Nat) :
    Nat → Nat → ILI9XXXDisplay → Option ILI9XXXDisplay
  | 0, _, s => some s
  | n + 1, row, s =>
    let pos := toU32 ((start_pos : Int) + row * s.width_)
    match display_row cu w s pos w with
    | none => none
    | some s => display_rows cu start_pos w n (row + 1) s

/-- `display_()`, the flush. -/
def display_ (cu : ColorUtil) (s : ILI9XXXDisplay) : Option ILI9XXXDisplay :=
  let w := toU16 ((s.x_high_ : Int) - s.x_low_ + 1)
  let h := toU16 ((s.y_high_ : Int) - s.y_low_ + 1)
  let start_pos := toU32 ((s.y_low_ : Int) * s.width_ + s.x_low_)
  if s.x_high_ < s.x_low_ ∨ s.y_high_ < s.y_low_ then some s
  else
    let s := set_addr_window_ s s.x_low_ s.y_low_ w h
    let s := start_data_ s
    match display_rows cu start_pos w h 0 s with
    | none => none
    | some s =>
      let s := end_data_ s
      some { s with x_low_ := toU16 s.width_, y_low_ := toU16 s.height_,
                    x_high_ := 0, y_high_ := 0 }

/-! ### Startup -/

/-- `reset_()`. -/
def reset_ (s : ILI9XXXDisplay) : ILI9XXXDisplay :=
  match s.reset_pin_ with
  | none => s
  | some _ =>
    let s := { s with reset_pin_ := some false }
    let s := delay s 10
    let s := { s with reset_pin_ := some true }
    delay s 10

/-- `setup_pins_()`. -/
def setup_pins_ (s : ILI9XXXDisplay) : ILI9XXXDisplay :=
  let s := { s with dc_pin_ := false }
  let s := match s.reset_pin_ with
    | none => s
    | some _ => { s with reset_pin_ := some true }
  let s := match s.backlight_pin_ with
    | none => s
    | some _ => { s with backlight_pin_ := some true }
  reset_ s

/-- The `while` loop of `init_lcd_`, reading the table `init_cmd` from index `addr`.
A read outside the table, or running out of fuel, yields `none`. -/
def init_lcd_loop (init_cmd : List Nat) : Nat → Nat → ILI9XXXDisplay → Option ILI9XXXDisplay
  | 0, _, _ => none
  | fuel + 1, addr, s =>
    match init_cmd[addr]? with
    | none => none
    | some cmd =>
      if cmd > 0 then
        match init_cmd[addr + 1]? with
        | none => none
        | some x =>
          let num_args := x &&& 0x7F
          if addr + 2 + num_args ≤ init_cmd.length then
            let s := send_command s cmd (init_cmd.drop (addr + 2)) num_args
            let s := if x &&& 0x80 ≠ 0 then delay s 150 else s
            init_lcd_loop init_cmd fuel (addr + 2 + num_args) s
          else none
      else some s

/-- `init_lcd_(init_cmd)`. Every round but the last consumes at least two bytes of the
table, so as many rounds as the table has bytes are enough. -/
def init_lcd_ (s : ILI9XXXDisplay) (init_cmd : List Nat) : Option ILI9XXXDisplay :=
  init_lcd_loop init_cmd init_cmd.length 0 s

end ILI9XXXDisplay

/-- What the `initialize()` overrides of the concrete displays differ in: the
initialisation table, the geometry, and whether the display is inverted afterwards. -/
structure Panel where
  init_cmd : List Nat
  width : Int
  height : Int
  invert : Bool

/-- `ILI9XXXM5Stack::initialize`, with the table `INITCMD_M5STACK` as a parameter. -/
def ILI9XXXM5Stack (INITCMD_M5STACK : List Nat) : Panel := ⟨INITCMD_M5STACK, 320, 240, true⟩

/-- `ILI9XXXILI9341::initialize`, with the table `INITCMD_ILI9341` as a parameter. -/
def ILI9XXXILI9341 (INITCMD_ILI9341 : List Nat) : Panel := ⟨INITCMD_ILI9341, 240, 320, false⟩

/-- `ILI9XXXILI9342::initialize`, with the table `INITCMD_ILI9341` as a parameter. -/
def ILI9XXXILI9342 (INITCMD_ILI9341 : List Nat) : Panel := ⟨INITCMD_ILI9341, 320, 240, false⟩

/-- `ILI9XXXILI9481::initialize`, with the table `INITCMD_ILI9481` as a parameter. -/
def ILI9XXXILI9481 (INITCMD_ILI9481 : List Nat) : Panel := ⟨INITCMD_ILI9481, 480, 320, false⟩

/-- `ILI9XXXILI9486::initialize`, with the table `INITCMD_ILI9486` as a parameter. -/
def ILI9XXXILI9486 (INITCMD_ILI9486 : List Nat) : Panel := ⟨INITCMD_ILI9486, 480, 320, false⟩

/-- `ILI9XXXILI9488::initialize`, with the table `INITCMD_ILI9488` as a parameter. -/
def ILI9XXXILI9488 (INITCMD_ILI9488 : List Nat) : Panel := ⟨INITCMD_ILI9488, 480, 320, false⟩

/-- `ILI9XXXST7796::initialize`, with the table `INITCMD_ST7796` as a parameter. -/
def ILI9XXXST7796 (INITCMD_ST7796 : List Nat) : Panel := ⟨INITCMD_ST7796, 480, 320, false⟩

namespace ILI9XXXDisplay

/-- The virtual `initialize()` of the display `p`: replay the table, set the geometry,
invert if the display asks for it. -/
def initialize_ (p : Panel) (s : ILI9XXXDisplay) : Option ILI9XXXDisplay :=
  match init_lcd_ s p.init_cmd with
  | none => none
  | some s =>
    let s := { s with width_ := p.width, height_ := p.height }
    some (if p.invert then invert_display_ s true else s)

/-- Modelled from the spec: `init_internal_(buffer_length)` of the display-buffer base
class, which is not among the sources. The allocation either fails (`buffer_` stays null,
here the empty list) or yields a buffer; it does nothing else to the driver. The outcome
is the parameter `alloc`, asked once per request. -/
def init_internal_ (alloc : Nat → Option (List Nat)) (s : ILI9XXXDisplay)
    (buffer_length : Nat) : ILI9XXXDisplay × Bool :=
  match alloc buffer_length with
  | none => ({ s with buffer_ := [] }, false)
  | some buffer => ({ s with buffer_ := buffer }, true)

/-- `setup()` for the display `p`. The second component of `init_internal_` answers
`buffer_ != nullptr`. -/
def setup (p : Panel) (alloc : Nat → Option (List Nat)) (s : ILI9XXXDisplay) :
    Option ILI9XXXDisplay :=
  let s := setup_pins_ s
  match initialize_ p s with
  | none => none
  | some s =>
    let s := { s with x_low_ := toU16 s.width_, y_low_ := toU16 s.height_,
                      x_high_ := 0, y_high_ := 0 }
    let second (s : ILI9XXXDisplay) : ILI9XXXDisplay :=
      let r := init_internal_ alloc s s.get_buffer_length_
      if r.2 then r.1 else { r.1 with failed := true }
    if s.buffer_color_mode_ = ILI9XXXColorMode.BITS_16 then
      let r := init_internal_ alloc s (s.get_buffer_length_ * 2 % 4294967296)
      if r.2 then some r.1
      else some (second { r.1 with buffer_color_mode_ := ILI9XXXColorMode.BITS_8_INDEXED })
    else some (second s)

/-! ## Notions the properties are stated with -/

/-- The bytes a pixel occupies in the encoding `mode`. -/
def bytes_per_pixel : ILI9XXXColorMode → Nat
  | ILI9XXXColorMode.BITS_16 => 2
  | _ => 1

/-- The bytes that encode `color` in the active encoding of `s`: for 16 bits the high byte
of the 565 value, then the low byte. -/
def encoding (cu : ColorUtil) (s : ILI9XXXDisplay) (color : Color) : List Nat :=
  match s.buffer_color_mode_ with
  | ILI9XXXColorMode.BITS_8_INDEXED => [cu.color_to_index8_palette888 color s.palette_ % 256]
  | ILI9XXXColorMode.BITS_16 =>
    [cu.color_to_565 color % 65536 / 256, cu.color_to_565 color % 65536 % 256]
  | ILI9XXXColorMode.BITS_8 => [cu.color_to_332 color % 256]

/-- The byte offset of pixel `(x, y)`: `(y * width + x) * bytes_per_pixel`. -/
def pixel_offset (s : ILI9XXXDisplay) (x y : Int) : Nat :=
  (y * s.width_ + x).toNat * bytes_per_pixel s.buffer_color_mode_

/-- The stored bytes of pixel `(x, y)`. -/
def pixel_bytes (s : ILI9XXXDisplay) (x y : Int) : List Nat :=
  (List.range (bytes_per_pixel s.buffer_color_mode_)).map
    fun k => s.buffer_.getD (pixel_offset s x y + k) 0

/-- The canonical empty dirty rectangle. -/
def rect_empty (s : ILI9XXXDisplay) : Prop :=
  (s.x_low_ : Int) = s.width_ ∧ (s.y_low_ : Int) = s.height_ ∧ s.x_high_ = 0 ∧ s.y_high_ = 0

instance (s : ILI9XXXDisplay) : Decidable s.rect_empty := by
  unfold rect_empty; infer_instance

/-- A dirty rectangle that is not empty and lies on the panel. -/
def rect_within (s : ILI9XXXDisplay) : Prop :=
  s.x_low_ ≤ s.x_high_ ∧ (s.x_high_ : Int) < s.width_ ∧
  s.y_low_ ≤ s.y_high_ ∧ (s.y_high_ : Int) < s.height_

instance (s : ILI9XXXDisplay) : Decidable s.rect_within := by
  unfold rect_within; infer_instance

/-- Pixel `(x, y)` lies in the dirty rectangle. -/
def in_rect (s : ILI9XXXDisplay) (x y : Int) : Prop :=
  (s.x_low_ : Int) ≤ x ∧ x ≤ s.x_high_ ∧ (s.y_low_ : Int) ≤ y ∧ y ≤ s.y_high_

instance (s : ILI9XXXDisplay) (x y : Int) : Decidable (s.in_rect x y) := by
  unfold in_rect; infer_instance

/-- The framebuffer has the length the data model gives it. -/
def buffer_sized (s : ILI9XXXDisplay) : Prop :=
  s.buffer_.length = (s.width_ * s.height_).toNat * bytes_per_pixel s.buffer_color_mode_

instance (s : ILI9XXXDisplay) : Decidable s.buffer_sized := by
  unfold buffer_sized; infer_instance

/-- The dirty rectangle of `s` covers every pixel of the panel whose stored bytes differ
from those it has in `s0`; geometry and encoding are those of `s0`, and the high
watermarks are within `uint16_t`. -/
def covers_changes (s0 s : ILI9XXXDisplay) : Prop :=
  s.width_ = s0.width_ ∧ s.height_ = s0.height_ ∧
  s.buffer_color_mode_ = s0.buffer_color_mode_ ∧ s.x_high_ < 65536 ∧ s.y_high_ < 65536 ∧
  ∀ x y : Int, 0 ≤ x → x < s0.width_ → 0 ≤ y → y < s0.height_ →
    s.pixel_bytes x y ≠ s0.pixel_bytes x y → s.in_rect x y

/-- The dirty rectangle of `s` is the bounding box of the coordinates `A`: each watermark
is attained by one of them and bounds all of them; for no coordinates at all it is the
canonical empty rectangle. -/
def bounding_box (s : ILI9XXXDisplay) (A : List (Int × Int)) : Prop :=
  (A = [] → s.rect_empty) ∧
  (A ≠ [] →
    ((∃ a ∈ A, a.1 = (s.x_low_ : Int)) ∧ ∀ a ∈ A, (s.x_low_ : Int) ≤ a.1) ∧
    ((∃ a ∈ A, a.2 = (s.y_low_ : Int)) ∧ ∀ a ∈ A, (s.y_low_ : Int) ≤ a.2) ∧
    ((∃ a ∈ A, a.1 = (s.x_high_ : Int)) ∧ ∀ a ∈ A, a.1 ≤ (s.x_high_ : Int)) ∧
    ((∃ a ∈ A, a.2 = (s.y_high_ : Int)) ∧ ∀ a ∈ A, a.2 ≤ (s.y_high_ : Int)))

/-- The address-window sequence for the column bounds `x1`, `x2` and the row bounds
`y1`, `y2`: three command bytes, the bounds as 16-bit big-endian data bytes. -/
def address_window (x1 x2 y1 y2 : Nat) : List BusEvent :=
  [BusEvent.write false ILI9XXX_CASET,
   BusEvent.write true (x1 / 256 % 256), BusEvent.write true (x1 % 256),
   BusEvent.write true (x2 / 256 % 256), BusEvent.write true (x2 % 256),
   BusEvent.write false ILI9XXX_PASET,
   BusEvent.write true (y1 / 256 % 256), BusEvent.write true (y1 % 256),
   BusEvent.write true (y2 / 256 % 256), BusEvent.write true (y2 % 256),
   BusEvent.write false ILI9XXX_RAMWR]

/-- A drawing call of the rendering layer. -/
inductive DrawCall where
  | write_pixel (x y : Int) (color : Color)
  | fill (color : Color)

/-- One drawing call applied to the driver. -/
def draw_call (cu : ColorUtil) (s : ILI9XXXDisplay) : DrawCall → ILI9XXXDisplay
  | DrawCall.write_pixel x y color => draw_absolute_pixel_internal cu s x y color
  | DrawCall.fill color => fill cu s color

/-- A sequence of drawing calls, applied in order. -/
def draw_calls (cu : ColorUtil) (s : ILI9XXXDisplay) (calls : List DrawCall) : ILI9XXXDisplay :=
  calls.foldl (draw_call cu) s

/-- A sequence of pixel writes, applied in order. -/
def write_pixels (cu : ColorUtil) (s : ILI9XXXDisplay) (calls : List (Int × Int × Color)) :
    ILI9XXXDisplay :=
  calls.foldl (fun s q => draw_absolute_pixel_internal cu s q.1 q.2.1 q.2.2) s

/-- The coordinates of those pixel writes of a sequence that altered the framebuffer at
the time they were made. -/
def altering (cu : ColorUtil) : ILI9XXXDisplay → List (Int × Int × Color) → List (Int × Int)
  | _, [] => []
  | s, q :: rest =>
    let s1 := draw_absolute_pixel_internal cu s q.1 q.2.1 q.2.2
    if s1.buffer_ ≠ s.buffer_ then (q.1, q.2.1) :: altering cu s1 rest
    else altering cu s1 rest

/-- The states the driver of the display `p` reaches from `setup` by pixel writes, fills
and flushes. -/
inductive Reachable (cu : ColorUtil) (p : Panel) (alloc : Nat → Option (List Nat)) :
    ILI9XXXDisplay → Prop where
  | setup (s0 s : ILI9XXXDisplay) : setup p alloc s0 = some s → Reachable cu p alloc s
  | write_pixel (s : ILI9XXXDisplay) (x y : Int) (color : Color) :
      Reachable cu p alloc s → Reachable cu p alloc (draw_absolute_pixel_internal cu s x y color)
  | fill (s : ILI9XXXDisplay) (color : Color) :
      Reachable cu p alloc s → Reachable cu p alloc (fill cu s color)
  | flush (s s1 : ILI9XXXDisplay) :
      Reachable cu p alloc s → display_ cu s = some s1 → Reachable cu p alloc s1

end ILI9XXXDisplay

/-! ## Concrete data for the examples -/

/-- Modelled from the spec: a pixel codec to evaluate examples with, since the codec of
the display component is not among the sources. 565 and 332 are the direct bit packings
of the most significant bits; the palette is a flat list of red, green, blue bytes, and a
colour is encoded as the index of the first exact match (0 if there is none). -/
def sample_codec : ColorUtil where
  color_to_565 c := ((c.red >>> 3) <<< 11) ||| ((c.green >>> 2) <<< 5) ||| (c.blue >>> 3)
  color_to_332 c := ((c.red >>> 5) <<< 5) ||| ((c.green >>> 5) <<< 2) ||| (c.blue >>> 6)
  color_to_index8_palette888 c palette :=
    ((List.range (palette.length / 3)).find? fun i =>
      palette.getD (3 * i) 0 = c.red ∧ palette.getD (3 * i + 1) 0 = c.green ∧
      palette.getD (3 * i + 2) 0 = c.blue).getD 0
  index8_to_color_palette888 i palette :=
    ⟨palette.getD (3 * i) 0, palette.getD (3 * i + 1) 0, palette.getD (3 * i + 2) 0, 0⟩
  rgb332_to_color v := ⟨(v >>> 5) <<< 5, ((v >>> 2) &&& 7) <<< 5, (v &&& 3) <<< 6, 0⟩

/-- Pure red. -/
def red : Color := ⟨255, 0, 0, 0⟩

/-- Pure blue. -/
def blue : Color := ⟨0, 0, 255, 0⟩

/-- A driver object with the given encoding, geometry and framebuffer, nothing dirty,
an empty bus trace and a staging buffer of `2 * cap` bytes. -/
def sample_display (mode : ILI9XXXColorMode) (width height : Int) (buffer : List Nat)
    (cap : Nat) : ILI9XXXDisplay where
  width_ := width
  height_ := height
  x_low_ := toU16 width
  y_low_ := toU16 height
  x_high_ := 0
  y_high_ := 0
  palette_ := []
  buffer_color_mode_ := mode
  buffer_ := buffer
  transfer_buffer_ := List.replicate (2 * cap) 0
  dc_pin_ := false
  reset_pin_ := none
  backlight_pin_ := none
  bus := []
  failed := false

/-- The end-to-end example of the specification just before the flush: a 240x320 panel
in the 16-bit encoding whose dirty rectangle spans (10, 20) to (50, 60), with a staging
buffer of 32 pixels. -/
def example_dirty : ILI9XXXDisplay :=
  { sample_display ILI9XXXColorMode.BITS_16 240 320 (List.replicate 153600 0) 32 with
    x_low_ := 10, y_low_ := 20, x_high_ := 50, y_high_ := 60 }

/-- A 3x2 panel in the 16-bit encoding with the framebuffer bytes 1 to 12, nothing dirty,
and a staging buffer of two pixels. -/
def small16 : ILI9XXXDisplay :=
  sample_display ILI9XXXColorMode.BITS_16 3 2 [1, 2, 3, 4, 5, 6, 7, 8, 9, 10, 11, 12] 2

/-- An initialisation table in the format `init_lcd_` reads: a command with no
argument and the delay flag, a command with one argument, the terminating zero. -/
def sample_table : List Nat := [0x01, 0x80, 0x3A, 0x01, 0x55, 0x00]

/-- An allocator that always succeeds and hands out zeroed memory. -/
def sample_alloc (n : Nat) : Option (List Nat) := some (List.replicate n 0)

/-- A driver object as constructed, before `setup`: 16-bit encoding requested, no
framebuffer yet, no reset or backlight pin, a staging buffer of 32 pixels. -/
def fresh_object : ILI9XXXDisplay := sample_display ILI9XXXColorMode.BITS_16 0 0 [] 32

/-- The state `setup` leaves for the ILI9341 display, from `fresh_object` and with
`sample_table` and `sample_alloc`. -/
def after_setup : ILI9XXXDisplay :=
  { sample_display ILI9XXXColorMode.BITS_16 240 320 (List.replicate 153600 0) 32 with
    dc_pin_ := true,
    bus := [BusEvent.write false 0x01, BusEvent.delay 150, BusEvent.write false 0x3A,
            BusEvent.write true 0x55] }

namespace ILI9XXXDisplay

/-- The buffer `buffer` with the bytes `bytes` stored from index `off` on. -/
def store_bytes : List Nat → Nat → List Nat → List Nat
  | buffer, _, [] => buffer
  | buffer, off, b :: bs => store_bytes (buffer.set off b) (off + 1) bs

/-- The state `s` with the new framebuffer `buffer` and the watermarks extended to the
pixel `(x, y)`, the way the pixel write extends them. -/
def extended (s : ILI9XXXDisplay) (buffer : List Nat) (x y : Int) : ILI9XXXDisplay :=
  { s with buffer_ := buffer,
           x_low_ := toU16 (if x < s.x_low_ then x else s.x_low_),
           y_low_ := toU16 (if y < s.y_low_ then y else s.y_low_),
           x_high_ := toU16 (if x > s.x_high_ then x else s.x_high_),
           y_high_ := toU16 (if y > s.y_high_ then y else s.y_high_) }

end ILI9XXXDisplay

/-- One record of an initialisation table: the command byte, the byte `x` that holds the
argument count (low seven bits) and the delay flag (bit 7), and the argument bytes. -/
structure InitRecord where
  cmd : Nat
  x : Nat
  args : List Nat

namespace InitRecord

/-- The bytes of the record in the table. -/
def bytes (r : InitRecord) : List Nat := r.cmd :: r.x :: r.args

/-- The command byte is a byte other than zero, and there are as many argument bytes as
the low seven bits of `x` say. -/
def well_formed (r : InitRecord) : Prop :=
  0 < r.cmd ∧ r.cmd < 256 ∧ r.args.length = r.x &&& 0x7F

instance (r : InitRecord) : Decidable r.well_formed := by
  unfold well_formed; infer_instance

/-- What replaying the record puts on the bus: the command byte, the argument bytes as
data, and the settle delay if bit 7 of `x` is set. -/
def events (r : InitRecord) : List BusEvent :=
  BusEvent.write false r.cmd :: r.args.map (BusEvent.write true) ++
    (if r.x &&& 0x80 ≠ 0 then [BusEvent.delay 150] else [])

end InitRecord

/-- The table of the records `records`: their bytes in order, then the terminating
zero. -/
def init_table (records : List InitRecord) : List Nat :=
  (records.map InitRecord.bytes).flatten ++ [0]

namespace ILI9XXXDisplay


/-! ### Read-back -/

/-- `read_byte()`: the transport answers with the byte `value`. -/
def read_byte (s : ILI9XXXDisplay) (value : Nat) : ILI9XXXDisplay :=
  { s with bus := s.bus ++ [BusEvent.read value] }

/-- The `do ... while (index--)` loop of `read_command`, entered with the counter `index`
before its `k`-th read; `miso k` is what the transport answers to read `k`. The test sees
the counter before the decrement, so the loop goes on while that is not zero. -/
def read_loop (miso : Nat → Nat) : Nat → Nat → ILI9XXXDisplay → ILI9XXXDisplay × Nat
  | 0, k, s => (read_byte s (miso k % 256), miso k % 256)
  | index + 1, k, s => read_loop miso index (k + 1) (read_byte s (miso k % 256))

/-- `read_command(command_byte, index)`, both `uint8_t`; returns the state and `result`. -/
def read_command (s : ILI9XXXDisplay) (command_byte index : Nat) (miso : Nat → Nat) :
    ILI9XXXDisplay × Nat :=
  let index := index % 256
  let data := toU8 (0x10 + (index : Int))
  let s := send_command s 0xD9 [data] 1
  let s := start_command_ s
  let s := write_byte s command_byte
  let s := start_data_ s
  let r := read_loop miso index 0 s
  (end_data_ r.1, r.2)


end ILI9XXXDisplay

/-- An allocator that cannot serve the 153600 bytes of a 240x320 framebuffer at two bytes
per pixel, and serves every other request with zeroed memory. -/
def short_alloc (n : Nat) : Option (List Nat) :=
  if n = 153600 then none else some (List.replicate n 0)

/-- The state `fresh_object` is in when `setup` for the ILI9341 display with
`sample_table` comes to allocate: the table replayed, the geometry set. -/
def initialized : ILI9XXXDisplay :=
  { sample_display ILI9XXXColorMode.BITS_16 240 320 [] 32 with
    x_low_ := 0, y_low_ := 0, dc_pin_ := true,
    bus := [BusEvent.write false 0x01, BusEvent.delay 150, BusEvent.write false 0x3A,
            BusEvent.write true 0x55] }

namespace ILI9XXXDisplay


/-! ### The flush with a log of its staging calls -/

/-- One call of `buffer_to_transfer_` as the flush makes it: the argument `pos`, the
number `sz` of pixels it returns, the framebuffer indices it reads and the staging-buffer
indices it writes, in order. -/
structure Chunk where
  pos : Nat
  sz : Nat
  reads : List Nat
  writes : List Nat

/-- The loop `transfer_loop`, also yielding the framebuffer indices read and the
staging-buffer indices written; the first component is `transfer_loop`. -/
def transfer_loop_log (cu : ColorUtil) (mode : ILI9XXXColorMode) (palette buffer : List Nat) :
    Nat → Nat → Nat → List Nat → List Nat × List Nat × List Nat
  | 0, _, _, tb => (tb, [], [])
  | n + 1, src, dst, tb =>
    match mode with
    | ILI9XXXColorMode.BITS_8_INDEXED =>
      let color :=
        cu.color_to_565 (cu.index8_to_color_palette888 (buffer.getD src 0) palette) % 65536
      let r := transfer_loop_log cu mode palette buffer n (src + 1) (dst + 2)
        ((tb.set dst (toU8 (color >>> 8))).set (dst + 1) (toU8 color))
      (r.1, src :: r.2.1, dst :: (dst + 1) :: r.2.2)
    | ILI9XXXColorMode.BITS_16 =>
      let r := transfer_loop_log cu mode palette buffer n (src + 2) (dst + 2)
        ((tb.set dst (buffer.getD src 0)).set (dst + 1) (buffer.getD (src + 1) 0))
      (r.1, src :: (src + 1) :: r.2.1, dst :: (dst + 1) :: r.2.2)
    | ILI9XXXColorMode.BITS_8 =>
      let color := cu.color_to_565 (cu.rgb332_to_color (buffer.getD src 0)) % 65536
      let r := transfer_loop_log cu mode palette buffer n (src + 1) (dst + 2)
        ((tb.set dst (toU8 (color >>> 8))).set (dst + 1) (toU8 color))
      (r.1, src :: r.2.1, dst :: (dst + 1) :: r.2.2)

/-- `buffer_to_transfer_` with the record of the call. -/
def buffer_to_transfer_log (cu : ColorUtil) (s : ILI9XXXDisplay) (pos sz : Nat) :
    ILI9XXXDisplay × Nat × Chunk :=
  let sz := if sz > s.transfer_buffer_.length / 2 then s.transfer_buffer_.length / 2 else sz
  let r := transfer_loop_log cu s.buffer_color_mode_ s.palette_ s.buffer_ sz pos 0
    s.transfer_buffer_
  ({ s with transfer_buffer_ := r.1 }, sz, ⟨pos, sz, r.2.1, r.2.2⟩)

/-- The loop `display_row` with the record of its calls of `buffer_to_transfer_`. -/
def display_row_log (cu : ColorUtil) :
    Nat → ILI9XXXDisplay → Nat → Nat → Option (ILI9XXXDisplay × List Chunk)
  | 0, s, _, rem => if rem > 0 then none else some (s, [])
  | fuel + 1, s, pos, rem =>
    if rem > 0 then
      let r := buffer_to_transfer_log cu s pos rem
      let s := write_array r.1 r.1.transfer_buffer_ (2 * r.2.1)
      match display_row_log cu fuel s ((pos + r.2.1) % 4294967296) (rem - r.2.1) with
      | none => none
      | some t => some (t.1, r.2.2 :: t.2)
    else some (s, [])

/-- The loop `display_rows` with the record of its calls of `buffer_to_transfer_`. -/
def display_rows_log (cu : ColorUtil) (start_pos w : Nat) :
    Nat → Nat → ILI9XXXDisplay → Option (ILI9XXXDisplay × List Chunk)
  | 0, _, s => some (s, [])
  | n + 1, row, s =>
    let pos := toU32 ((start_pos : Int) + row * s.width_)
    match display_row_log cu w s pos w with
    | none => none
    | some t =>
      match display_rows_log cu start_pos w n (row + 1) t.1 with
      | none => none
      | some u => some (u.1, t.2 ++ u.2)

/-- The flush `display_` with the record of its calls of `buffer_to_transfer_`. -/
def display_log (cu : ColorUtil) (s : ILI9XXXDisplay) :
    Option (ILI9XXXDisplay × List Chunk) :=
  let w := toU16 ((s.x_high_ : Int) - s.x_low_ + 1)
  let h := toU16 ((s.y_high_ : Int) - s.y_low_ + 1)
  let start_pos := toU32 ((s.y_low_ : Int) * s.width_ + s.x_low_)
  if s.x_high_ < s.x_low_ ∨ s.y_high_ < s.y_low_ then some (s, [])
  else
    let s := set_addr_window_ s s.x_low_ s.y_low_ w h
    let s := start_data_ s
    match display_rows_log cu start_pos w h 0 s with
    | none => none
    | some t =>
      let s := end_data_ t.1
      some ({ s with x_low_ := toU16 s.width_, y_low_ := toU16 s.height_,
                     x_high_ := 0, y_high_ := 0 }, t.2)

/-- The positions of the calls follow one another from `pos` on: each call starts where
the one before it ended. -/
def consecutive : Nat → List Chunk → Prop
  | _, [] => True
  | pos, c :: rest => c.pos = pos ∧ consecutive (pos + c.sz) rest

/-! ### What the staging buffer holds after a call -/

/-- The two wire bytes staged for the pixel read at the framebuffer index `src`. -/
def wire_pixel (cu : ColorUtil) (mode : ILI9XXXColorMode) (palette buffer : List Nat)
    (src : Nat) : List Nat :=
  match mode with
  | ILI9XXXColorMode.BITS_8_INDEXED =>
    [toU8 (((cu.color_to_565
        (cu.index8_to_color_palette888 (buffer.getD src 0) palette) % 65536) >>> 8 : Nat)),
     toU8 ((cu.color_to_565
        (cu.index8_to_color_palette888 (buffer.getD src 0) palette) % 65536 : Nat))]
  | ILI9XXXColorMode.BITS_16 => [buffer.getD src 0, buffer.getD (src + 1) 0]
  | ILI9XXXColorMode.BITS_8 =>
    [toU8 (((cu.color_to_565 (cu.rgb332_to_color (buffer.getD src 0)) % 65536) >>> 8 : Nat)),
     toU8 ((cu.color_to_565 (cu.rgb332_to_color (buffer.getD src 0)) % 65536 : Nat))]

/-- The wire bytes of `n` pixels read from the framebuffer index `src` on, each pixel
`bytes_per_pixel` further. -/
def staged (cu : ColorUtil) (mode : ILI9XXXColorMode) (palette buffer : List Nat) :
    Nat → Nat → List Nat
  | 0, _ => []
  | n + 1, src =>
    wire_pixel cu mode palette buffer src ++
      staged cu mode palette buffer n (src + bytes_per_pixel mode)


/-- The 565 value sent for the pixel `(x, y)` in the one-byte encodings: the stored byte
`buffer[y * width + x]` decoded, by the palette for the indexed encoding and by the 332
expansion otherwise, and encoded as `uint16_t` 565. -/
def decoded565 (cu : ColorUtil) (s : ILI9XXXDisplay) (x y : Nat) : Nat :=
  match s.buffer_color_mode_ with
  | ILI9XXXColorMode.BITS_8_INDEXED =>
    cu.color_to_565
      (cu.index8_to_color_palette888 (s.buffer_.getD (y * s.width_.toNat + x) 0) s.palette_) %
      65536
  | _ => cu.color_to_565 (cu.rgb332_to_color (s.buffer_.getD (y * s.width_.toNat + x) 0)) % 65536

end ILI9XXXDisplay

/-- A 3x2 panel in the 332 encoding with six stored bytes, nothing dirty, and a staging
buffer of two pixels. -/
def small8 : ILI9XXXDisplay :=
  sample_display ILI9XXXColorMode.BITS_8 3 2 [0xE0, 0x1C, 0x03, 0xFF, 0x00, 0x07] 2

namespace ILI9XXXDisplay


end ILI9XXXDisplay

end esphome.ili9xxx

/-! # Properties -/

namespace esphome.ili9xxx

open ILI9XXXDisplay

/-! ## Arithmetic and list facts -/

theorem toU8_of_lt {n : Nat} (h : n < 256) : toU8 (n : Int) = n := by
  unfold toU8; omega

theorem toU8_natCast (n : Nat) : toU8 (n : Int) = n % 256 := by
  unfold toU8; omega

theorem toU16_of_lt {n : Nat} (h : n < 65536) : toU16 (n : Int) = n := by
  unfold toU16; omega

theorem toU16_of_range {v : Int} (h0 : 0 ≤ v) (h1 : v < 65536) : toU16 v = v.toNat := by
  unfold toU16; omega

theorem toU32_of_range {v : Int} (h0 : 0 ≤ v) (h1 : v < 4294967296) : toU32 v = v.toNat := by
  unfold toU32; omega

/-- Pixel indices of an `int16_t` panel are far below `2 ^ 32`. -/
theorem pixel_index_bound {x y W H : Int} (hx : 0 ≤ x) (hxW : x < W) (hy : 0 ≤ y)
    (hyH : y < H) (hW : W ≤ 32767) (hH : H ≤ 32767) :
    0 ≤ y * W + x ∧ y * W + x < W * H ∧ W * H ≤ 1073676289 := by
  have hW0 : 0 ≤ W := by omega
  have h1 : 0 ≤ y * W := mul_nonneg hy hW0
  have h2 : (y + 1) * W ≤ H * W := mul_le_mul_of_nonneg_right (by omega) hW0
  have h3 : H * W ≤ 32767 * 32767 := mul_le_mul hH hW hW0 (by norm_num)
  refine ⟨by omega, ?_, ?_⟩
  · nlinarith
  · nlinarith

theorem set_getD_self (l : List Nat) (i : Nat) : l.set i (l.getD i 0) = l := by
  by_cases hi : i < l.length
  · apply List.ext_getElem (by simp)
    intro n h1 h2
    by_cases hn : i = n
    · subst hn; simp [List.getD_eq_getElem?_getD, List.getElem?_eq_getElem hi]
    · simp [List.getElem_set, hn]
  · exact List.set_eq_of_length_le (by omega)

theorem getD_set (l : List Nat) (i j v : Nat) :
    (l.set i v).getD j 0 = if i = j ∧ i < l.length then v else l.getD j 0 := by
  by_cases hj : j < l.length
  · by_cases h : i = j
    · subst h; simp [List.getD_eq_getElem?_getD, hj]
    · simp [List.getD_eq_getElem?_getD, List.getElem?_set, h]
  · have : ¬ (i = j ∧ i < l.length) := by omega
    rw [if_neg this, List.getD_eq_default _ _ (by simpa using hj),
      List.getD_eq_default _ _ (by omega)]

/-- The pixel write in normal form: on the panel it stores the encoding, and it extends
the watermarks exactly when the stored bytes were different. -/
theorem draw_eq (cu : ColorUtil) (s : ILI9XXXDisplay) (x y : Int) (c : Color)
    (hW : s.width_ ≤ 32767) (hH : s.height_ ≤ 32767)
    (hx : 0 ≤ x) (hxW : x < s.width_) (hy : 0 ≤ y) (hyH : y < s.height_) :
    draw_absolute_pixel_internal cu s x y c =
      if s.pixel_bytes x y = s.encoding cu c then s
      else s.extended (store_bytes s.buffer_ (s.pixel_offset x y) (s.encoding cu c)) x y := by
  obtain ⟨b0, b1, b2⟩ := pixel_index_bound hx hxW hy hyH hW hH
  have hpos : toU32 (y * s.width_ + x) = (y * s.width_ + x).toNat := toU32_of_range b0 (by omega)
  have hP : (y * s.width_ + x).toNat < 1073676289 := by omega
  have hguard : ¬ (x ≥ s.get_width_internal ∨ x < 0 ∨ y ≥ s.get_height_internal ∨ y < 0) := by
    simp only [get_width_internal, get_height_internal]; omega
  unfold draw_absolute_pixel_internal
  rw [if_neg hguard]
  rcases s with ⟨W, H, xl, yl, xh, yh, pal, mode, buf, tb, dc, rp, bp, bus, failed⟩
  simp only at *
  have hv8 : ∀ n : Nat, toU8 ((n % 256 : Nat) : Int) = n % 256 := fun n =>
    toU8_of_lt (Nat.mod_lt _ (by norm_num))
  have hhi : ∀ n : Nat, toU8 (((n % 65536) >>> 8 : Nat) : Int) = n % 65536 / 256 := fun n => by
    rw [Nat.shiftRight_eq_div_pow]
    exact toU8_of_lt (by omega)
  have hlo : ∀ n : Nat, n % 65536 &&& 255 = n % 65536 % 256 := fun n =>
    Nat.and_pow_two_sub_one_eq_mod _ 8
  have hm1 : (y * W + x).toNat * 2 % 4294967296 = (y * W + x).toNat * 2 := by omega
  have hm2 : ((y * W + x).toNat * 2 + 1) % 4294967296 = (y * W + x).toNat * 2 + 1 := by omega
  cases mode
  · simp only [hpos, pixel_bytes, encoding, pixel_offset, bytes_per_pixel, extended, store_bytes, List.range_succ, List.range_zero, List.map, List.nil_append, List.map_cons, List.map_nil, List.cons_append, Nat.mul_one, Nat.add_zero, List.cons.injEq, and_true, hv8]
    by_cases h : buf.getD (y * W + x).toNat 0 = cu.color_to_332 c % 256
    · simp only [h, ne_eq, not_true_eq_false, not_false_eq_true, if_true, if_false, Bool.false_eq_true]
    · simp only [h, ne_eq, not_true_eq_false, not_false_eq_true, if_true, if_false, Bool.false_eq_true]
  · simp only [hpos, pixel_bytes, encoding, pixel_offset, bytes_per_pixel, extended, store_bytes, List.range_succ, List.range_zero, List.map, List.nil_append, List.map_cons, List.map_nil, List.cons_append, Nat.mul_one, Nat.add_zero, List.cons.injEq, and_true, hv8]
    by_cases h : buf.getD (y * W + x).toNat 0 = cu.color_to_index8_palette888 c pal % 256
    · simp only [h, ne_eq, not_true_eq_false, not_false_eq_true, if_true, if_false, Bool.false_eq_true]
    · simp only [h, ne_eq, not_true_eq_false, not_false_eq_true, if_true, if_false, Bool.false_eq_true]
  · simp only [hpos, pixel_bytes, encoding, pixel_offset, bytes_per_pixel, extended, store_bytes, List.range_succ, List.range_zero, List.map, List.nil_append, List.map_cons, List.map_nil, List.cons_append, Nat.mul_one, Nat.add_zero, List.cons.injEq, and_true, hhi, hlo, hm1, hm2, hv8, Nat.zero_add]
    by_cases h1 : buf.getD ((y * W + x).toNat * 2) 0 = cu.color_to_565 c % 65536 / 256
    · by_cases h2 : buf.getD ((y * W + x).toNat * 2 + 1) 0 = cu.color_to_565 c % 65536 % 256
      · simp only [h1, h2, ne_eq, not_true_eq_false, not_false_eq_true, if_true, if_false, Bool.false_eq_true, and_self]
      · simp only [h1, h2, ne_eq, not_true_eq_false, if_false, not_false_eq_true, if_true, and_false, true_and, Bool.false_eq_true, hv8]
        rw [← h1, set_getD_self]
    · by_cases h2 : buf.getD ((y * W + x).toNat * 2 + 1) 0 = cu.color_to_565 c % 65536 % 256
      · have hne : ¬ ((y * W + x).toNat * 2 = (y * W + x).toNat * 2 + 1 ∧ (y * W + x).toNat * 2 < buf.length) := by omega
        simp only [h1, ne_eq, not_false_eq_true, if_true, getD_set, hne, if_false, h2, not_true_eq_false, and_true, false_and, Bool.false_eq_true, hv8]
        have hk : buf.getD ((y * W + x).toNat * 2 + 1) 0 =
            (buf.set ((y * W + x).toNat * 2) (cu.color_to_565 c % 65536 / 256)).getD
              ((y * W + x).toNat * 2 + 1) 0 := by
          rw [getD_set, if_neg hne]
        rw [← h2, hk, set_getD_self]
      · have hne : ¬ ((y * W + x).toNat * 2 = (y * W + x).toNat * 2 + 1 ∧ (y * W + x).toNat * 2 < buf.length) := by omega
        simp only [h1, ne_eq, not_false_eq_true, if_true, getD_set, hne, if_false, h2, not_true_eq_false, and_true, false_and, Bool.false_eq_true, and_self, hv8]
theorem store_bytes_idem (buffer : List Nat) (off : Nat) (bytes : List Nat)
    (h : bytes.length ≤ 2) :
    store_bytes (store_bytes buffer off bytes) off bytes = store_bytes buffer off bytes := by
  match bytes, h with
  | [], _ => rfl
  | [a], _ => simp [store_bytes, List.set_set]
  | [a, b], _ =>
    simp only [store_bytes]
    have e1 : ((buffer.set off a).set (off + 1) b).set off a = (buffer.set off a).set (off + 1) b := by
      rw [List.set_comm b a (buffer.set off a) (show off + 1 ≠ off by omega), List.set_set]
    rw [e1, List.set_set]
  | _ :: _ :: _ :: _, h => simp at h

theorem encoding_length (cu : ColorUtil) (s : ILI9XXXDisplay) (c : Color) :
    (s.encoding cu c).length = bytes_per_pixel s.buffer_color_mode_ := by
  unfold encoding bytes_per_pixel
  cases s.buffer_color_mode_ <;> rfl

theorem low_mark_idem (x : Int) (a : Nat) (h0 : 0 ≤ x) (h1 : x < 65536) :
    toU16 (if x < ((toU16 (if x < (a : Int) then x else a) : Nat) : Int) then x
      else ((toU16 (if x < (a : Int) then x else a) : Nat) : Int)) =
    toU16 (if x < (a : Int) then x else a) := by
  unfold toU16; split_ifs <;> omega

theorem high_mark_idem (x : Int) (a : Nat) (h0 : 0 ≤ x) (h1 : x < 65536) (ha : a < 65536) :
    toU16 (if x > ((toU16 (if x > (a : Int) then x else a) : Nat) : Int) then x
      else ((toU16 (if x > (a : Int) then x else a) : Nat) : Int)) =
    toU16 (if x > (a : Int) then x else a) := by
  unfold toU16; split_ifs <;> omega

/-- C6: a pixel write outside `[0, width) x [0, height)` returns the state as it was:
framebuffer, watermarks and everything else unchanged, and no error. -/
theorem write_pixel_out_of_bounds (cu : ColorUtil) (s : ILI9XXXDisplay) (x y : Int) (c : Color)
    (h : x < 0 ∨ x ≥ s.width_ ∨ y < 0 ∨ y ≥ s.height_) :
    draw_absolute_pixel_internal cu s x y c = s := by
  unfold draw_absolute_pixel_internal
  rw [if_pos]
  simp only [get_width_internal, get_height_internal]
  omega

theorem write_pixel_out_of_bounds_witness :
    draw_absolute_pixel_internal sample_codec
      (sample_display ILI9XXXColorMode.BITS_16 3 2 [1, 2, 3, 4, 5, 6, 7, 8, 9, 10, 11, 12] 2)
      3 1 red =
    sample_display ILI9XXXColorMode.BITS_16 3 2 [1, 2, 3, 4, 5, 6, 7, 8, 9, 10, 11, 12] 2 :=
  write_pixel_out_of_bounds _ _ 3 1 red (by decide)

/-- C5: on a panel of `int16_t` geometry with `uint16_t` watermarks, a pixel write of a
colour whose encoding is already stored at the pixel leaves the whole state (the four
watermarks and the framebuffer included) unchanged, and writing the same pixel twice
gives the same state as writing it once. -/
theorem write_pixel_idempotent (cu : ColorUtil) (s : ILI9XXXDisplay) (x y : Int) (c : Color)
    (hr : s.InRange) (hx : 0 ≤ x) (hxW : x < s.width_) (hy : 0 ≤ y) (hyH : y < s.height_) :
    (s.pixel_bytes x y = s.encoding cu c → draw_absolute_pixel_internal cu s x y c = s) ∧
    draw_absolute_pixel_internal cu (draw_absolute_pixel_internal cu s x y c) x y c =
      draw_absolute_pixel_internal cu s x y c := by
  obtain ⟨⟨_, hW⟩, ⟨_, hH⟩, _, _, hxh, hyh⟩ := hr
  have h1 := draw_eq cu s x y c hW hH hx hxW hy hyH
  refine ⟨fun h => by rw [h1, if_pos h], ?_⟩
  by_cases h : s.pixel_bytes x y = s.encoding cu c
  · rw [h1, if_pos h, h1, if_pos h]
  · rw [h1, if_neg h]
    rw [draw_eq cu _ x y c (by exact hW) (by exact hH) hx (by exact hxW) hy (by exact hyH)]
    split_ifs with h2
    · rfl
    · have he : (s.extended (store_bytes s.buffer_ (s.pixel_offset x y) (s.encoding cu c))
          x y).encoding cu c = s.encoding cu c := rfl
      have ho : (s.extended (store_bytes s.buffer_ (s.pixel_offset x y) (s.encoding cu c))
          x y).pixel_offset x y = s.pixel_offset x y := rfl
      rw [he, ho]
      have hl : (s.encoding cu c).length ≤ 2 := by
        rw [encoding_length]; unfold bytes_per_pixel; split <;> omega
      simp only [extended]
      rw [store_bytes_idem _ _ _ hl, low_mark_idem x _ hx (by omega),
        low_mark_idem y _ hy (by omega), high_mark_idem x _ hx (by omega) hxh,
        high_mark_idem y _ hy (by omega) hyh]

theorem write_pixel_idempotent_witness :
    (sample_display ILI9XXXColorMode.BITS_16 3 2 [1, 2, 3, 4, 5, 6, 7, 8, 9, 10, 11, 12] 2).InRange ∧
    ((sample_display ILI9XXXColorMode.BITS_16 3 2
        [1, 2, 3, 4, 5, 6, 7, 8, 9, 10, 11, 12] 2).pixel_bytes 2 1 =
      (sample_display ILI9XXXColorMode.BITS_16 3 2
        [1, 2, 3, 4, 5, 6, 7, 8, 9, 10, 11, 12] 2).encoding sample_codec red →
      draw_absolute_pixel_internal sample_codec
        (sample_display ILI9XXXColorMode.BITS_16 3 2 [1, 2, 3, 4, 5, 6, 7, 8, 9, 10, 11, 12] 2)
        2 1 red =
      sample_display ILI9XXXColorMode.BITS_16 3 2 [1, 2, 3, 4, 5, 6, 7, 8, 9, 10, 11, 12] 2) ∧
    draw_absolute_pixel_internal sample_codec
      (draw_absolute_pixel_internal sample_codec
        (sample_display ILI9XXXColorMode.BITS_16 3 2 [1, 2, 3, 4, 5, 6, 7, 8, 9, 10, 11, 12] 2)
        2 1 red) 2 1 red =
    draw_absolute_pixel_internal sample_codec
      (sample_display ILI9XXXColorMode.BITS_16 3 2 [1, 2, 3, 4, 5, 6, 7, 8, 9, 10, 11, 12] 2)
      2 1 red :=
  ⟨by decide, write_pixel_idempotent sample_codec _ 2 1 red (by decide) (by decide)
    (by decide) (by decide) (by decide)⟩

theorem getD_store_bytes (bytes : List Nat) : ∀ (buffer : List Nat) (off i : Nat),
    (store_bytes buffer off bytes).getD i 0 =
      if off ≤ i ∧ i < off + bytes.length ∧ i < buffer.length then bytes.getD (i - off) 0
      else buffer.getD i 0 := by
  induction bytes with
  | nil =>
    intro buffer off i
    simp only [store_bytes, List.length_nil]
    rw [if_neg (by omega)]
  | cons b bs ih =>
    intro buffer off i
    simp only [store_bytes, ih, List.length_set, List.length_cons, getD_set]
    by_cases h1 : off = i
    · subst h1
      by_cases h2 : off < buffer.length
      · simp [h2]
      · simp [h2]
    · by_cases h3 : off + 1 ≤ i ∧ i < off + 1 + bs.length ∧ i < buffer.length
      · have h4 : off ≤ i ∧ i < off + (bs.length + 1) ∧ i < buffer.length := by omega
        have h5 : i - off = (i - (off + 1)) + 1 := by omega
        rw [if_pos h3, if_pos h4, h5]
        simp
      · have h4 : ¬ (off ≤ i ∧ i < off + (bs.length + 1) ∧ i < buffer.length) := by omega
        rw [if_neg h3, if_neg h4]
        simp [h1]

theorem length_store_bytes (bytes : List Nat) : ∀ (buffer : List Nat) (off : Nat),
    (store_bytes buffer off bytes).length = buffer.length := by
  induction bytes with
  | nil => intro buffer off; rfl
  | cons b bs ih => intro buffer off; simp [store_bytes, ih]

theorem ext_getD {l1 l2 : List Nat} (hl : l1.length = l2.length)
    (h : ∀ i, i < l1.length → l1.getD i 0 = l2.getD i 0) : l1 = l2 := by
  apply List.ext_getElem hl
  intro n h1 h2
  have := h n h1
  simpa [List.getD_eq_getElem?_getD, List.getElem?_eq_getElem h1,
    List.getElem?_eq_getElem h2] using this

theorem pixel_bytes_eq_iff (s : ILI9XXXDisplay) (x y : Int) (bytes : List Nat) :
    s.pixel_bytes x y = bytes ↔
      bytes.length = bytes_per_pixel s.buffer_color_mode_ ∧
      ∀ k, k < bytes_per_pixel s.buffer_color_mode_ →
        s.buffer_.getD (s.pixel_offset x y + k) 0 = bytes.getD k 0 := by
  unfold pixel_bytes
  constructor
  · intro h
    subst h
    refine ⟨by simp, ?_⟩
    intro k hk
    simp [List.getD_eq_getElem?_getD, List.getElem?_map, List.getElem?_range hk]
  · rintro ⟨hl, h⟩
    apply ext_getD (by simp [hl])
    intro i hi
    have hi2 : i < bytes_per_pixel s.buffer_color_mode_ := by simpa using hi
    rw [← h i hi2]
    simp [List.getD_eq_getElem?_getD, List.getElem?_map, List.getElem?_range hi2]

/-- The buffer after a pixel write on the panel: the encoding stored at the pixel. -/
theorem draw_buffer (cu : ColorUtil) (s : ILI9XXXDisplay) (x y : Int) (c : Color)
    (hW : s.width_ ≤ 32767) (hH : s.height_ ≤ 32767)
    (hx : 0 ≤ x) (hxW : x < s.width_) (hy : 0 ≤ y) (hyH : y < s.height_) :
    (draw_absolute_pixel_internal cu s x y c).buffer_ =
      store_bytes s.buffer_ (s.pixel_offset x y) (s.encoding cu c) := by
  rw [draw_eq cu s x y c hW hH hx hxW hy hyH]
  split_ifs with h
  · symm
    apply ext_getD (by rw [length_store_bytes])
    intro i _
    rw [getD_store_bytes]
    split_ifs with h1
    · obtain ⟨hl, hk⟩ := (pixel_bytes_eq_iff s x y _).1 h
      have := hk (i - s.pixel_offset x y) (by omega)
      rw [← this]
      congr 1
      omega
    · rfl
  · rfl

/-- The byte range of a pixel on the panel lies inside a framebuffer of the data model's
length. -/
theorem pixel_offset_bound (s : ILI9XXXDisplay) (x y : Int)
    (hW : s.width_ ≤ 32767) (hH : s.height_ ≤ 32767)
    (hx : 0 ≤ x) (hxW : x < s.width_) (hy : 0 ≤ y) (hyH : y < s.height_) :
    s.pixel_offset x y + bytes_per_pixel s.buffer_color_mode_ ≤
      (s.width_ * s.height_).toNat * bytes_per_pixel s.buffer_color_mode_ := by
  obtain ⟨b0, b1, b2⟩ := pixel_index_bound hx hxW hy hyH hW hH
  unfold pixel_offset
  have h : (y * s.width_ + x).toNat + 1 ≤ (s.width_ * s.height_).toNat := by omega
  calc (y * s.width_ + x).toNat * bytes_per_pixel s.buffer_color_mode_ +
        bytes_per_pixel s.buffer_color_mode_
      = ((y * s.width_ + x).toNat + 1) * bytes_per_pixel s.buffer_color_mode_ := by ring
    _ ≤ _ := Nat.mul_le_mul_right _ h

theorem getElem?_eq_of_getD {l1 l2 : List Nat} {i j : Nat} (hi : i < l1.length ↔ j < l2.length)
    (h : l1.getD i 0 = l2.getD j 0) : l1[i]? = l2[j]? := by
  by_cases h1 : i < l1.length
  · have h2 := hi.1 h1
    simp only [List.getD_eq_getElem?_getD, List.getElem?_eq_getElem h1,
      List.getElem?_eq_getElem h2, Option.getD_some] at h
    rw [List.getElem?_eq_getElem h1, List.getElem?_eq_getElem h2, h]
  · have h2 : ¬ j < l2.length := fun h' => h1 (hi.2 h')
    rw [List.getElem?_eq_none (by omega), List.getElem?_eq_none (by omega)]

/-- A pixel write changes nothing but the framebuffer and the watermarks. -/
theorem draw_frame (cu : ColorUtil) (s : ILI9XXXDisplay) (x y : Int) (c : Color) :
    (draw_absolute_pixel_internal cu s x y c).width_ = s.width_ ∧
    (draw_absolute_pixel_internal cu s x y c).height_ = s.height_ ∧
    (draw_absolute_pixel_internal cu s x y c).buffer_color_mode_ = s.buffer_color_mode_ ∧
    (draw_absolute_pixel_internal cu s x y c).palette_ = s.palette_ ∧
    (draw_absolute_pixel_internal cu s x y c).transfer_buffer_ = s.transfer_buffer_ ∧
    (draw_absolute_pixel_internal cu s x y c).bus = s.bus := by
  have key : ∀ {α : Type} (f : ILI9XXXDisplay → α) (P : Prop) [Decidable P]
      (a b : ILI9XXXDisplay) (v : α), f a = v → f b = v → f (if P then a else b) = v := by
    intro α f P _ a b v ha hb
    split_ifs <;> assumption
  unfold draw_absolute_pixel_internal
  by_cases hg : x ≥ s.get_width_internal ∨ x < 0 ∨ y ≥ s.get_height_internal ∨ y < 0
  · rw [if_pos hg]; simp
  · rw [if_neg hg]
    exact ⟨key _ _ _ _ _ rfl rfl, key _ _ _ _ _ rfl rfl, key _ _ _ _ _ rfl rfl,
      key _ _ _ _ _ rfl rfl, key _ _ _ _ _ rfl rfl, key _ _ _ _ _ rfl rfl⟩

/-- C7: a pixel write on the panel (geometry within `int16_t`, framebuffer of the data
model's length) stores the encoding of the colour in the bytes of the pixel, at offset
`(y * width + x) * bytes_per_pixel`, high byte first for 16 bits; it changes no byte
outside that range and not the length of the framebuffer; and the range lies below
`width * height * bytes_per_pixel`. -/
theorem write_pixel_stores_encoding (cu : ColorUtil) (s : ILI9XXXDisplay) (x y : Int)
    (c : Color) (hW : s.width_ ≤ 32767) (hH : s.height_ ≤ 32767) (hb : s.buffer_sized)
    (hx : 0 ≤ x) (hxW : x < s.width_) (hy : 0 ≤ y) (hyH : y < s.height_) :
    (draw_absolute_pixel_internal cu s x y c).pixel_bytes x y = s.encoding cu c ∧
    (∀ k, k < bytes_per_pixel s.buffer_color_mode_ →
      (draw_absolute_pixel_internal cu s x y c).buffer_[s.pixel_offset x y + k]? =
        (s.encoding cu c)[k]?) ∧
    (∀ i, i < s.pixel_offset x y ∨
        s.pixel_offset x y + bytes_per_pixel s.buffer_color_mode_ ≤ i →
      (draw_absolute_pixel_internal cu s x y c).buffer_[i]? = s.buffer_[i]?) ∧
    (draw_absolute_pixel_internal cu s x y c).buffer_.length = s.buffer_.length ∧
    s.pixel_offset x y + bytes_per_pixel s.buffer_color_mode_ ≤
      (s.width_ * s.height_).toNat * bytes_per_pixel s.buffer_color_mode_ := by
  have hB := draw_buffer cu s x y c hW hH hx hxW hy hyH
  have hbound := pixel_offset_bound s x y hW hH hx hxW hy hyH
  obtain ⟨fw, _, fm, _, _, _⟩ := draw_frame cu s x y c
  have hlen : (s.encoding cu c).length = bytes_per_pixel s.buffer_color_mode_ :=
    encoding_length cu s c
  have hsz : s.pixel_offset x y + bytes_per_pixel s.buffer_color_mode_ ≤ s.buffer_.length := by
    rw [hb]; exact hbound
  have hstored : ∀ k, k < bytes_per_pixel s.buffer_color_mode_ →
      (draw_absolute_pixel_internal cu s x y c).buffer_.getD (s.pixel_offset x y + k) 0 =
        (s.encoding cu c).getD k 0 := by
    intro k hk
    rw [hB, getD_store_bytes, if_pos (by omega)]
    congr 1
    omega
  refine ⟨?_, ?_, ?_, ?_, hbound⟩
  · rw [pixel_bytes_eq_iff]
    refine ⟨by rw [hlen, fm], ?_⟩
    intro k hk
    rw [fm] at hk
    have : (draw_absolute_pixel_internal cu s x y c).pixel_offset x y = s.pixel_offset x y := by
      unfold pixel_offset; rw [fw, fm]
    rw [this]
    exact hstored k hk
  · intro k hk
    apply getElem?_eq_of_getD _ (hstored k hk)
    rw [hB, length_store_bytes]
    constructor <;> intro <;> omega
  · intro i hi
    apply getElem?_eq_of_getD (by rw [hB, length_store_bytes])
    rw [hB, getD_store_bytes, if_neg (by omega)]
  · rw [hB, length_store_bytes]

theorem write_pixel_stores_encoding_witness :
    (sample_display ILI9XXXColorMode.BITS_16 3 2
      [1, 2, 3, 4, 5, 6, 7, 8, 9, 10, 11, 12] 2).buffer_sized ∧
    (draw_absolute_pixel_internal sample_codec
      (sample_display ILI9XXXColorMode.BITS_16 3 2 [1, 2, 3, 4, 5, 6, 7, 8, 9, 10, 11, 12] 2)
      1 1 red).pixel_bytes 1 1 = [248, 0] :=
  ⟨by decide, (write_pixel_stores_encoding sample_codec
    (sample_display ILI9XXXColorMode.BITS_16 3 2 [1, 2, 3, 4, 5, 6, 7, 8, 9, 10, 11, 12] 2)
    1 1 red (by decide) (by decide) (by decide) (by decide) (by decide) (by decide)
    (by decide)).1⟩

theorem toU16_lt (v : Int) : toU16 v < 65536 := by
  unfold toU16; omega

/-- Distinct pixels of the panel have distinct indices. -/
theorem pixel_index_ne {x y x1 y1 W : Int} (hx : 0 ≤ x) (hxW : x < W)
    (hx1 : 0 ≤ x1) (hx1W : x1 < W) (hne : ¬ (x = x1 ∧ y = y1)) :
    y * W + x ≠ y1 * W + x1 := by
  intro h
  rcases lt_trichotomy y y1 with hlt | heq | hgt
  · have : (y + 1) * W ≤ y1 * W := mul_le_mul_of_nonneg_right (by omega) (by omega)
    nlinarith
  · subst heq
    exact hne ⟨by omega, rfl⟩
  · have : (y1 + 1) * W ≤ y * W := mul_le_mul_of_nonneg_right (by omega) (by omega)
    nlinarith

/-- The stored bytes of a pixel depend on the geometry, the encoding and the bytes of the
pixel only. -/
theorem pixel_bytes_congr (s s1 : ILI9XXXDisplay) (x y : Int) (hw : s1.width_ = s.width_)
    (hm : s1.buffer_color_mode_ = s.buffer_color_mode_)
    (h : ∀ k, k < bytes_per_pixel s.buffer_color_mode_ →
      s1.buffer_.getD (s.pixel_offset x y + k) 0 = s.buffer_.getD (s.pixel_offset x y + k) 0) :
    s1.pixel_bytes x y = s.pixel_bytes x y := by
  unfold pixel_bytes
  have ho : s1.pixel_offset x y = s.pixel_offset x y := by unfold pixel_offset; rw [hw, hm]
  rw [ho, hm]
  apply List.map_congr_left
  intro k hk
  exact h k (List.mem_range.1 hk)

/-- Storing at one pixel of the panel leaves the bytes of every other pixel alone. -/
theorem pixel_bytes_store_other (s : ILI9XXXDisplay) (bytes : List Nat) (x y x1 y1 : Int)
    (hl : bytes.length = bytes_per_pixel s.buffer_color_mode_)
    (hx : 0 ≤ x) (hxW : x < s.width_) (hy : 0 ≤ y)
    (hx1 : 0 ≤ x1) (hx1W : x1 < s.width_) (hy1 : 0 ≤ y1)
    (hne : ¬ (x = x1 ∧ y = y1)) :
    (s.extended (store_bytes s.buffer_ (s.pixel_offset x1 y1) bytes) x1 y1).pixel_bytes x y =
      s.pixel_bytes x y := by
  refine pixel_bytes_congr s _ x y rfl rfl ?_
  intro k hk
  show (store_bytes s.buffer_ (s.pixel_offset x1 y1) bytes).getD _ 0 = _
  rw [getD_store_bytes, if_neg]
  have hP := pixel_index_ne hx hxW hx1 hx1W hne
  have h0 : 0 ≤ y * s.width_ := mul_nonneg hy (by omega)
  have h1 : 0 ≤ y1 * s.width_ := mul_nonneg hy1 (by omega)
  have hP2 : (y * s.width_ + x).toNat ≠ (y1 * s.width_ + x1).toNat := by omega
  unfold pixel_offset
  rw [hl]
  rcases Nat.lt_or_gt_of_ne hP2 with hlt | hgt
  · have := Nat.mul_le_mul_right (bytes_per_pixel s.buffer_color_mode_) (Nat.succ_le_of_lt hlt)
    rw [Nat.succ_mul] at this
    omega
  · have := Nat.mul_le_mul_right (bytes_per_pixel s.buffer_color_mode_) (Nat.succ_le_of_lt hgt)
    rw [Nat.succ_mul] at this
    omega

theorem in_rect_extended_self (s : ILI9XXXDisplay) (buffer : List Nat) (x y : Int)
    (hx : 0 ≤ x) (hx1 : x < 65536) (hy : 0 ≤ y) (hy1 : y < 65536)
    (hxh : s.x_high_ < 65536) (hyh : s.y_high_ < 65536) :
    (s.extended buffer x y).in_rect x y := by
  unfold in_rect extended toU16
  simp only
  refine ⟨?_, ?_, ?_, ?_⟩ <;> split_ifs <;> omega

theorem in_rect_extended_mono (s : ILI9XXXDisplay) (buffer : List Nat) (x y x1 y1 : Int)
    (hx : 0 ≤ x1) (hx1 : x1 < 65536) (hy : 0 ≤ y1) (hy1 : y1 < 65536)
    (hxh : s.x_high_ < 65536) (hyh : s.y_high_ < 65536) (h : s.in_rect x y) :
    (s.extended buffer x1 y1).in_rect x y := by
  unfold in_rect at h
  unfold in_rect extended toU16
  simp only
  refine ⟨?_, ?_, ?_, ?_⟩ <;> split_ifs <;> omega

/-- A pixel write outside the panel returns the state as it was. -/
theorem draw_out_of_bounds (cu : ColorUtil) (s : ILI9XXXDisplay) (x y : Int) (c : Color)
    (h : x < 0 ∨ x ≥ s.width_ ∨ y < 0 ∨ y ≥ s.height_) :
    draw_absolute_pixel_internal cu s x y c = s := by
  unfold draw_absolute_pixel_internal
  rw [if_pos]
  simp only [get_width_internal, get_height_internal]
  omega

/-- A fill changes nothing but the framebuffer and the watermarks, which it sets to the
full extent. -/
theorem fill_frame (cu : ColorUtil) (s : ILI9XXXDisplay) (c : Color) :
    (fill cu s c).width_ = s.width_ ∧ (fill cu s c).height_ = s.height_ ∧
    (fill cu s c).buffer_color_mode_ = s.buffer_color_mode_ ∧
    (fill cu s c).palette_ = s.palette_ ∧
    (fill cu s c).transfer_buffer_ = s.transfer_buffer_ ∧ (fill cu s c).bus = s.bus ∧
    (fill cu s c).x_low_ = 0 ∧ (fill cu s c).y_low_ = 0 ∧
    (fill cu s c).x_high_ = toU16 (s.width_ - 1) ∧
    (fill cu s c).y_high_ = toU16 (s.height_ - 1) := by
  unfold fill
  cases hm : s.buffer_color_mode_ <;> simp [hm, get_width_internal, get_height_internal]

/-- One drawing call keeps the dirty rectangle a superset of the changed pixels. -/
theorem covers_changes_step (cu : ColorUtil) (s0 s : ILI9XXXDisplay) (call : DrawCall)
    (hW : s0.width_ ≤ 32767) (hH : s0.height_ ≤ 32767) (h : covers_changes s0 s) :
    covers_changes s0 (draw_call cu s call) := by
  obtain ⟨hw, hh, hm, hxh, hyh, hcov⟩ := h
  cases call with
  | write_pixel x1 y1 c =>
    show covers_changes s0 (draw_absolute_pixel_internal cu s x1 y1 c)
    by_cases hin : 0 ≤ x1 ∧ x1 < s.width_ ∧ 0 ≤ y1 ∧ y1 < s.height_
    · obtain ⟨hx1, hx1W, hy1, hy1H⟩ := hin
      rw [draw_eq cu s x1 y1 c (by omega) (by omega) hx1 hx1W hy1 hy1H]
      split_ifs with heq
      · exact ⟨hw, hh, hm, hxh, hyh, hcov⟩
      · refine ⟨hw, hh, hm, toU16_lt _, toU16_lt _, ?_⟩
        intro x y hx hxW hy hyH hd
        by_cases hsame : x = x1 ∧ y = y1
        · obtain ⟨rfl, rfl⟩ := hsame
          exact in_rect_extended_self s _ x y hx (by omega) hy (by omega) hxh hyh
        · rw [pixel_bytes_store_other s _ x y x1 y1 (encoding_length cu s c) hx (by omega) hy
            hx1 hx1W hy1 hsame] at hd
          exact in_rect_extended_mono s _ x y x1 y1 hx1 (by omega) hy1 (by omega) hxh hyh
            (hcov x y hx hxW hy hyH hd)
    · rw [draw_out_of_bounds cu s x1 y1 c (by omega)]
      exact ⟨hw, hh, hm, hxh, hyh, hcov⟩
  | fill c =>
    show covers_changes s0 (fill cu s c)
    obtain ⟨fw, fh, fm, _, _, _, fxl, fyl, fxh, fyh⟩ := fill_frame cu s c
    refine ⟨fw.trans hw, fh.trans hh, fm.trans hm, by rw [fxh]; exact toU16_lt _,
      by rw [fyh]; exact toU16_lt _, ?_⟩
    intro x y hx hxW hy hyH _
    unfold in_rect
    rw [fxl, fyl, fxh, fyh, hw, hh]
    unfold toU16
    omega

theorem covers_changes_calls (cu : ColorUtil) (s0 : ILI9XXXDisplay) (hW : s0.width_ ≤ 32767)
    (hH : s0.height_ ≤ 32767) (calls : List DrawCall) :
    ∀ s, covers_changes s0 s → covers_changes s0 (draw_calls cu s calls) := by
  induction calls with
  | nil => intro s h; exact h
  | cons call rest ih =>
    intro s h
    exact ih _ (covers_changes_step cu s0 s call hW hH h)

/-- C1: superset invariant of the dirty rectangle. On a panel of `int16_t` geometry, start
from a state whose dirty rectangle is the canonical empty one (the state `setup` and every
completed flush leave) and apply any sequence of pixel writes and fills, in any encoding.
Then every pixel of the panel whose stored bytes differ from those it had at the start
lies within the dirty rectangle: `x_low <= x <= x_high` and `y_low <= y <= y_high`. -/
theorem dirty_rectangle_superset (cu : ColorUtil) (s0 : ILI9XXXDisplay)
    (calls : List DrawCall) (hW : s0.width_ ≤ 32767) (hH : s0.height_ ≤ 32767)
    (he : s0.rect_empty) (x y : Int) (hx : 0 ≤ x) (hxW : x < s0.width_) (hy : 0 ≤ y)
    (hyH : y < s0.height_)
    (hd : (draw_calls cu s0 calls).pixel_bytes x y ≠ s0.pixel_bytes x y) :
    ((draw_calls cu s0 calls).x_low_ : Int) ≤ x ∧ x ≤ (draw_calls cu s0 calls).x_high_ ∧
    ((draw_calls cu s0 calls).y_low_ : Int) ≤ y ∧ y ≤ (draw_calls cu s0 calls).y_high_ := by
  obtain ⟨_, _, hxh, hyh⟩ := he
  have h0 : covers_changes s0 s0 :=
    ⟨rfl, rfl, rfl, by omega, by omega, fun _ _ _ _ _ _ h => absurd rfl h⟩
  exact (covers_changes_calls cu s0 hW hH calls s0 h0).2.2.2.2.2 x y hx hxW hy hyH hd

theorem dirty_rectangle_superset_witness :
    (sample_display ILI9XXXColorMode.BITS_16 3 2
      [1, 2, 3, 4, 5, 6, 7, 8, 9, 10, 11, 12] 2).rect_empty ∧
    (draw_calls sample_codec
      (sample_display ILI9XXXColorMode.BITS_16 3 2 [1, 2, 3, 4, 5, 6, 7, 8, 9, 10, 11, 12] 2)
      [DrawCall.write_pixel 2 1 red, DrawCall.write_pixel 1 0 blue]).pixel_bytes 2 1 ≠
    (sample_display ILI9XXXColorMode.BITS_16 3 2
      [1, 2, 3, 4, 5, 6, 7, 8, 9, 10, 11, 12] 2).pixel_bytes 2 1 ∧
    (((draw_calls sample_codec
      (sample_display ILI9XXXColorMode.BITS_16 3 2 [1, 2, 3, 4, 5, 6, 7, 8, 9, 10, 11, 12] 2)
      [DrawCall.write_pixel 2 1 red, DrawCall.write_pixel 1 0 blue]).x_low_ : Int) ≤ 2 ∧
    (2 : Int) ≤ (draw_calls sample_codec
      (sample_display ILI9XXXColorMode.BITS_16 3 2 [1, 2, 3, 4, 5, 6, 7, 8, 9, 10, 11, 12] 2)
      [DrawCall.write_pixel 2 1 red, DrawCall.write_pixel 1 0 blue]).x_high_ ∧
    ((draw_calls sample_codec
      (sample_display ILI9XXXColorMode.BITS_16 3 2 [1, 2, 3, 4, 5, 6, 7, 8, 9, 10, 11, 12] 2)
      [DrawCall.write_pixel 2 1 red, DrawCall.write_pixel 1 0 blue]).y_low_ : Int) ≤ 1 ∧
    (1 : Int) ≤ (draw_calls sample_codec
      (sample_display ILI9XXXColorMode.BITS_16 3 2 [1, 2, 3, 4, 5, 6, 7, 8, 9, 10, 11, 12] 2)
      [DrawCall.write_pixel 2 1 red, DrawCall.write_pixel 1 0 blue]).y_high_) :=
  ⟨by decide, by decide,
    dirty_rectangle_superset sample_codec _ _ (by decide) (by decide) (by decide) 2 1
      (by decide) (by decide) (by decide) (by decide) (by decide)⟩

theorem low_mark_eq_min (x : Int) (a : Nat) (h0 : 0 ≤ x) (h1 : x < 65536) :
    ((toU16 (if x < (a : Int) then x else a) : Nat) : Int) = min x a := by
  unfold toU16; split_ifs <;> omega

theorem high_mark_eq_max (x : Int) (a : Nat) (h0 : 0 ≤ x) (h1 : x < 65536) (ha : a < 65536) :
    ((toU16 (if x > (a : Int) then x else a) : Nat) : Int) = max x a := by
  unfold toU16; split_ifs <;> omega

theorem min_step (P : List (Int × Int)) (f : Int × Int → Int) (m : Int) (a : Int × Int)
    (h : P = [] ∨ ((∃ b ∈ P, f b = m) ∧ ∀ b ∈ P, m ≤ f b)) (h0 : P = [] → f a ≤ m) :
    (∃ b ∈ P ++ [a], f b = min (f a) m) ∧ ∀ b ∈ P ++ [a], min (f a) m ≤ f b := by
  rcases h with rfl | ⟨⟨b, hb, hbm⟩, hall⟩
  · have := h0 rfl
    refine ⟨⟨a, by simp, by rw [min_eq_left this]⟩, ?_⟩
    intro b hb
    simp only [List.nil_append, List.mem_singleton] at hb
    subst hb
    exact min_le_left _ _
  · constructor
    · rcases le_total (f a) m with hle | hle
      · exact ⟨a, by simp, by rw [min_eq_left hle]⟩
      · exact ⟨b, by simp [hb], by rw [min_eq_right hle, hbm]⟩
    · intro c hc
      rcases List.mem_append.1 hc with hc | hc
      · exact le_trans (min_le_right _ _) (hall c hc)
      · simp only [List.mem_singleton] at hc
        subst hc
        exact min_le_left _ _

theorem max_step (P : List (Int × Int)) (f : Int × Int → Int) (m : Int) (a : Int × Int)
    (h : P = [] ∨ ((∃ b ∈ P, f b = m) ∧ ∀ b ∈ P, f b ≤ m)) (h0 : P = [] → m ≤ f a) :
    (∃ b ∈ P ++ [a], f b = max (f a) m) ∧ ∀ b ∈ P ++ [a], f b ≤ max (f a) m := by
  rcases h with rfl | ⟨⟨b, hb, hbm⟩, hall⟩
  · have := h0 rfl
    refine ⟨⟨a, by simp, by rw [max_eq_left this]⟩, ?_⟩
    intro b hb
    simp only [List.nil_append, List.mem_singleton] at hb
    subst hb
    exact le_max_left _ _
  · constructor
    · rcases le_total (f a) m with hle | hle
      · exact ⟨b, by simp [hb], by rw [max_eq_right hle, hbm]⟩
      · exact ⟨a, by simp, by rw [max_eq_left hle]⟩
    · intro c hc
      rcases List.mem_append.1 hc with hc | hc
      · exact le_trans (hall c hc) (le_max_right _ _)
      · simp only [List.mem_singleton] at hc
        subst hc
        exact le_max_left _ _

/-- Extending the watermarks to one more pixel of the panel turns the bounding box of `P`
into that of `P` and the pixel. -/
theorem bounding_box_extended (s : ILI9XXXDisplay) (buffer : List Nat) (P : List (Int × Int))
    (x y : Int) (hx : 0 ≤ x) (hxW : x < s.width_) (hy : 0 ≤ y) (hyH : y < s.height_)
    (hW : s.width_ ≤ 32767) (hH : s.height_ ≤ 32767)
    (hxh : s.x_high_ < 65536) (hyh : s.y_high_ < 65536) (h : s.bounding_box P) :
    (s.extended buffer x y).bounding_box (P ++ [(x, y)]) := by
  obtain ⟨hnil, hcons⟩ := h
  refine ⟨fun h => absurd h (by simp), fun _ => ?_⟩
  have hxl : (((s.extended buffer x y).x_low_ : Nat) : Int) = min x s.x_low_ :=
    low_mark_eq_min x _ hx (by omega)
  have hyl : (((s.extended buffer x y).y_low_ : Nat) : Int) = min y s.y_low_ :=
    low_mark_eq_min y _ hy (by omega)
  have hxh2 : (((s.extended buffer x y).x_high_ : Nat) : Int) = max x s.x_high_ :=
    high_mark_eq_max x _ hx (by omega) hxh
  have hyh2 : (((s.extended buffer x y).y_high_ : Nat) : Int) = max y s.y_high_ :=
    high_mark_eq_max y _ hy (by omega) hyh
  rw [hxl, hyl, hxh2, hyh2]
  by_cases hP : P = []
  · obtain ⟨e1, e2, e3, e4⟩ := hnil hP
    exact ⟨min_step P (fun a => a.1) _ (x, y) (Or.inl hP) (fun _ => by simp only; omega),
      min_step P (fun a => a.2) _ (x, y) (Or.inl hP) (fun _ => by simp only; omega),
      max_step P (fun a => a.1) _ (x, y) (Or.inl hP) (fun _ => by simp only; omega),
      max_step P (fun a => a.2) _ (x, y) (Or.inl hP) (fun _ => by simp only; omega)⟩
  · obtain ⟨c1, c2, c3, c4⟩ := hcons hP
    exact ⟨min_step P (fun a => a.1) _ (x, y) (Or.inr c1) (fun h => absurd h hP),
      min_step P (fun a => a.2) _ (x, y) (Or.inr c2) (fun h => absurd h hP),
      max_step P (fun a => a.1) _ (x, y) (Or.inr c3) (fun h => absurd h hP),
      max_step P (fun a => a.2) _ (x, y) (Or.inr c4) (fun h => absurd h hP)⟩
/-- On a framebuffer of the data model's length, a pixel write on the panel alters the
framebuffer exactly when the stored bytes of the pixel differ from the encoding. -/
theorem draw_alters_iff (cu : ColorUtil) (s : ILI9XXXDisplay) (x y : Int) (c : Color)
    (hW : s.width_ ≤ 32767) (hH : s.height_ ≤ 32767) (hb : s.buffer_sized)
    (hx : 0 ≤ x) (hxW : x < s.width_) (hy : 0 ≤ y) (hyH : y < s.height_) :
    (draw_absolute_pixel_internal cu s x y c).buffer_ ≠ s.buffer_ ↔
      s.pixel_bytes x y ≠ s.encoding cu c := by
  have hB := draw_buffer cu s x y c hW hH hx hxW hy hyH
  have hbound := pixel_offset_bound s x y hW hH hx hxW hy hyH
  have hlen := encoding_length cu s c
  constructor
  · intro h heq
    apply h
    rw [draw_eq cu s x y c hW hH hx hxW hy hyH, if_pos heq]
  · intro h heq
    apply h
    rw [pixel_bytes_eq_iff]
    refine ⟨hlen, ?_⟩
    intro k hk
    have := getD_store_bytes (s.encoding cu c) s.buffer_ (s.pixel_offset x y)
      (s.pixel_offset x y + k)
    rw [← hB, heq, if_pos (by rw [hb]; omega)] at this
    rw [this]
    congr 1
    omega

theorem draw_buffer_sized (cu : ColorUtil) (s : ILI9XXXDisplay) (x y : Int) (c : Color)
    (hW : s.width_ ≤ 32767) (hH : s.height_ ≤ 32767) (hb : s.buffer_sized) :
    (draw_absolute_pixel_internal cu s x y c).buffer_sized := by
  by_cases hin : 0 ≤ x ∧ x < s.width_ ∧ 0 ≤ y ∧ y < s.height_
  · obtain ⟨hx, hxW, hy, hyH⟩ := hin
    obtain ⟨fw, fh, fm, _⟩ := draw_frame cu s x y c
    unfold buffer_sized at hb ⊢
    rw [draw_buffer cu s x y c hW hH hx hxW hy hyH, length_store_bytes, fw, fh, fm, hb]
  · rw [draw_out_of_bounds cu s x y c (by omega)]
    exact hb

theorem bounding_box_writes (cu : ColorUtil) (calls : List (Int × Int × Color)) :
    ∀ (s : ILI9XXXDisplay) (P : List (Int × Int)), s.width_ ≤ 32767 → s.height_ ≤ 32767 →
      s.buffer_sized → s.x_high_ < 65536 → s.y_high_ < 65536 → s.bounding_box P →
      (write_pixels cu s calls).bounding_box (P ++ altering cu s calls) := by
  induction calls with
  | nil => intro s P _ _ _ _ _ h; simpa [write_pixels, altering] using h
  | cons q rest ih =>
    intro s P hW hH hb hxh hyh h
    obtain ⟨x, y, c⟩ := q
    show (write_pixels cu (draw_absolute_pixel_internal cu s x y c) rest).bounding_box _
    obtain ⟨fw, fh, _⟩ := draw_frame cu s x y c
    have hb1 := draw_buffer_sized cu s x y c hW hH hb
    by_cases hin : 0 ≤ x ∧ x < s.width_ ∧ 0 ≤ y ∧ y < s.height_
    · obtain ⟨hx, hxW, hy, hyH⟩ := hin
      have halt := draw_alters_iff cu s x y c hW hH hb hx hxW hy hyH
      have heq := draw_eq cu s x y c hW hH hx hxW hy hyH
      by_cases hsame : s.pixel_bytes x y = s.encoding cu c
      · have hna : ¬ (draw_absolute_pixel_internal cu s x y c).buffer_ ≠ s.buffer_ := by
          rw [halt]; exact fun h => h hsame
        rw [if_pos hsame] at heq
        simp only [altering, if_neg hna]
        rw [heq]
        exact ih s P hW hH hb hxh hyh h
      · have ha : (draw_absolute_pixel_internal cu s x y c).buffer_ ≠ s.buffer_ :=
          halt.2 hsame
        rw [if_neg hsame] at heq
        simp only [altering, if_pos ha]
        rw [show P ++ (x, y) :: altering cu (draw_absolute_pixel_internal cu s x y c) rest =
          (P ++ [(x, y)]) ++ altering cu (draw_absolute_pixel_internal cu s x y c) rest by simp]
        apply ih _ _ (by rw [fw]; exact hW) (by rw [fh]; exact hH) hb1
        · rw [heq]; exact toU16_lt _
        · rw [heq]; exact toU16_lt _
        · rw [heq]
          exact bounding_box_extended s _ P x y hx hxW hy hyH hW hH hxh hyh h
    · have heq := draw_out_of_bounds cu s x y c (by omega)
      simp only [altering, heq, ne_eq, not_true_eq_false, if_false]
      exact ih s P hW hH hb hxh hyh h

/-- C2: tightness of the dirty rectangle. On a panel of `int16_t` geometry whose
framebuffer has the data model's length, start from the canonical empty rectangle and apply
any sequence of pixel writes. The dirty rectangle is then exactly the bounding box of the
coordinates of those writes that altered a stored byte when they were made: `x_low` and
`y_low` are their least, `x_high` and `y_high` their greatest coordinates; and it is still
the canonical empty rectangle if no write altered a byte. -/
theorem dirty_rectangle_tight (cu : ColorUtil) (s0 : ILI9XXXDisplay)
    (calls : List (Int × Int × Color)) (hW : s0.width_ ≤ 32767) (hH : s0.height_ ≤ 32767)
    (hb : s0.buffer_sized) (he : s0.rect_empty) :
    (write_pixels cu s0 calls).bounding_box (altering cu s0 calls) := by
  have h0 : s0.bounding_box [] := ⟨fun _ => he, fun h => absurd rfl h⟩
  have := bounding_box_writes cu calls s0 [] hW hH hb (by rw [he.2.2.1]; omega)
    (by rw [he.2.2.2]; omega) h0
  simpa using this

theorem dirty_rectangle_tight_witness :
    (sample_display ILI9XXXColorMode.BITS_16 3 2
      [1, 2, 3, 4, 5, 6, 7, 8, 9, 10, 11, 12] 2).buffer_sized ∧
    (sample_display ILI9XXXColorMode.BITS_16 3 2
      [1, 2, 3, 4, 5, 6, 7, 8, 9, 10, 11, 12] 2).rect_empty ∧
    (write_pixels sample_codec
      (sample_display ILI9XXXColorMode.BITS_16 3 2 [1, 2, 3, 4, 5, 6, 7, 8, 9, 10, 11, 12] 2)
      [(2, 1, red), (1, 0, blue), (7, 7, red), (2, 1, red)]).bounding_box
      (altering sample_codec
        (sample_display ILI9XXXColorMode.BITS_16 3 2 [1, 2, 3, 4, 5, 6, 7, 8, 9, 10, 11, 12] 2)
        [(2, 1, red), (1, 0, blue), (7, 7, red), (2, 1, red)]) :=
  ⟨by decide, by decide,
    dirty_rectangle_tight sample_codec _ _ (by decide) (by decide) (by decide) (by decide)⟩

/-! ## The flush -/

theorem length_transfer_loop (cu : ColorUtil) (mode : ILI9XXXColorMode)
    (palette buffer : List Nat) (n : Nat) : ∀ (src dst : Nat) (tb : List Nat),
    (transfer_loop cu mode palette buffer n src dst tb).length = tb.length := by
  induction n with
  | zero => intro src dst tb; rfl
  | succ n ih =>
    intro src dst tb
    cases mode <;> simp [transfer_loop, ih]

/-- One row of the flush, when it finishes: the state changes in the staging buffer
(which keeps its size) and on the bus only, where `2 * rem` bytes are written at the
current data/command level. -/
theorem display_row_some (cu : ColorUtil) (fuel : Nat) :
    ∀ (s s1 : ILI9XXXDisplay) (pos rem : Nat), display_row cu fuel s pos rem = some s1 →
      ∃ (tb D : List Nat), tb.length = s.transfer_buffer_.length ∧ D.length = 2 * rem ∧
        s1 = { s with transfer_buffer_ := tb,
                      bus := s.bus ++ D.map (BusEvent.write s.dc_pin_) } := by
  induction fuel with
  | zero =>
    intro s s1 pos rem h
    unfold display_row at h
    split_ifs at h with hr
    have : rem = 0 := by omega
    subst this
    injection h with h
    subst h
    exact ⟨s.transfer_buffer_, [], rfl, rfl, by simp⟩
  | succ fuel ih =>
    intro s s1 pos rem h
    unfold display_row at h
    split_ifs at h with hr
    · obtain ⟨tb, D, hl, hD, rfl⟩ := ih _ _ _ _ h
      refine ⟨tb, List.take (2 * (buffer_to_transfer_ cu s pos rem).2)
        (buffer_to_transfer_ cu s pos rem).1.transfer_buffer_ ++ D, ?_, ?_, ?_⟩
      · simpa [buffer_to_transfer_, write_array, length_transfer_loop] using hl
      · simp only [buffer_to_transfer_, write_array, length_transfer_loop] at hD ⊢
        rw [List.length_append, hD, List.length_take, length_transfer_loop]
        split_ifs <;> omega
      · simp [buffer_to_transfer_, write_array, List.append_assoc]
    · have : rem = 0 := by omega
      subst this
      injection h with h
      subst h
      exact ⟨s.transfer_buffer_, [], rfl, rfl, by simp⟩

/-- One row of the flush finishes when the staging buffer holds at least one pixel. -/
theorem display_row_terminates (cu : ColorUtil) (fuel : Nat) :
    ∀ (s : ILI9XXXDisplay) (pos rem : Nat), 2 ≤ s.transfer_buffer_.length → rem ≤ fuel →
      ∃ s1, display_row cu fuel s pos rem = some s1 := by
  induction fuel with
  | zero =>
    intro s pos rem _ hrem
    have : rem = 0 := by omega
    subst this
    exact ⟨s, by simp [display_row]⟩
  | succ fuel ih =>
    intro s pos rem hcap hrem
    unfold display_row
    split_ifs with hr
    · apply ih
      · simpa [buffer_to_transfer_, write_array, length_transfer_loop] using hcap
      · simp only [buffer_to_transfer_]
        split_ifs <;> omega
    · exact ⟨s, rfl⟩
/-- The row loop of the flush, when it finishes: `n` rows of `2 * w` bytes each are
written at the current data/command level; nothing but the staging buffer and the bus
changes. -/
theorem display_rows_some (cu : ColorUtil) (start_pos w n : Nat) :
    ∀ (row : Nat) (s s1 : ILI9XXXDisplay), display_rows cu start_pos w n row s = some s1 →
      ∃ (tb : List Nat) (rows : List (List Nat)), tb.length = s.transfer_buffer_.length ∧
        rows.length = n ∧ (∀ r ∈ rows, r.length = 2 * w) ∧
        s1 = { s with transfer_buffer_ := tb,
                      bus := s.bus ++ rows.flatten.map (BusEvent.write s.dc_pin_) } := by
  induction n with
  | zero =>
    intro row s s1 h
    simp only [display_rows, Option.some.injEq] at h
    subst h
    exact ⟨s.transfer_buffer_, [], rfl, rfl, by simp, by simp⟩
  | succ n ih =>
    intro row s s1 h
    unfold display_rows at h
    simp only at h
    cases hrow : display_row cu w s (toU32 ((start_pos : Int) + row * s.width_)) w with
    | none => rw [hrow] at h; simp at h
    | some s2 =>
      rw [hrow] at h
      simp only at h
      obtain ⟨tb2, D, hl2, hD, rfl⟩ := display_row_some cu w _ _ _ _ hrow
      obtain ⟨tb, rows, hl, hn, hrows, rfl⟩ := ih _ _ _ h
      refine ⟨tb, D :: rows, by simpa [hl2] using hl, by simp [hn], ?_, by simp⟩
      intro r hr
      rcases List.mem_cons.1 hr with rfl | hr
      · exact hD
      · exact hrows r hr

/-- The row loop of the flush finishes when the staging buffer holds at least one pixel. -/
theorem display_rows_terminates (cu : ColorUtil) (start_pos w n : Nat) :
    ∀ (row : Nat) (s : ILI9XXXDisplay), 2 ≤ s.transfer_buffer_.length →
      ∃ s1, display_rows cu start_pos w n row s = some s1 := by
  induction n with
  | zero => intro row s _; exact ⟨s, rfl⟩
  | succ n ih =>
    intro row s hcap
    obtain ⟨s2, hrow⟩ := display_row_terminates cu w s
      (toU32 ((start_pos : Int) + row * s.width_)) w hcap (le_refl _)
    obtain ⟨tb2, D, hl2, _, h2⟩ := display_row_some cu w _ _ _ _ hrow
    obtain ⟨s1, h1⟩ := ih (row + 1) s2 (by rw [h2]; simpa [hl2] using hcap)
    exact ⟨s1, by unfold display_rows; simp only [hrow, h1]⟩

theorem set_addr_window_eq (s : ILI9XXXDisplay) (x1 y1 w h : Nat) :
    set_addr_window_ s x1 y1 w h =
      { s with dc_pin_ := false,
               bus := s.bus ++ address_window x1 (toU16 ((x1 : Int) + w - 1)) y1
                        (toU16 ((y1 : Int) + h - 1)) } := by
  have hd : ∀ n : Nat, toU8 ((n : Int) / 256) = n / 256 % 256 := fun n => by
    unfold toU8; omega
  simp [set_addr_window_, command, start_command_, end_command_, start_data_, end_data_,
    write_byte, address_window, toU8_natCast, hd, ILI9XXX_CASET, ILI9XXX_PASET, ILI9XXX_RAMWR,
    Nat.shiftRight_eq_div_pow, show toU8 42 = 42 from rfl, show toU8 43 = 43 from rfl,
    show toU8 44 = 44 from rfl]

/-- A flush with an empty dirty rectangle returns the state as it was. -/
theorem display_empty (cu : ColorUtil) (s : ILI9XXXDisplay)
    (h : s.x_high_ < s.x_low_ ∨ s.y_high_ < s.y_low_) : display_ cu s = some s := by
  unfold display_
  simp only [if_pos h]

/-- A flush with a dirty rectangle that is not empty, when it finishes: the address
window of the rectangle, then the rows, then the watermarks are reset. -/
theorem display_some (cu : ColorUtil) (s s1 : ILI9XXXDisplay)
    (hne : ¬ (s.x_high_ < s.x_low_ ∨ s.y_high_ < s.y_low_)) (h : display_ cu s = some s1) :
    ∃ (tb : List Nat) (rows : List (List Nat)), tb.length = s.transfer_buffer_.length ∧
      rows.length = toU16 ((s.y_high_ : Int) - s.y_low_ + 1) ∧
      (∀ r ∈ rows, r.length = 2 * toU16 ((s.x_high_ : Int) - s.x_low_ + 1)) ∧
      s1 = { s with
        transfer_buffer_ := tb, dc_pin_ := true,
        bus := s.bus ++ address_window s.x_low_
            (toU16 ((s.x_low_ : Int) + toU16 ((s.x_high_ : Int) - s.x_low_ + 1) - 1)) s.y_low_
            (toU16 ((s.y_low_ : Int) + toU16 ((s.y_high_ : Int) - s.y_low_ + 1) - 1)) ++
          rows.flatten.map (BusEvent.write true),
        x_low_ := toU16 s.width_, y_low_ := toU16 s.height_, x_high_ := 0, y_high_ := 0 } := by
  unfold display_ at h
  simp only [if_neg hne, set_addr_window_eq, start_data_, end_data_] at h
  split at h
  · simp at h
  · rename_i s2 hrows
    obtain ⟨tb, rows, hl, hn, hr, rfl⟩ := display_rows_some cu _ _ _ _ _ _ hrows
    simp only [Option.some.injEq] at h
    subst h
    exact ⟨tb, rows, hl, hn, hr, rfl⟩

/-- A flush finishes when the staging buffer holds at least one pixel. -/
theorem display_terminates (cu : ColorUtil) (s : ILI9XXXDisplay)
    (hcap : 2 ≤ s.transfer_buffer_.length) : ∃ s1, display_ cu s = some s1 := by
  by_cases he : s.x_high_ < s.x_low_ ∨ s.y_high_ < s.y_low_
  · exact ⟨s, display_empty cu s he⟩
  · unfold display_
    simp only [if_neg he]
    obtain ⟨s2, h2⟩ := display_rows_terminates cu
      (toU32 ((s.y_low_ : Int) * s.width_ + s.x_low_))
      (toU16 ((s.x_high_ : Int) - s.x_low_ + 1)) (toU16 ((s.y_high_ : Int) - s.y_low_ + 1)) 0
      (start_data_ (set_addr_window_ s s.x_low_ s.y_low_
        (toU16 ((s.x_high_ : Int) - s.x_low_ + 1)) (toU16 ((s.y_high_ : Int) - s.y_low_ + 1))))
      (by simpa [set_addr_window_eq, start_data_] using hcap)
    rw [h2]
    exact ⟨_, rfl⟩

theorem length_flatten_of_length {rows : List (List Nat)} {k : Nat}
    (h : ∀ r ∈ rows, r.length = k) : rows.flatten.length = rows.length * k := by
  induction rows with
  | nil => simp
  | cons r rs ih =>
    rw [List.flatten_cons, List.length_append, h r (List.mem_cons_self _ _),
      ih (fun r hr => h r (List.mem_cons_of_mem _ hr)), List.length_cons]
    ring

/-- C4: in a state of `int16_t` geometry whose dirty rectangle is not empty and lies on
the panel, with a staging buffer of at least one pixel, the flush finishes and puts on the
bus, in this order: the address-window sequence with the column bounds `x_low`, `x_high`
and the row bounds `y_low`, `y_high`, then `y_high - y_low + 1` rows of
`x_high - x_low + 1` pixels of two data bytes each, which is
`2 * (x_high - x_low + 1) * (y_high - y_low + 1)` data bytes in all. -/
theorem flush_window_and_rows (cu : ColorUtil) (s : ILI9XXXDisplay)
    (hW : s.width_ ≤ 32767) (hH : s.height_ ≤ 32767) (hr : s.rect_within)
    (hcap : 2 ≤ s.transfer_buffer_.length) :
    ∃ (s1 : ILI9XXXDisplay) (rows : List (List Nat)),
      display_ cu s = some s1 ∧
      rows.length = s.y_high_ - s.y_low_ + 1 ∧
      (∀ r ∈ rows, r.length = 2 * (s.x_high_ - s.x_low_ + 1)) ∧
      rows.flatten.length = 2 * (s.x_high_ - s.x_low_ + 1) * (s.y_high_ - s.y_low_ + 1) ∧
      s1.bus = s.bus ++ address_window s.x_low_ s.x_high_ s.y_low_ s.y_high_ ++
        rows.flatten.map (BusEvent.write true) := by
  obtain ⟨hx, hxW, hy, hyH⟩ := hr
  obtain ⟨s1, h1⟩ := display_terminates cu s hcap
  have hne : ¬ (s.x_high_ < s.x_low_ ∨ s.y_high_ < s.y_low_) := by omega
  obtain ⟨tb, rows, _, hn, hrows, hs1⟩ := display_some cu s s1 hne h1
  have hw : toU16 ((s.x_high_ : Int) - s.x_low_ + 1) = s.x_high_ - s.x_low_ + 1 := by
    unfold toU16; omega
  have hh : toU16 ((s.y_high_ : Int) - s.y_low_ + 1) = s.y_high_ - s.y_low_ + 1 := by
    unfold toU16; omega
  have hx2 : toU16 ((s.x_low_ : Int) + (s.x_high_ - s.x_low_ + 1 : Nat) - 1) = s.x_high_ := by
    unfold toU16; omega
  have hy2 : toU16 ((s.y_low_ : Int) + (s.y_high_ - s.y_low_ + 1 : Nat) - 1) = s.y_high_ := by
    unfold toU16; omega
  rw [hw, hh, hx2, hy2] at hs1
  rw [hw] at hrows
  rw [hh] at hn
  refine ⟨s1, rows, h1, hn, hrows, ?_, by rw [hs1]⟩
  rw [length_flatten_of_length hrows, hn]
  ring

theorem flush_window_and_rows_witness :
    example_dirty.rect_within ∧
    ∃ (s1 : ILI9XXXDisplay) (rows : List (List Nat)),
      display_ sample_codec example_dirty = some s1 ∧
      rows.length = 41 ∧ (∀ r ∈ rows, r.length = 2 * 41) ∧
      rows.flatten.length = 2 * 41 * 41 ∧
      s1.bus = address_window 10 50 20 60 ++ rows.flatten.map (BusEvent.write true) :=
  ⟨by decide,
    flush_window_and_rows sample_codec example_dirty (by decide) (by decide) (by decide)
      (by decide)⟩

/-- C9: a flush in a state whose dirty rectangle is empty (`x_high < x_low` or
`y_high < y_low`) finishes and returns the state as it was: nothing is put on the bus,
and the framebuffer and the four watermarks are unchanged. -/
theorem flush_empty_noop (cu : ColorUtil) (s : ILI9XXXDisplay)
    (h : s.x_high_ < s.x_low_ ∨ s.y_high_ < s.y_low_) : display_ cu s = some s :=
  display_empty cu s h

theorem flush_empty_noop_witness : display_ sample_codec small16 = some small16 :=
  flush_empty_noop sample_codec small16 (by decide)

/-- C3, evaluated where it fails: a 3x2 panel in the 16-bit encoding, framebuffer bytes
1 to 12, after a write of red to pixel (2, 1). The pixel then stores 248, 0 at the offsets
10 and 11 and the dirty rectangle is that pixel alone, but the flush sends, after the
eleven bytes of the address window, the bytes 6 and 7 stored at the offsets 5 and 6: it
reads from the pixel index, not from twice the pixel index. -/
theorem flush_16bit_sends_other_bytes :
    (draw_absolute_pixel_internal sample_codec small16 2 1 red).buffer_ =
      [1, 2, 3, 4, 5, 6, 7, 8, 9, 10, 248, 0] ∧
    (draw_absolute_pixel_internal sample_codec small16 2 1 red).pixel_bytes 2 1 = [248, 0] ∧
    (draw_absolute_pixel_internal sample_codec small16 2 1 red).rect_within ∧
    (display_ sample_codec (draw_absolute_pixel_internal sample_codec small16 2 1 red)).map
      (fun s1 => s1.bus.drop 11) =
      some [BusEvent.write true 6, BusEvent.write true 7] := by
  decide

/-! ## Reachable states -/

theorem initialize_geometry (p : Panel) (s s1 : ILI9XXXDisplay)
    (h : initialize_ p s = some s1) : s1.width_ = p.width ∧ s1.height_ = p.height := by
  unfold initialize_ at h
  split at h
  · simp at h
  · simp only [Option.some.injEq] at h
    subst h
    split_ifs <;> simp [invert_display_, command, start_command_, end_command_, write_byte]

/-- The state `setup` leaves: the geometry of the display and the canonical empty dirty
rectangle. -/
theorem setup_state (p : Panel) (alloc : Nat → Option (List Nat)) (s0 s : ILI9XXXDisplay)
    (h : setup p alloc s0 = some s) :
    s.width_ = p.width ∧ s.height_ = p.height ∧ s.x_low_ = toU16 p.width ∧
    s.y_low_ = toU16 p.height ∧ s.x_high_ = 0 ∧ s.y_high_ = 0 := by
  unfold setup at h
  simp only at h
  split at h
  · simp at h
  · rename_i s2 hinit
    obtain ⟨hw, hh⟩ := initialize_geometry p _ _ hinit
    simp only [init_internal_] at h
    split_ifs at h <;> simp only [Option.some.injEq] at h <;> subst h <;>
      (repeat' split) <;> simp [hw, hh]

theorem rect_within_extended (s : ILI9XXXDisplay) (buffer : List Nat) (x y : Int)
    (hx : 0 ≤ x) (hxW : x < s.width_) (hy : 0 ≤ y) (hyH : y < s.height_)
    (hW : s.width_ ≤ 32767) (hH : s.height_ ≤ 32767) (h : s.rect_empty ∨ s.rect_within) :
    (s.extended buffer x y).rect_within := by
  unfold rect_empty rect_within at h
  unfold rect_within extended toU16
  simp only
  rcases h with ⟨h1, h2, h3, h4⟩ | ⟨h1, h2, h3, h4⟩
  · refine ⟨?_, ?_, ?_, ?_⟩ <;> split_ifs <;> omega
  · refine ⟨?_, ?_, ?_, ?_⟩ <;> split_ifs <;> omega

/-- Every reachable state has the geometry of the display and a dirty rectangle that is
either the canonical empty one or not empty and on the panel. -/
theorem reachable_rect (cu : ColorUtil) (p : Panel) (alloc : Nat → Option (List Nat))
    (hw : 1 ≤ p.width ∧ p.width ≤ 32767) (hh : 1 ≤ p.height ∧ p.height ≤ 32767)
    (s : ILI9XXXDisplay) (h : Reachable cu p alloc s) :
    s.width_ = p.width ∧ s.height_ = p.height ∧ (s.rect_empty ∨ s.rect_within) := by
  induction h with
  | setup s0 s hs =>
    obtain ⟨e1, e2, e3, e4, e5, e6⟩ := setup_state p alloc s0 s hs
    refine ⟨e1, e2, Or.inl ⟨?_, ?_, e5, e6⟩⟩
    · rw [e3, e1]; unfold toU16; omega
    · rw [e4, e2]; unfold toU16; omega
  | write_pixel s x y c _ ih =>
    obtain ⟨e1, e2, hrect⟩ := ih
    by_cases hin : 0 ≤ x ∧ x < s.width_ ∧ 0 ≤ y ∧ y < s.height_
    · obtain ⟨hx, hxW, hy, hyH⟩ := hin
      rw [draw_eq cu s x y c (by omega) (by omega) hx hxW hy hyH]
      split_ifs
      · exact ⟨e1, e2, hrect⟩
      · exact ⟨e1, e2, Or.inr (rect_within_extended s _ x y hx hxW hy hyH (by omega)
          (by omega) hrect)⟩
    · rw [draw_out_of_bounds cu s x y c (by omega)]
      exact ⟨e1, e2, hrect⟩
  | fill s c _ ih =>
    obtain ⟨e1, e2, _⟩ := ih
    obtain ⟨fw, fh, _, _, _, _, fxl, fyl, fxh, fyh⟩ := fill_frame cu s c
    refine ⟨fw.trans e1, fh.trans e2, Or.inr ?_⟩
    unfold rect_within
    rw [fxl, fyl, fxh, fyh, fw, fh, e1, e2]
    unfold toU16
    omega
  | flush s s1 _ hd ih =>
    obtain ⟨e1, e2, hrect⟩ := ih
    by_cases he : s.x_high_ < s.x_low_ ∨ s.y_high_ < s.y_low_
    · rw [display_empty cu s he] at hd
      injection hd with hd
      subst hd
      exact ⟨e1, e2, hrect⟩
    · obtain ⟨tb, rows, _, _, _, rfl⟩ := display_some cu s s1 he hd
      refine ⟨e1, e2, Or.inl ⟨?_, ?_, rfl, rfl⟩⟩
      · show ((toU16 s.width_ : Nat) : Int) = s.width_
        unfold toU16; omega
      · show ((toU16 s.height_ : Nat) : Int) = s.height_
        unfold toU16; omega

/-- C10: well-formedness of the dirty rectangle. For every display with
`1 <= width, height <= 32767`, the state `setup` leaves has the canonical empty dirty
rectangle (`x_low = width`, `y_low = height`, `x_high = 0`, `y_high = 0`), and in every
state reached from it by pixel writes, fills and flushes the dirty rectangle is either
that canonical empty one or satisfies `0 <= x_low <= x_high < width` and
`0 <= y_low <= y_high < height`. -/
theorem dirty_rectangle_well_formed (cu : ColorUtil) (p : Panel)
    (alloc : Nat → Option (List Nat))
    (hw : 1 ≤ p.width ∧ p.width ≤ 32767) (hh : 1 ≤ p.height ∧ p.height ≤ 32767) :
    (∀ s0 s : ILI9XXXDisplay, setup p alloc s0 = some s →
      (s.x_low_ : Int) = p.width ∧ (s.y_low_ : Int) = p.height ∧
      s.x_high_ = 0 ∧ s.y_high_ = 0 ∧ s.width_ = p.width ∧ s.height_ = p.height) ∧
    (∀ s : ILI9XXXDisplay, Reachable cu p alloc s →
      ((s.x_low_ : Int) = s.width_ ∧ (s.y_low_ : Int) = s.height_ ∧
        s.x_high_ = 0 ∧ s.y_high_ = 0) ∨
      ((0 : Int) ≤ s.x_low_ ∧ s.x_low_ ≤ s.x_high_ ∧ (s.x_high_ : Int) < s.width_ ∧
        (0 : Int) ≤ s.y_low_ ∧ s.y_low_ ≤ s.y_high_ ∧ (s.y_high_ : Int) < s.height_)) := by
  constructor
  · intro s0 s hs
    obtain ⟨e1, e2, e3, e4, e5, e6⟩ := setup_state p alloc s0 s hs
    refine ⟨?_, ?_, e5, e6, e1, e2⟩
    · rw [e3]; unfold toU16; omega
    · rw [e4]; unfold toU16; omega
  · intro s hs
    obtain ⟨_, _, hrect⟩ := reachable_rect cu p alloc hw hh s hs
    rcases hrect with he | ⟨h1, h2, h3, h4⟩
    · exact Or.inl he
    · exact Or.inr ⟨by omega, h1, h2, by omega, h3, h4⟩

/-- C8: for every display with `1 <= width, height <= 32767` and a staging buffer of at
least one pixel, in every state reached from `setup` by pixel writes, fills and flushes a
flush finishes and leaves exactly the canonical empty dirty rectangle, and a second flush
right after it returns the state as it is, so it puts nothing on the bus. -/
theorem flush_resets_rectangle (cu : ColorUtil) (p : Panel) (alloc : Nat → Option (List Nat))
    (hw : 1 ≤ p.width ∧ p.width ≤ 32767) (hh : 1 ≤ p.height ∧ p.height ≤ 32767)
    (s : ILI9XXXDisplay) (hs : Reachable cu p alloc s)
    (hcap : 2 ≤ s.transfer_buffer_.length) :
    ∃ s1 : ILI9XXXDisplay, display_ cu s = some s1 ∧
      ((s1.x_low_ : Int) = s1.width_ ∧ (s1.y_low_ : Int) = s1.height_ ∧
        s1.x_high_ = 0 ∧ s1.y_high_ = 0) ∧
      display_ cu s1 = some s1 := by
  obtain ⟨s1, h1⟩ := display_terminates cu s hcap
  have hr1 := reachable_rect cu p alloc hw hh s1 (Reachable.flush s s1 hs h1)
  obtain ⟨e1, e2, hrect⟩ := reachable_rect cu p alloc hw hh s hs
  have hempty : s1.rect_empty := by
    by_cases he : s.x_high_ < s.x_low_ ∨ s.y_high_ < s.y_low_
    · rw [display_empty cu s he] at h1
      injection h1 with h1
      subst h1
      rcases hrect with h | ⟨h1, h2, h3, h4⟩
      · exact h
      · omega
    · obtain ⟨tb, rows, _, _, _, rfl⟩ := display_some cu s s1 he h1
      refine ⟨?_, ?_, rfl, rfl⟩
      · show ((toU16 s.width_ : Nat) : Int) = s.width_
        unfold toU16; omega
      · show ((toU16 s.height_ : Nat) : Int) = s.height_
        unfold toU16; omega
  refine ⟨s1, h1, hempty, display_empty cu s1 ?_⟩
  obtain ⟨a1, a2, a3, a4⟩ := hempty
  left
  have := hr1.1
  omega

theorem setup_sample :
    setup (ILI9XXXILI9341 sample_table) sample_alloc fresh_object = some after_setup := by
  rfl

theorem dirty_rectangle_well_formed_witness :
    setup (ILI9XXXILI9341 sample_table) sample_alloc fresh_object = some after_setup ∧
    ((after_setup.x_low_ : Int) = 240 ∧ (after_setup.y_low_ : Int) = 320 ∧
      after_setup.x_high_ = 0 ∧ after_setup.y_high_ = 0 ∧
      after_setup.width_ = 240 ∧ after_setup.height_ = 320) ∧
    ((((fill sample_codec after_setup red).x_low_ : Int) =
          (fill sample_codec after_setup red).width_ ∧
        ((fill sample_codec after_setup red).y_low_ : Int) =
          (fill sample_codec after_setup red).height_ ∧
        (fill sample_codec after_setup red).x_high_ = 0 ∧
        (fill sample_codec after_setup red).y_high_ = 0) ∨
      ((0 : Int) ≤ (fill sample_codec after_setup red).x_low_ ∧
        (fill sample_codec after_setup red).x_low_ ≤ (fill sample_codec after_setup red).x_high_ ∧
        ((fill sample_codec after_setup red).x_high_ : Int) <
          (fill sample_codec after_setup red).width_ ∧
        (0 : Int) ≤ (fill sample_codec after_setup red).y_low_ ∧
        (fill sample_codec after_setup red).y_low_ ≤ (fill sample_codec after_setup red).y_high_ ∧
        ((fill sample_codec after_setup red).y_high_ : Int) <
          (fill sample_codec after_setup red).height_)) :=
  ⟨rfl,
    (dirty_rectangle_well_formed sample_codec (ILI9XXXILI9341 sample_table) sample_alloc
      (by decide) (by decide)).1 fresh_object after_setup rfl,
    (dirty_rectangle_well_formed sample_codec (ILI9XXXILI9341 sample_table) sample_alloc
      (by decide) (by decide)).2 _
      (Reachable.fill _ red (Reachable.setup fresh_object after_setup rfl))⟩

theorem flush_resets_rectangle_witness :
    2 ≤ after_setup.transfer_buffer_.length ∧
    ∃ s1 : ILI9XXXDisplay,
      display_ sample_codec (draw_absolute_pixel_internal sample_codec after_setup 10 20 red) =
        some s1 ∧
      ((s1.x_low_ : Int) = s1.width_ ∧ (s1.y_low_ : Int) = s1.height_ ∧
        s1.x_high_ = 0 ∧ s1.y_high_ = 0) ∧
      display_ sample_codec s1 = some s1 :=
  ⟨by decide,
    flush_resets_rectangle sample_codec (ILI9XXXILI9341 sample_table) sample_alloc
      (by decide) (by decide) _
      (Reachable.write_pixel _ 10 20 red (Reachable.setup fresh_object after_setup rfl))
      (by rw [(draw_frame sample_codec after_setup 10 20 red).2.2.2.2.1]; decide)⟩

/-- The seven displays of the source have geometries of at least one pixel within
`int16_t`. -/
theorem source_displays_geometry (t : List Nat) :
    ∀ p ∈ [ILI9XXXM5Stack t, ILI9XXXILI9341 t, ILI9XXXILI9342 t, ILI9XXXILI9481 t,
        ILI9XXXILI9486 t, ILI9XXXILI9488 t, ILI9XXXST7796 t],
      (1 ≤ p.width ∧ p.width ≤ 32767) ∧ (1 ≤ p.height ∧ p.height ≤ 32767) := by
  simp [ILI9XXXM5Stack, ILI9XXXILI9341, ILI9XXXILI9342, ILI9XXXILI9481, ILI9XXXILI9486,
    ILI9XXXILI9488, ILI9XXXST7796]

/-! ## Address window -/

/-- C14: the wire format of the address window. For all `x`, `y`, `w`, `h`,
`set_addr_window_(x, y, w, h)` puts on the bus, in this order: the column-address-set
command byte, the data bytes high(x), low(x), high(x2), low(x2) with
`x2 = (x + w - 1) mod 2^16`; the row-address-set command byte, the data bytes high(y),
low(y), high(y2), low(y2) with `y2 = (y + h - 1) mod 2^16`; the memory-write command byte
with no data byte. -/
theorem set_addr_window_wire_format (s : ILI9XXXDisplay) (x y w h : Nat) :
    (set_addr_window_ s x y w h).bus = s.bus ++
      [BusEvent.write false ILI9XXX_CASET,
       BusEvent.write true (x / 256 % 256), BusEvent.write true (x % 256),
       BusEvent.write true ((((x : Int) + w - 1) % 65536).toNat / 256 % 256),
       BusEvent.write true ((((x : Int) + w - 1) % 65536).toNat % 256),
       BusEvent.write false ILI9XXX_PASET,
       BusEvent.write true (y / 256 % 256), BusEvent.write true (y % 256),
       BusEvent.write true ((((y : Int) + h - 1) % 65536).toNat / 256 % 256),
       BusEvent.write true ((((y : Int) + h - 1) % 65536).toNat % 256),
       BusEvent.write false ILI9XXX_RAMWR] := by
  rw [set_addr_window_eq]
  rfl

/-! ## Fill -/

theorem length_memset (value : Nat) : ∀ (buffer : List Nat) (n : Nat),
    (memset buffer value n).length = buffer.length := by
  intro buffer
  induction buffer with
  | nil => intro n; rfl
  | cons b bs ih =>
    intro n
    cases n with
    | zero => rfl
    | succ n => simp [memset, ih]

theorem getD_memset (value : Nat) : ∀ (buffer : List Nat) (n i : Nat),
    (memset buffer value n).getD i 0 =
      if i < n ∧ i < buffer.length then value else buffer.getD i 0 := by
  intro buffer
  induction buffer with
  | nil => intro n i; simp [memset]
  | cons b bs ih =>
    intro n i
    cases n with
    | zero => simp [memset]
    | succ n =>
      cases i with
      | zero => simp [memset]
      | succ i =>
        simp only [memset, List.getD_cons_succ, ih, List.length_cons]
        by_cases h : i < n ∧ i < bs.length
        · rw [if_pos h, if_pos (by omega)]
        · rw [if_neg h, if_neg (by omega)]

theorem length_fill_loop (hi lo : Nat) (n : Nat) : ∀ (i : Nat) (buffer : List Nat),
    (fill_loop hi lo n i buffer).length = buffer.length := by
  induction n with
  | zero => intro i buffer; rfl
  | succ n ih => intro i buffer; simp [fill_loop, ih]

theorem getD_fill_loop (hi lo : Nat) (n : Nat) : ∀ (i : Nat) (buffer : List Nat) (j : Nat),
    (fill_loop hi lo n i buffer).getD j 0 =
      if i ≤ j ∧ j < i + 2 * n ∧ j < buffer.length then
        (if (j - i) % 2 = 0 then hi else lo)
      else buffer.getD j 0 := by
  induction n with
  | zero =>
    intro i buffer j
    simp only [fill_loop]
    rw [if_neg (by omega)]
  | succ n ih =>
    intro i buffer j
    simp only [fill_loop, ih, List.length_set, getD_set]
    split_ifs <;> first | rfl | omega

/-- After a fill, on a framebuffer of the data model's length, every pixel of the panel
stores the encoding of the colour. -/
theorem fill_pixel_bytes (cu : ColorUtil) (s : ILI9XXXDisplay) (c : Color)
    (hW : s.width_ ≤ 32767) (hH : s.height_ ≤ 32767) (hb : s.buffer_sized)
    (x y : Int) (hx : 0 ≤ x) (hxW : x < s.width_) (hy : 0 ≤ y) (hyH : y < s.height_) :
    (fill cu s c).pixel_bytes x y = s.encoding cu c := by
  obtain ⟨fw, _, fm, _⟩ := fill_frame cu s c
  obtain ⟨b0, b1, b2⟩ := pixel_index_bound hx hxW hy hyH hW hH
  have hbound := pixel_offset_bound s x y hW hH hx hxW hy hyH
  have hlen : s.get_buffer_length_ = (s.width_ * s.height_).toNat := by
    unfold get_buffer_length_ get_width_internal get_height_internal
    exact toU32_of_range (by omega) (by omega)
  have hoff : (fill cu s c).pixel_offset x y = s.pixel_offset x y := by
    unfold pixel_offset; rw [fw, fm]
  rw [pixel_bytes_eq_iff, hoff, fm]
  refine ⟨encoding_length cu s c, ?_⟩
  intro k hk
  unfold buffer_sized at hb
  cases hm : s.buffer_color_mode_ with
  | BITS_8 =>
    have hbuf : (fill cu s c).buffer_ =
        memset s.buffer_ (cu.color_to_332 c % 256) s.get_buffer_length_ := by
      unfold fill
      simp only [hm]
      rw [toU8_of_lt (Nat.mod_lt _ (by norm_num))]
      rfl
    simp only [hm, bytes_per_pixel] at hk hbound hb
    have hk0 : k = 0 := by omega
    subst hk0
    rw [hbuf, getD_memset, if_pos (by rw [hlen]; omega)]
    simp [encoding, hm]
  | BITS_8_INDEXED =>
    have hbuf : (fill cu s c).buffer_ =
        memset s.buffer_ (cu.color_to_index8_palette888 c s.palette_ % 256)
          s.get_buffer_length_ := by
      unfold fill
      simp only [hm]
      rw [toU8_of_lt (Nat.mod_lt _ (by norm_num))]
      rfl
    simp only [hm, bytes_per_pixel] at hk hbound hb
    have hk0 : k = 0 := by omega
    subst hk0
    rw [hbuf, getD_memset, if_pos (by rw [hlen]; omega)]
    simp [encoding, hm]
  | BITS_16 =>
    have hhi : toU8 (((cu.color_to_565 c % 65536) >>> 8 : Nat) : Int) =
        cu.color_to_565 c % 65536 / 256 := by
      rw [Nat.shiftRight_eq_div_pow]
      exact toU8_of_lt (by omega)
    have hbuf : (fill cu s c).buffer_ =
        fill_loop (cu.color_to_565 c % 65536 / 256) (cu.color_to_565 c % 65536 % 256)
          (s.width_ * s.height_).toNat 0 s.buffer_ := by
      unfold fill
      simp only [hm]
      rw [hhi, toU8_natCast]
      have : s.get_buffer_length_ * 2 % 4294967296 / 2 = (s.width_ * s.height_).toNat := by
        rw [hlen]; omega
      simp only [get_buffer_length_, get_width_internal, get_height_internal] at this ⊢
      rw [this]
    simp only [hm, bytes_per_pixel] at hk hbound hb
    rw [hbuf, getD_fill_loop, if_pos (by omega)]
    have hk2 : k = 0 ∨ k = 1 := by omega
    unfold pixel_offset
    simp only [hm, bytes_per_pixel]
    rcases hk2 with rfl | rfl
    · rw [if_pos (by omega)]; simp [encoding, hm]
    · rw [if_neg (by omega)]; simp [encoding, hm]

/-- C11: the postcondition of `fill`. On a panel with `1 <= width, height <= 32767` whose
framebuffer has the data model's length, in every encoding, from every prior state and
for every colour, after `fill` every pixel of the panel stores the encoding of the colour
(for 16 bits the high byte, then the low byte of the 565 value; for the one-byte encodings
the encoded byte), the framebuffer keeps its length, and the dirty rectangle is the full
extent `x_low = 0`, `y_low = 0`, `x_high = width - 1`, `y_high = height - 1`, whatever
the framebuffer held before. -/
theorem fill_postcondition (cu : ColorUtil) (s : ILI9XXXDisplay) (c : Color)
    (hW : 1 ≤ s.width_ ∧ s.width_ ≤ 32767) (hH : 1 ≤ s.height_ ∧ s.height_ ≤ 32767)
    (hb : s.buffer_sized) :
    (∀ x y : Int, 0 ≤ x → x < s.width_ → 0 ≤ y → y < s.height_ →
      (fill cu s c).pixel_bytes x y = s.encoding cu c) ∧
    (fill cu s c).buffer_.length = s.buffer_.length ∧
    (fill cu s c).buffer_color_mode_ = s.buffer_color_mode_ ∧
    (fill cu s c).x_low_ = 0 ∧ (fill cu s c).y_low_ = 0 ∧
    ((fill cu s c).x_high_ : Int) = s.width_ - 1 ∧
    ((fill cu s c).y_high_ : Int) = s.height_ - 1 := by
  obtain ⟨_, _, fm, _, _, _, fxl, fyl, fxh, fyh⟩ := fill_frame cu s c
  refine ⟨fun x y hx hxW hy hyH => fill_pixel_bytes cu s c hW.2 hH.2 hb x y hx hxW hy hyH,
    ?_, fm, fxl, fyl, ?_, ?_⟩
  · unfold fill
    cases hm : s.buffer_color_mode_ <;> simp [hm, length_memset, length_fill_loop]
  · rw [fxh]; unfold toU16; omega
  · rw [fyh]; unfold toU16; omega

theorem fill_postcondition_witness :
    small16.buffer_sized ∧
    (fill sample_codec small16 blue).pixel_bytes 2 1 = [0, 31] ∧
    (fill sample_codec small16 blue).x_low_ = 0 ∧
    (fill sample_codec small16 blue).y_low_ = 0 ∧
    ((fill sample_codec small16 blue).x_high_ : Int) = 2 ∧
    ((fill sample_codec small16 blue).y_high_ : Int) = 1 :=
  ⟨by decide,
    (fill_postcondition sample_codec small16 blue (by decide) (by decide) (by decide)).1
      2 1 (by decide) (by decide) (by decide) (by decide),
    (fill_postcondition sample_codec small16 blue (by decide) (by decide)
      (by decide)).2.2.2.1,
    (fill_postcondition sample_codec small16 blue (by decide) (by decide)
      (by decide)).2.2.2.2.1,
    (fill_postcondition sample_codec small16 blue (by decide) (by decide)
      (by decide)).2.2.2.2.2.1,
    (fill_postcondition sample_codec small16 blue (by decide) (by decide)
      (by decide)).2.2.2.2.2.2⟩


/-- A flush of a dirty rectangle that is not empty and lies on the panel: it finishes, and
puts the address window of the rectangle and then its rows on the bus. -/
theorem display_dirty (cu : ColorUtil) (s : ILI9XXXDisplay)
    (hW : s.width_ ≤ 32767) (hH : s.height_ ≤ 32767) (hr : s.rect_within)
    (hcap : 2 ≤ s.transfer_buffer_.length) :
    ∃ (s1 : ILI9XXXDisplay) (rows : List (List Nat)),
      display_ cu s = some s1 ∧
      rows.length = s.y_high_ - s.y_low_ + 1 ∧
      (∀ r ∈ rows, r.length = 2 * (s.x_high_ - s.x_low_ + 1)) ∧
      s1.bus = s.bus ++ address_window s.x_low_ s.x_high_ s.y_low_ s.y_high_ ++
        rows.flatten.map (BusEvent.write true) := by
  obtain ⟨hx, hxW, hy, hyH⟩ := hr
  obtain ⟨s1, h1⟩ := display_terminates cu s hcap
  have hne : ¬ (s.x_high_ < s.x_low_ ∨ s.y_high_ < s.y_low_) := by omega
  obtain ⟨tb, rows, _, hn, hrows, hs1⟩ := display_some cu s s1 hne h1
  have hw : toU16 ((s.x_high_ : Int) - s.x_low_ + 1) = s.x_high_ - s.x_low_ + 1 := by
    unfold toU16; omega
  have hh : toU16 ((s.y_high_ : Int) - s.y_low_ + 1) = s.y_high_ - s.y_low_ + 1 := by
    unfold toU16; omega
  have hx2 : toU16 ((s.x_low_ : Int) + (s.x_high_ - s.x_low_ + 1 : Nat) - 1) = s.x_high_ := by
    unfold toU16; omega
  have hy2 : toU16 ((s.y_low_ : Int) + (s.y_high_ - s.y_low_ + 1 : Nat) - 1) = s.y_high_ := by
    unfold toU16; omega
  rw [hw, hh, hx2, hy2] at hs1
  rw [hw] at hrows
  rw [hh] at hn
  exact ⟨s1, rows, h1, hn, hrows, by rw [hs1]⟩

/-- C12: on a panel with `1 <= width, height <= 32767` and a staging buffer of at least
one pixel, from every prior state (any watermarks, any framebuffer), in every encoding
and for every colour, `fill` followed at once by a flush finishes and puts on the bus the
address window with the column bounds `0`, `width - 1` and the row bounds `0`,
`height - 1`, and then `height` rows of `width` pixels of two data bytes each:
`2 * width * height` data bytes, `width * height` pixels. -/
theorem fill_then_flush (cu : ColorUtil) (s : ILI9XXXDisplay) (c : Color)
    (hW : 1 ≤ s.width_ ∧ s.width_ ≤ 32767) (hH : 1 ≤ s.height_ ∧ s.height_ ≤ 32767)
    (hcap : 2 ≤ s.transfer_buffer_.length) :
    ∃ (s1 : ILI9XXXDisplay) (rows : List (List Nat)),
      display_ cu (fill cu s c) = some s1 ∧
      rows.length = s.height_.toNat ∧
      (∀ r ∈ rows, r.length = 2 * s.width_.toNat) ∧
      rows.flatten.length = 2 * s.width_.toNat * s.height_.toNat ∧
      s1.bus = s.bus ++ address_window 0 (s.width_.toNat - 1) 0 (s.height_.toNat - 1) ++
        rows.flatten.map (BusEvent.write true) := by
  obtain ⟨fw, fh, _, _, ftb, fbus, fxl, fyl, fxh, fyh⟩ := fill_frame cu s c
  have hxh : (fill cu s c).x_high_ = s.width_.toNat - 1 := by rw [fxh]; unfold toU16; omega
  have hyh : (fill cu s c).y_high_ = s.height_.toNat - 1 := by rw [fyh]; unfold toU16; omega
  have hr : (fill cu s c).rect_within := by
    unfold rect_within
    rw [fxl, fyl, hxh, hyh, fw, fh]
    omega
  obtain ⟨s1, rows, h1, hn, hrows, hbus⟩ := display_dirty cu (fill cu s c)
    (by rw [fw]; exact hW.2) (by rw [fh]; exact hH.2) hr (by rw [ftb]; exact hcap)
  rw [fxl, fyl, hxh, hyh, fbus] at hbus
  rw [fyl, hyh] at hn
  rw [fxl, hxh] at hrows
  have hn2 : rows.length = s.height_.toNat := by omega
  have hrows2 : ∀ r ∈ rows, r.length = 2 * s.width_.toNat := by
    intro r hr
    rw [hrows r hr]
    omega
  refine ⟨s1, rows, h1, hn2, hrows2, ?_, hbus⟩
  rw [length_flatten_of_length hrows2, hn2]
  ring

theorem fill_then_flush_witness :
    2 ≤ after_setup.transfer_buffer_.length ∧
    ∃ (s1 : ILI9XXXDisplay) (rows : List (List Nat)),
      display_ sample_codec (fill sample_codec after_setup red) = some s1 ∧
      rows.length = 320 ∧ (∀ r ∈ rows, r.length = 2 * 240) ∧
      rows.flatten.length = 2 * 240 * 320 ∧
      s1.bus = after_setup.bus ++ address_window 0 239 0 319 ++
        rows.flatten.map (BusEvent.write true) :=
  ⟨by decide,
    fill_then_flush sample_codec after_setup red (by decide) (by decide) (by decide)⟩

/-- C20: the flush does not modify the picture. In every state and encoding, with a
staging buffer of at least one pixel, the flush finishes, and the state it returns has
the same framebuffer, width, height, encoding, palette, pins and failure mark, and a
staging buffer of the same size; what may differ is the four watermarks, the contents of
the staging buffer, and on the transport side the data/command level and the bus
trace. -/
theorem flush_keeps_picture (cu : ColorUtil) (s : ILI9XXXDisplay)
    (hcap : 2 ≤ s.transfer_buffer_.length) :
    ∃ s1 : ILI9XXXDisplay, display_ cu s = some s1 ∧
      s1.buffer_ = s.buffer_ ∧ s1.width_ = s.width_ ∧ s1.height_ = s.height_ ∧
      s1.buffer_color_mode_ = s.buffer_color_mode_ ∧ s1.palette_ = s.palette_ ∧
      s1.reset_pin_ = s.reset_pin_ ∧ s1.backlight_pin_ = s.backlight_pin_ ∧
      s1.failed = s.failed ∧
      s1.transfer_buffer_.length = s.transfer_buffer_.length ∧
      s1 = { s with x_low_ := s1.x_low_, y_low_ := s1.y_low_, x_high_ := s1.x_high_,
                    y_high_ := s1.y_high_, transfer_buffer_ := s1.transfer_buffer_,
                    dc_pin_ := s1.dc_pin_, bus := s1.bus } := by
  obtain ⟨s1, h1⟩ := display_terminates cu s hcap
  refine ⟨s1, h1, ?_⟩
  by_cases he : s.x_high_ < s.x_low_ ∨ s.y_high_ < s.y_low_
  · rw [display_empty cu s he] at h1
    injection h1 with h1
    subst h1
    exact ⟨rfl, rfl, rfl, rfl, rfl, rfl, rfl, rfl, rfl, rfl⟩
  · obtain ⟨tb, rows, hl, _, _, rfl⟩ := display_some cu s s1 he h1
    exact ⟨rfl, rfl, rfl, rfl, rfl, rfl, rfl, rfl, hl, rfl⟩

theorem flush_keeps_picture_witness :
    ∃ s1 : ILI9XXXDisplay,
      display_ sample_codec (draw_absolute_pixel_internal sample_codec small16 2 1 red) =
        some s1 ∧
      s1.buffer_ = [1, 2, 3, 4, 5, 6, 7, 8, 9, 10, 248, 0] ∧ s1.width_ = 3 ∧ s1.height_ = 2 ∧
      s1.buffer_color_mode_ = ILI9XXXColorMode.BITS_16 :=
  (flush_keeps_picture sample_codec
    (draw_absolute_pixel_internal sample_codec small16 2 1 red) (by decide)).imp
    fun _ h => ⟨h.1, h.2.1, h.2.2.1, h.2.2.2.1, h.2.2.2.2.1⟩

/-! ## Replay of the initialisation table -/

theorem getElem?_at_start (pre rest : List Nat) (a : Nat) :
    (pre ++ a :: rest)[pre.length]? = some a := by
  rw [List.getElem?_append_right (le_refl _)]
  simp

theorem getElem?_at_start_succ (pre rest : List Nat) (a b : Nat) :
    (pre ++ a :: b :: rest)[pre.length + 1]? = some b := by
  rw [List.getElem?_append_right (by omega)]
  simp

theorem take_drop_at_start (pre args rest : List Nat) (a b : Nat) :
    ((pre ++ a :: b :: (args ++ rest)).drop (pre.length + 2)).take args.length = args := by
  rw [List.drop_append]
  simp

theorem init_lcd_loop_replays (recs : List InitRecord) :
    ∀ (pre junk : List Nat) (s : ILI9XXXDisplay) (fuel : Nat),
      (∀ r ∈ recs, r.well_formed) → recs.length + 1 ≤ fuel →
      init_lcd_loop (pre ++ ((recs.map InitRecord.bytes).flatten ++ [0] ++ junk)) fuel
          pre.length s =
        some { s with dc_pin_ := if recs.isEmpty then s.dc_pin_ else true,
                      bus := s.bus ++ (recs.map InitRecord.events).flatten } := by
  induction recs with
  | nil =>
    intro pre junk s fuel _ hf
    obtain ⟨f, rfl⟩ : ∃ f, fuel = f + 1 := ⟨fuel - 1, by omega⟩
    have e1 : pre ++ (([] : List InitRecord).map InitRecord.bytes).flatten ++ [0] ++ junk =
        pre ++ 0 :: junk := by simp
    simp only [List.map_nil, List.flatten_nil, List.nil_append, List.singleton_append]
    unfold init_lcd_loop
    rw [getElem?_at_start]
    simp
  | cons r rs ih =>
    intro pre junk s fuel hwf hf
    obtain ⟨f, rfl⟩ : ∃ f, fuel = f + 1 := ⟨fuel - 1, by simp at hf; omega⟩
    obtain ⟨hc0, hc1, hargs⟩ := hwf r (List.mem_cons_self _ _)
    have e1 : pre ++ (((r :: rs).map InitRecord.bytes).flatten ++ [0] ++ junk) =
        pre ++ r.cmd :: r.x :: (r.args ++ ((rs.map InitRecord.bytes).flatten ++ [0] ++ junk)) := by
      simp [InitRecord.bytes]
    have e2 : pre ++ r.cmd :: r.x :: (r.args ++ ((rs.map InitRecord.bytes).flatten ++ [0] ++ junk)) =
        (pre ++ r.bytes) ++ ((rs.map InitRecord.bytes).flatten ++ [0] ++ junk) := by
      simp [InitRecord.bytes]
    have hlen : pre.length + 2 + (r.x &&& 127) ≤
        (pre ++ r.cmd :: r.x ::
          (r.args ++ ((rs.map InitRecord.bytes).flatten ++ [0] ++ junk))).length := by
      rw [← hargs]; simp; omega
    have haddr : pre.length + 2 + (r.x &&& 127) = (pre ++ r.bytes).length := by
      rw [← hargs]; simp [InitRecord.bytes]; omega
    have hdrop := take_drop_at_start pre r.args
      ((rs.map InitRecord.bytes).flatten ++ [0] ++ junk) r.cmd r.x
    rw [hargs] at hdrop
    rw [e1]
    unfold init_lcd_loop
    rw [getElem?_at_start, getElem?_at_start_succ]
    simp only [gt_iff_lt, hc0, if_true, hlen]
    rw [haddr, e2, ih (pre ++ r.bytes) junk _ f
      (fun q hq => hwf q (List.mem_cons_of_mem _ hq)) (by simp at hf; omega)]
    rw [← e2]
    simp only [send_command, command, start_command_, end_command_, start_data_, end_data_,
      write_byte, write_array, delay, hdrop, toU8_of_lt hc1, InitRecord.events,
      List.map_cons, List.flatten_cons, List.isEmpty_cons]
    split_ifs <;> first | contradiction | simp

theorem two_mul_length_le_bytes (recs : List InitRecord) :
    2 * recs.length ≤ ((recs.map InitRecord.bytes).flatten).length := by
  induction recs with
  | nil => simp
  | cons r rs ih => simp [InitRecord.bytes] at ih ⊢; omega

theorem init_lcd_table (s : ILI9XXXDisplay) (recs : List InitRecord) (junk : List Nat)
    (hwf : ∀ r ∈ recs, r.well_formed) :
    init_lcd_ s (init_table recs ++ junk) =
      some { s with dc_pin_ := if recs.isEmpty then s.dc_pin_ else true,
                    bus := s.bus ++ (recs.map InitRecord.events).flatten } := by
  have h := init_lcd_loop_replays recs [] junk s (init_table recs ++ junk).length hwf (by
    have := two_mul_length_le_bytes recs
    unfold init_table
    rw [List.length_append, List.length_append, List.length_singleton]
    omega)
  simpa [init_lcd_, init_table] using h

/-- C15: replay of an initialisation table. For a table that is the bytes of the records
`records` in order (each a command byte other than zero, the byte `x`, and `x & 0x7F`
argument bytes) followed by a zero byte, `init_lcd_` finishes and puts on the bus, record
by record in table order, the command byte, then exactly its argument bytes as data, then
the settle delay if and only if bit 7 of `x` is set. Whatever bytes follow the terminating
zero, the result is the same, so none of them is read; and the argument bytes are
arbitrary, so a zero among them does not end the replay. -/
theorem init_lcd_replays_table (s : ILI9XXXDisplay) (records : List InitRecord)
    (hwf : ∀ r ∈ records, r.well_formed) :
    ∃ s1 : ILI9XXXDisplay,
      init_lcd_ s (init_table records) = some s1 ∧
      (∀ junk : List Nat, init_lcd_ s (init_table records ++ junk) = some s1) ∧
      s1.bus = s.bus ++ (records.map fun r =>
        BusEvent.write false r.cmd :: r.args.map (BusEvent.write true) ++
          (if r.x &&& 0x80 ≠ 0 then [BusEvent.delay 150] else [])).flatten := by
  refine ⟨_, ?_, fun junk => init_lcd_table s records junk hwf, rfl⟩
  have := init_lcd_table s records [] hwf
  rwa [List.append_nil] at this

theorem init_lcd_replays_table_witness :
    (∀ r ∈ [InitRecord.mk 0x01 0x80 [], InitRecord.mk 0xB1 0x02 [0x00, 0x1B]],
      r.well_formed) ∧
    init_table [InitRecord.mk 0x01 0x80 [], InitRecord.mk 0xB1 0x02 [0x00, 0x1B]] =
      [0x01, 0x80, 0xB1, 0x02, 0x00, 0x1B, 0x00] ∧
    ∃ s1 : ILI9XXXDisplay,
      init_lcd_ fresh_object [0x01, 0x80, 0xB1, 0x02, 0x00, 0x1B, 0x00] = some s1 ∧
      (∀ junk : List Nat,
        init_lcd_ fresh_object ([0x01, 0x80, 0xB1, 0x02, 0x00, 0x1B, 0x00] ++ junk) =
          some s1) ∧
      s1.bus = [BusEvent.write false 0x01, BusEvent.delay 150, BusEvent.write false 0xB1,
        BusEvent.write true 0x00, BusEvent.write true 0x1B] :=
  ⟨by decide, by decide,
    init_lcd_replays_table fresh_object
      [InitRecord.mk 0x01 0x80 [], InitRecord.mk 0xB1 0x02 [0x00, 0x1B]] (by decide)⟩

/-! ## Read-back -/

theorem read_loop_spec (miso : Nat → Nat) (index : Nat) :
    ∀ (k : Nat) (s : ILI9XXXDisplay),
      read_loop miso index k s =
        ({ s with bus := s.bus ++
            (List.range (index + 1)).map fun i => BusEvent.read (miso (k + i) % 256) },
         miso (k + index) % 256) := by
  induction index with
  | zero => intro k s; simp [read_loop, read_byte, show List.range 1 = [0] from rfl]
  | succ n ih =>
    intro k s
    rw [read_loop, ih]
    simp only [read_byte, List.append_assoc, List.singleton_append]
    rw [List.range_succ_eq_map (n + 1)]
    simp only [List.map_cons, List.map_map, Nat.add_zero]
    refine Prod.ext ?_ ?_
    · simp only
      congr 3
      apply List.map_congr_left
      intro i _
      simp only [Function.comp, Nat.succ_eq_add_one]
      rw [show k + 1 + i = k + (i + 1) by omega]
    · simp only
      rw [show k + 1 + n = k + (n + 1) by omega]

/-- C18: the read count of `read_command`. For every index `n` in 0..255 and every
command byte, `read_command(cmd, n)` puts on the bus the command 0xD9 with the single data
byte `(0x10 + n) mod 256`, then the command byte `cmd`, then performs exactly `n + 1` byte
reads, and returns the value of the last of them; with index 0 that is exactly one
read. -/
theorem read_command_reads (s : ILI9XXXDisplay) (cmd n : Nat) (miso : Nat → Nat)
    (hc : cmd < 256) (hn : n < 256) :
    (read_command s cmd n miso).1.bus = s.bus ++
      [BusEvent.write false 0xD9, BusEvent.write true ((0x10 + n) % 256),
       BusEvent.write false cmd] ++
      (List.range (n + 1)).map (fun i => BusEvent.read (miso i % 256)) ∧
    (read_command s cmd n miso).2 = miso n % 256 := by
  have hd : toU8 (0x10 + (n : Int)) = (0x10 + n) % 256 := by
    unfold toU8; omega
  unfold read_command
  simp only [read_loop_spec, hd, Nat.mod_eq_of_lt hn, Nat.zero_add]
  simp [send_command, command, start_command_, end_command_, start_data_, end_data_,
    write_byte, write_array, toU8_of_lt hc, show toU8 217 = 217 from rfl]

theorem read_command_reads_witness :
    (read_command small16 0x0A 0 (fun _ => 0x9C)).1.bus =
      [BusEvent.write false 0xD9, BusEvent.write true 0x10, BusEvent.write false 0x0A,
       BusEvent.read 0x9C] ∧
    (read_command small16 0x0A 0 (fun _ => 0x9C)).2 = 0x9C :=
  read_command_reads small16 0x0A 0 (fun _ => 0x9C) (by decide) (by decide)

/-! ## Allocation in `setup` -/

/-- The replay of a table changes nothing but the data/command level and the bus. -/
theorem init_lcd_loop_frame (init_cmd : List Nat) (fuel : Nat) :
    ∀ (addr : Nat) (s s1 : ILI9XXXDisplay), init_lcd_loop init_cmd fuel addr s = some s1 →
      s1 = { s with dc_pin_ := s1.dc_pin_, bus := s1.bus } := by
  induction fuel with
  | zero => intro addr s s1 h; simp [init_lcd_loop] at h
  | succ fuel ih =>
    intro addr s s1 h
    unfold init_lcd_loop at h
    split at h
    · simp at h
    · split_ifs at h with hc
      · split at h
        · simp at h
        · simp only at h
          split_ifs at h with hl hd
          · have := ih _ _ _ h
            rw [this]
            simp [send_command, command, start_command_, end_command_, start_data_, end_data_,
              write_byte, write_array, delay]
          · have := ih _ _ _ h
            rw [this]
            simp [send_command, command, start_command_, end_command_, start_data_, end_data_,
              write_byte, write_array, delay]
      · simp only [Option.some.injEq] at h
        subst h
        rfl

/-- What `setup` has done before it allocates: the geometry of the display is set, and
the encoding and the failure mark are those of the object as constructed. -/
theorem initialize_frame (p : Panel) (s0 s2 : ILI9XXXDisplay)
    (h : initialize_ p (setup_pins_ s0) = some s2) :
    s2.width_ = p.width ∧ s2.height_ = p.height ∧
    s2.buffer_color_mode_ = s0.buffer_color_mode_ ∧ s2.failed = s0.failed := by
  obtain ⟨hw, hh⟩ := initialize_geometry p _ _ h
  refine ⟨hw, hh, ?_⟩
  unfold initialize_ at h
  split at h
  · simp at h
  · rename_i s3 h3
    have hf := init_lcd_loop_frame _ _ _ _ _ h3
    have hp : (setup_pins_ s0).buffer_color_mode_ = s0.buffer_color_mode_ ∧
        (setup_pins_ s0).failed = s0.failed := by
      unfold setup_pins_ reset_
      cases s0.reset_pin_ <;> cases s0.backlight_pin_ <;> simp [delay]
    simp only [Option.some.injEq] at h
    subst h
    rw [hf]
    split_ifs <;>
      simp [invert_display_, command, start_command_, end_command_, write_byte, hp]

/-- `setup` in normal form, once the display is initialised: the watermarks are reset and
the framebuffer is requested, at two bytes per pixel first if the 16-bit encoding is
configured, at one byte per pixel otherwise or after that. -/
theorem setup_eq (p : Panel) (alloc : Nat → Option (List Nat)) (s0 s2 : ILI9XXXDisplay)
    (hW : 1 ≤ p.width ∧ p.width ≤ 32767) (hH : 1 ≤ p.height ∧ p.height ≤ 32767)
    (hinit : initialize_ p (setup_pins_ s0) = some s2) :
    setup p alloc s0 = some
      (if s0.buffer_color_mode_ = ILI9XXXColorMode.BITS_16 then
        match alloc (2 * (p.width * p.height).toNat) with
        | some buffer =>
          { s2 with x_low_ := toU16 p.width, y_low_ := toU16 p.height, x_high_ := 0,
                    y_high_ := 0, buffer_ := buffer }
        | none =>
          match alloc (p.width * p.height).toNat with
          | some buffer =>
            { s2 with x_low_ := toU16 p.width, y_low_ := toU16 p.height, x_high_ := 0,
                      y_high_ := 0, buffer_ := buffer,
                      buffer_color_mode_ := ILI9XXXColorMode.BITS_8_INDEXED }
          | none =>
            { s2 with x_low_ := toU16 p.width, y_low_ := toU16 p.height, x_high_ := 0,
                      y_high_ := 0, buffer_ := [],
                      buffer_color_mode_ := ILI9XXXColorMode.BITS_8_INDEXED, failed := true }
      else
        match alloc (p.width * p.height).toNat with
        | some buffer =>
          { s2 with x_low_ := toU16 p.width, y_low_ := toU16 p.height, x_high_ := 0,
                    y_high_ := 0, buffer_ := buffer }
        | none =>
          { s2 with x_low_ := toU16 p.width, y_low_ := toU16 p.height, x_high_ := 0,
                    y_high_ := 0, buffer_ := [], failed := true }) := by
  obtain ⟨hw, hh, hm, _⟩ := initialize_frame p s0 s2 hinit
  have hprod : 1 ≤ p.width * p.height ∧ p.width * p.height ≤ 32767 * 32767 :=
    ⟨by nlinarith, mul_le_mul hW.2 hH.2 (by omega) (by norm_num)⟩
  have hlen : toU32 (p.width * p.height) = (p.width * p.height).toNat :=
    toU32_of_range (by omega) (by omega)
  have hlen2 : (p.width * p.height).toNat * 2 % 4294967296 = 2 * (p.width * p.height).toNat := by
    omega
  unfold setup
  simp only [hinit, init_internal_, get_buffer_length_, get_width_internal,
    get_height_internal, hw, hh, hm, hlen, hlen2]
  by_cases hmode : s0.buffer_color_mode_ = ILI9XXXColorMode.BITS_16
  · simp only [hmode, if_true]
    cases h1 : alloc (2 * (p.width * p.height).toNat) with
    | some buffer => simp
    | none =>
      cases h2 : alloc (p.width * p.height).toNat with
      | some buffer => simp [hlen, h2]
      | none => simp [hlen, h2]
  · simp only [hmode, if_false]
    cases h2 : alloc (p.width * p.height).toNat with
    | some buffer => simp [hlen, h2]
    | none => simp [hlen, h2]

/-- C17: the allocation fallback of `setup`, the allocator being the oracle `alloc` that
answers each request by its size. For a display with `1 <= width, height <= 32767`, an
initialisation that finishes, and an object not marked failed before: if the 16-bit
encoding is configured, `setup` asks for `2 * width * height` bytes, and if it gets them
it keeps the encoding and is not failed, whatever the oracle would answer to any other
request; if it does not, it switches to the indexed one-byte encoding and asks for
`width * height` bytes; if a one-byte encoding is configured that is the only request. In
both cases the driver ends marked failed if and only if the request of `width * height`
bytes fails, and the result depends on no other answer of the oracle. -/
theorem setup_allocation_fallback (p : Panel) (alloc : Nat → Option (List Nat))
    (s0 s2 : ILI9XXXDisplay)
    (hW : 1 ≤ p.width ∧ p.width ≤ 32767) (hH : 1 ≤ p.height ∧ p.height ≤ 32767)
    (hinit : initialize_ p (setup_pins_ s0) = some s2) (hf : s0.failed = false) :
    (s0.buffer_color_mode_ = ILI9XXXColorMode.BITS_16 →
      ∀ buffer, alloc (2 * (p.width * p.height).toNat) = some buffer →
        ∃ s, setup p alloc s0 = some s ∧ s.buffer_ = buffer ∧
          s.buffer_color_mode_ = ILI9XXXColorMode.BITS_16 ∧ s.failed = false ∧
          ∀ alloc1 : Nat → Option (List Nat),
            alloc1 (2 * (p.width * p.height).toNat) = some buffer →
            setup p alloc1 s0 = some s) ∧
    (s0.buffer_color_mode_ = ILI9XXXColorMode.BITS_16 →
      alloc (2 * (p.width * p.height).toNat) = none →
        ∃ s, setup p alloc s0 = some s ∧
          s.buffer_color_mode_ = ILI9XXXColorMode.BITS_8_INDEXED ∧
          (s.failed = true ↔ alloc (p.width * p.height).toNat = none) ∧
          (∀ buffer, alloc (p.width * p.height).toNat = some buffer → s.buffer_ = buffer) ∧
          ∀ alloc1 : Nat → Option (List Nat),
            alloc1 (2 * (p.width * p.height).toNat) = none →
            alloc1 (p.width * p.height).toNat = alloc (p.width * p.height).toNat →
            setup p alloc1 s0 = some s) ∧
    (s0.buffer_color_mode_ ≠ ILI9XXXColorMode.BITS_16 →
        ∃ s, setup p alloc s0 = some s ∧
          s.buffer_color_mode_ = s0.buffer_color_mode_ ∧
          (s.failed = true ↔ alloc (p.width * p.height).toNat = none) ∧
          (∀ buffer, alloc (p.width * p.height).toNat = some buffer → s.buffer_ = buffer) ∧
          ∀ alloc1 : Nat → Option (List Nat),
            alloc1 (p.width * p.height).toNat = alloc (p.width * p.height).toNat →
            setup p alloc1 s0 = some s) := by
  obtain ⟨_, _, hm, hfail⟩ := initialize_frame p s0 s2 hinit
  rw [hf] at hfail
  refine ⟨?_, ?_, ?_⟩
  · intro hmode buffer h1
    refine ⟨_, setup_eq p alloc s0 s2 hW hH hinit, ?_, ?_, ?_, ?_⟩
    · simp [hmode, h1]
    · simp [hmode, h1, hm]
    · simp [hmode, h1, hfail]
    · intro alloc1 h1'
      rw [setup_eq p alloc1 s0 s2 hW hH hinit]
      simp [hmode, h1, h1']
  · intro hmode h1
    refine ⟨_, setup_eq p alloc s0 s2 hW hH hinit, ?_, ?_, ?_, ?_⟩
    · cases h2 : alloc (p.width * p.height).toNat <;> simp [hmode, h1, h2]
    · cases h2 : alloc (p.width * p.height).toNat <;> simp [hmode, h1, h2, hfail]
    · intro buffer h2
      simp [hmode, h1, h2]
    · intro alloc1 h1' h2'
      rw [setup_eq p alloc1 s0 s2 hW hH hinit]
      simp [hmode, h1, h1', h2']
  · intro hmode
    refine ⟨_, setup_eq p alloc s0 s2 hW hH hinit, ?_, ?_, ?_, ?_⟩
    · cases h2 : alloc (p.width * p.height).toNat <;> simp [hmode, h2, hm]
    · cases h2 : alloc (p.width * p.height).toNat <;> simp [hmode, h2, hfail]
    · intro buffer h2
      simp [hmode, h2]
    · intro alloc1 h2'
      rw [setup_eq p alloc1 s0 s2 hW hH hinit]
      simp [hmode, h2']

theorem setup_allocation_fallback_witness :
    initialize_ (ILI9XXXILI9341 sample_table) (setup_pins_ fresh_object) = some initialized ∧
    short_alloc 153600 = none ∧
    ∃ s, setup (ILI9XXXILI9341 sample_table) short_alloc fresh_object = some s ∧
      s.buffer_color_mode_ = ILI9XXXColorMode.BITS_8_INDEXED ∧
      (s.failed = true ↔ short_alloc 76800 = none) :=
  ⟨rfl, rfl,
    ((setup_allocation_fallback (ILI9XXXILI9341 sample_table) short_alloc fresh_object
      initialized (by decide) (by decide) rfl rfl).2.1 rfl rfl).imp
      fun _ h => ⟨h.1, h.2.1, h.2.2.1⟩⟩

/-! ## Staging in chunks -/

theorem transfer_loop_log_fst (cu : ColorUtil) (mode : ILI9XXXColorMode)
    (palette buffer : List Nat) (n : Nat) : ∀ (src dst : Nat) (tb : List Nat),
    (transfer_loop_log cu mode palette buffer n src dst tb).1 =
      transfer_loop cu mode palette buffer n src dst tb := by
  induction n with
  | zero => intro src dst tb; rfl
  | succ n ih =>
    intro src dst tb
    cases mode <;> simp [transfer_loop_log, transfer_loop, ih]

theorem buffer_to_transfer_log_fst (cu : ColorUtil) (s : ILI9XXXDisplay) (pos sz : Nat) :
    ((buffer_to_transfer_log cu s pos sz).1, (buffer_to_transfer_log cu s pos sz).2.1) =
      buffer_to_transfer_ cu s pos sz := by
  simp [buffer_to_transfer_log, buffer_to_transfer_, transfer_loop_log_fst]

/-- The logged row loop is the row loop. -/
theorem display_row_log_fst (cu : ColorUtil) (fuel : Nat) :
    ∀ (s : ILI9XXXDisplay) (pos rem : Nat),
      (display_row_log cu fuel s pos rem).map Prod.fst = display_row cu fuel s pos rem := by
  induction fuel with
  | zero =>
    intro s pos rem
    unfold display_row_log display_row
    split_ifs <;> rfl
  | succ fuel ih =>
    intro s pos rem
    unfold display_row_log display_row
    have h := buffer_to_transfer_log_fst cu s pos rem
    split_ifs
    · simp only
      rw [← h, ← ih]
      cases display_row_log cu fuel _ _ _ <;> rfl
    · rfl

/-- The logged rows loop is the rows loop. -/
theorem display_rows_log_fst (cu : ColorUtil) (start_pos w n : Nat) :
    ∀ (row : Nat) (s : ILI9XXXDisplay),
      (display_rows_log cu start_pos w n row s).map Prod.fst =
        display_rows cu start_pos w n row s := by
  induction n with
  | zero => intro row s; rfl
  | succ n ih =>
    intro row s
    unfold display_rows_log display_rows
    simp only
    rw [← display_row_log_fst]
    cases h : display_row_log cu w s (toU32 ((start_pos : Int) + row * s.width_)) w with
    | none => rfl
    | some t =>
      simp only [Option.map_some']
      rw [← ih]
      cases display_rows_log cu start_pos w n (row + 1) t.1 <;> rfl

/-- The logged flush is the flush. -/
theorem display_log_fst (cu : ColorUtil) (s : ILI9XXXDisplay) :
    (display_log cu s).map Prod.fst = display_ cu s := by
  unfold display_log display_
  simp only
  split_ifs
  · rfl
  · rw [← display_rows_log_fst]
    cases display_rows_log cu _ _ _ 0 _ <;> rfl

theorem buffer_to_transfer_size (cu : ColorUtil) (s : ILI9XXXDisplay) (pos rem : Nat) :
    (buffer_to_transfer_ cu s pos rem).2 = min rem (s.transfer_buffer_.length / 2) := by
  unfold buffer_to_transfer_
  simp only
  split_ifs <;> omega

theorem sizes_step (cap rem : Nat) (hcap : 1 ≤ cap) (h : cap < rem) :
    List.replicate (rem / cap) cap ++ (if rem % cap = 0 then [] else [rem % cap]) =
      cap :: (List.replicate ((rem - cap) / cap) cap ++
        (if (rem - cap) % cap = 0 then [] else [(rem - cap) % cap])) := by
  obtain ⟨r, rfl⟩ : ∃ r, rem = cap + r := ⟨rem - cap, by omega⟩
  rw [Nat.add_sub_cancel_left, Nat.add_div_left _ (by omega), Nat.add_mod_left,
    List.replicate_succ, List.cons_append]

theorem sizes_last (cap rem : Nat) (h0 : 0 < rem) (h : rem ≤ cap) :
    List.replicate (rem / cap) cap ++ (if rem % cap = 0 then [] else [rem % cap]) = [rem] := by
  rcases Nat.lt_or_eq_of_le h with hlt | rfl
  · rw [Nat.div_eq_of_lt hlt, Nat.mod_eq_of_lt hlt, if_neg (by omega)]
    rfl
  · rw [Nat.div_self h0, Nat.mod_self]
    rfl

/-- The chunks of one row: with a staging buffer of `cap >= 1` pixels the row loop
finishes, and its calls of `buffer_to_transfer_` stage `cap`, ..., `cap` and then
`rem mod cap` pixels (if that is not zero), each call starting where the one before
ended. -/
theorem display_row_log_chunks (cu : ColorUtil) (cap : Nat) (hcap : 1 ≤ cap) (fuel : Nat) :
    ∀ (s : ILI9XXXDisplay) (pos rem : Nat), s.transfer_buffer_.length / 2 = cap →
      rem ≤ fuel → pos + rem < 4294967296 →
      ∃ (s1 : ILI9XXXDisplay) (log : List Chunk),
        display_row_log cu fuel s pos rem = some (s1, log) ∧
        log.map Chunk.sz =
          List.replicate (rem / cap) cap ++ (if rem % cap = 0 then [] else [rem % cap]) ∧
        consecutive pos log := by
  induction fuel with
  | zero =>
    intro s pos rem _ hrem _
    have : rem = 0 := by omega
    subst this
    exact ⟨s, [], by simp [display_row_log], by simp, trivial⟩
  | succ fuel ih =>
    intro s pos rem hs hrem hpos
    unfold display_row_log
    by_cases hr : rem > 0
    · rw [if_pos hr]
      have hsz : (buffer_to_transfer_log cu s pos rem).2.1 = min rem cap := by
        have := congrArg Prod.snd (buffer_to_transfer_log_fst cu s pos rem)
        simp only at this
        rw [this, buffer_to_transfer_size, hs]
      have hchunk : (buffer_to_transfer_log cu s pos rem).2.2.pos = pos ∧
          (buffer_to_transfer_log cu s pos rem).2.2.sz = min rem cap := by
        refine ⟨rfl, ?_⟩
        rw [← hsz]
        rfl
      have hlen : (write_array (buffer_to_transfer_log cu s pos rem).1
          (buffer_to_transfer_log cu s pos rem).1.transfer_buffer_
          (2 * (buffer_to_transfer_log cu s pos rem).2.1)).transfer_buffer_.length / 2 = cap := by
        simp [write_array, buffer_to_transfer_log, transfer_loop_log_fst,
          length_transfer_loop, hs]
      simp only
      rw [hsz]
      obtain ⟨s1, log, h1, hsizes, hcons⟩ := ih _ ((pos + min rem cap) % 4294967296)
        (rem - min rem cap) hlen (by omega) (by omega)
      rw [hsz] at h1
      rw [h1]
      refine ⟨s1, _ :: log, rfl, ?_, ?_⟩
      · rw [List.map_cons, hchunk.2, hsizes]
        by_cases hle : rem ≤ cap
        · rw [min_eq_left hle, Nat.sub_self, sizes_last cap rem hr hle]
          simp
        · rw [min_eq_right (by omega), sizes_step cap rem hcap (by omega)]
      · refine ⟨hchunk.1, ?_⟩
        rw [hchunk.2]
        rwa [Nat.mod_eq_of_lt (by omega)] at hcons
    · have : rem = 0 := by omega
      subst this
      exact ⟨s, [], by simp, by simp, trivial⟩

/-- The sizes and positions of the calls of one row, in every encoding. With a staging
buffer of `cap >= 1` pixels (`cap = sizeof(transfer_buffer_) / 2`),
`buffer_to_transfer_(pos, rem)` returns `min(rem, cap)`, which is zero only when `rem` is
zero. Hence for a row of `w` pixels from the position `pos` (within `uint32_t`) the row
loop of the flush finishes, and its calls stage `cap`, ..., `cap` and then `w mod cap`
pixels if that is not zero: every size is non-zero and at most `cap`, the sizes sum to
`w`, and every call is given the position where the one before it ended. Which
framebuffer bytes the calls read is not part of this statement; that is the subject of
the next section. -/
theorem staging_in_chunks (cu : ColorUtil) (s : ILI9XXXDisplay) (pos w cap : Nat)
    (hcap : 1 ≤ cap) (hs : s.transfer_buffer_.length / 2 = cap)
    (hpos : pos + w < 4294967296) :
    (∀ rem, (buffer_to_transfer_ cu s pos rem).2 = min rem cap ∧
      ((buffer_to_transfer_ cu s pos rem).2 = 0 ↔ rem = 0)) ∧
    ∃ (s1 : ILI9XXXDisplay) (log : List Chunk),
      display_row_log cu w s pos w = some (s1, log) ∧
      display_row cu w s pos w = some s1 ∧
      log.map Chunk.sz =
        List.replicate (w / cap) cap ++ (if w % cap = 0 then [] else [w % cap]) ∧
      consecutive pos log ∧
      (∀ c ∈ log, 0 < c.sz ∧ c.sz ≤ cap) ∧
      (log.map Chunk.sz).sum = w := by
  constructor
  · intro rem
    have h := buffer_to_transfer_size cu s pos rem
    rw [hs] at h
    refine ⟨h, ?_⟩
    rw [h]
    constructor
    · intro h0
      rcases Nat.le_total rem cap with hle | hle
      · rwa [min_eq_left hle] at h0
      · rw [min_eq_right hle] at h0; omega
    · rintro rfl; simp
  · obtain ⟨s1, log, h1, hsizes, hcons⟩ :=
      display_row_log_chunks cu cap hcap w s pos w hs (le_refl _) hpos
    have hrow : display_row cu w s pos w = some s1 := by
      rw [← display_row_log_fst, h1]; rfl
    refine ⟨s1, log, h1, hrow, hsizes, hcons, ?_, ?_⟩
    · intro c hc
      have hmem : c.sz ∈ log.map Chunk.sz := List.mem_map_of_mem _ hc
      rw [hsizes] at hmem
      rcases List.mem_append.1 hmem with hm | hm
      · rw [(List.mem_replicate.1 hm).2]; omega
      · split_ifs at hm with h0
        · simp at hm
        · simp only [List.mem_singleton] at hm
          rw [hm]
          exact ⟨by omega, le_of_lt (Nat.mod_lt _ (by omega))⟩
    · rw [hsizes, List.sum_append, List.sum_replicate, smul_eq_mul]
      split_ifs with h0
      · simp only [List.sum_nil, Nat.add_zero]
        have := Nat.div_add_mod w cap
        rw [h0] at this
        rw [Nat.mul_comm] at this
        omega
      · simp only [List.sum_cons, List.sum_nil, Nat.add_zero]
        have := Nat.div_add_mod w cap
        rw [Nat.mul_comm] at this
        omega

theorem staging_in_chunks_witness :
    (sample_display ILI9XXXColorMode.BITS_8 240 320 [] 64).transfer_buffer_.length / 2 = 64 ∧
    ∃ (s1 : ILI9XXXDisplay) (log : List Chunk),
      display_row_log sample_codec 100 (sample_display ILI9XXXColorMode.BITS_8 240 320 [] 64)
        4810 100 = some (s1, log) ∧
      display_row sample_codec 100 (sample_display ILI9XXXColorMode.BITS_8 240 320 [] 64)
        4810 100 = some s1 ∧
      log.map Chunk.sz = [64, 36] ∧
      consecutive 4810 log ∧
      (∀ c ∈ log, 0 < c.sz ∧ c.sz ≤ 64) ∧
      (log.map Chunk.sz).sum = 100 :=
  ⟨by simp [sample_display],
    (staging_in_chunks sample_codec (sample_display ILI9XXXColorMode.BITS_8 240 320 [] 64)
      4810 100 64 (by decide) (by simp [sample_display]) (by decide)).2⟩

/-! ## Which framebuffer bytes the calls of one row read -/

theorem transfer_loop_log_reads_one_byte (cu : ColorUtil) (mode : ILI9XXXColorMode)
    (palette buffer : List Nat) (hm : mode ≠ ILI9XXXColorMode.BITS_16) (n : Nat) :
    ∀ (src dst : Nat) (tb : List Nat),
      (transfer_loop_log cu mode palette buffer n src dst tb).2.1 = List.range' src n := by
  induction n with
  | zero => intro src dst tb; rfl
  | succ n ih =>
    intro src dst tb
    cases mode
    · simp only [transfer_loop_log, ih, List.range'_succ]
    · simp only [transfer_loop_log, ih, List.range'_succ]
    · exact absurd rfl hm

/-- In the one-byte encodings the calls of one row read the framebuffer bytes of the row,
`pos` to `pos + rem - 1`, each exactly once and in order: no pixel of the row is staged
twice or skipped. -/
theorem display_row_log_reads_one_byte (cu : ColorUtil) (fuel : Nat) :
    ∀ (s s1 : ILI9XXXDisplay) (pos rem : Nat) (log : List Chunk),
      s.buffer_color_mode_ ≠ ILI9XXXColorMode.BITS_16 → pos + rem < 4294967296 →
      display_row_log cu fuel s pos rem = some (s1, log) →
      (log.map Chunk.reads).flatten = List.range' pos rem := by
  induction fuel with
  | zero =>
    intro s s1 pos rem log _ _ h
    unfold display_row_log at h
    split_ifs at h with hr
    have : rem = 0 := by omega
    subst this
    simp only [Option.some.injEq, Prod.mk.injEq] at h
    rw [← h.2]
    rfl
  | succ fuel ih =>
    intro s s1 pos rem log hm hpos h
    unfold display_row_log at h
    split_ifs at h with hr
    · simp only at h
      have hsz : (buffer_to_transfer_log cu s pos rem).2.1 =
          min rem (s.transfer_buffer_.length / 2) := by
        have := congrArg Prod.snd (buffer_to_transfer_log_fst cu s pos rem)
        simp only at this
        rw [this, buffer_to_transfer_size]
      cases hrec : display_row_log cu fuel
          (write_array (buffer_to_transfer_log cu s pos rem).1
            (buffer_to_transfer_log cu s pos rem).1.transfer_buffer_
            (2 * (buffer_to_transfer_log cu s pos rem).2.1))
          ((pos + (buffer_to_transfer_log cu s pos rem).2.1) % 4294967296)
          (rem - (buffer_to_transfer_log cu s pos rem).2.1) with
      | none => rw [hrec] at h; simp at h
      | some t =>
        rw [hrec] at h
        simp only [Option.some.injEq, Prod.mk.injEq] at h
        have hrest := ih _ t.1 _ _ t.2
          (by simpa [buffer_to_transfer_log, write_array] using hm)
          (by rw [Nat.mod_eq_of_lt (by omega)]; omega) hrec
        rw [Nat.mod_eq_of_lt (by omega)] at hrest
        have hreads : (buffer_to_transfer_log cu s pos rem).2.2.reads =
            List.range' pos (buffer_to_transfer_log cu s pos rem).2.1 := by
          simp only [buffer_to_transfer_log]
          exact transfer_loop_log_reads_one_byte cu _ _ _ hm _ _ _ _
        rw [← h.2, List.map_cons, List.flatten_cons, hrest, hreads, List.range'_append_1]
        congr 1
        omega
    · have : rem = 0 := by omega
      subst this
      simp only [Option.some.injEq, Prod.mk.injEq] at h
      rw [← h.2]
      rfl

/-- C13, evaluated where it fails: the first row of the end-to-end example, a 240x320
panel in the 16-bit encoding with a staging buffer of 32 pixels, 41 pixels from the pixel
position 4810 (the pixels (10, 20) to (50, 20), stored from the byte 9620 on). The row
loop finishes after two calls, of 32 pixels from position 4810 and of 9 pixels from
position 4842: sizes and positions are as the chunking says. But the first call reads the
framebuffer bytes 4810 to 4873 and the second the bytes 4842 to 4859: every byte the
second call reads was already staged by the first, and no call reads a byte of any pixel
of the row. The position counts pixels and is used as a byte offset, so in this encoding
pixel positions are staged twice and skipped. -/
theorem staging_16bit_reads_overlap :
    example_dirty.buffer_color_mode_ = ILI9XXXColorMode.BITS_16 ∧
    example_dirty.transfer_buffer_.length / 2 = 32 ∧
    (display_row_log sample_codec 41 example_dirty 4810 41).map
      (fun t => t.2.map fun c => (c.pos, c.sz, c.reads)) =
      some [(4810, 32, List.range' 4810 64), (4842, 9, List.range' 4842 18)] ∧
    (∀ i ∈ List.range' 4842 18, i ∈ List.range' 4810 64) ∧
    (∀ x ∈ List.range' 10 41, ∀ k ∈ List.range (bytes_per_pixel ILI9XXXColorMode.BITS_16),
      example_dirty.pixel_offset x 20 = (4810 + (x - 10)) * 2 ∧
      example_dirty.pixel_offset x 20 + k ∉ List.range' 4810 64 ++ List.range' 4842 18) := by
  refine ⟨by decide, by simp only [example_dirty, sample_display, List.length_replicate], by decide, by decide, by decide⟩

/-! ## What the flush sends in the one-byte encodings -/

theorem transfer_loop_eq_store (cu : ColorUtil) (mode : ILI9XXXColorMode)
    (palette buffer : List Nat) (n : Nat) : ∀ (src dst : Nat) (tb : List Nat),
    transfer_loop cu mode palette buffer n src dst tb =
      store_bytes tb dst (staged cu mode palette buffer n src) := by
  induction n with
  | zero => intro src dst tb; rfl
  | succ n ih =>
    intro src dst tb
    cases mode <;>
      simp [transfer_loop, staged, wire_pixel, store_bytes, bytes_per_pixel, ih]

theorem length_staged (cu : ColorUtil) (mode : ILI9XXXColorMode) (palette buffer : List Nat)
    (n : Nat) : ∀ src, (staged cu mode palette buffer n src).length = 2 * n := by
  induction n with
  | zero => intro src; rfl
  | succ n ih =>
    intro src
    cases mode <;> simp [staged, wire_pixel, ih] <;> omega

theorem take_store_bytes (buffer bytes : List Nat) (h : bytes.length ≤ buffer.length) :
    (store_bytes buffer 0 bytes).take bytes.length = bytes := by
  apply ext_getD
  · rw [List.length_take, length_store_bytes]; omega
  · intro i hi
    rw [List.length_take, length_store_bytes] at hi
    have hi2 : i < bytes.length := by omega
    rw [List.getD_eq_getElem?_getD, List.getElem?_take, if_pos hi2,
      ← List.getD_eq_getElem?_getD, getD_store_bytes, if_pos (by omega)]
    rfl

theorem staged_append (cu : ColorUtil) (mode : ILI9XXXColorMode) (palette buffer : List Nat)
    (a b : Nat) : ∀ src, staged cu mode palette buffer (a + b) src =
      staged cu mode palette buffer a src ++
        staged cu mode palette buffer b (src + a * bytes_per_pixel mode) := by
  induction a with
  | zero => intro src; simp [staged]
  | succ a ih =>
    intro src
    rw [show a + 1 + b = (a + b) + 1 by omega]
    simp only [staged, ih, List.append_assoc]
    congr 3
    ring

/-- One row of the flush in a one-byte encoding, when it finishes: the bytes written are
the wire bytes of the `rem` pixels stored from the index `pos` on. -/
theorem display_row_data (cu : ColorUtil) (fuel : Nat) :
    ∀ (s s1 : ILI9XXXDisplay) (pos rem : Nat),
      s.buffer_color_mode_ ≠ ILI9XXXColorMode.BITS_16 → pos + rem < 4294967296 →
      display_row cu fuel s pos rem = some s1 →
      s1.bus = s.bus ++ (staged cu s.buffer_color_mode_ s.palette_ s.buffer_ rem pos).map
        (BusEvent.write s.dc_pin_) := by
  induction fuel with
  | zero =>
    intro s s1 pos rem _ _ h
    unfold display_row at h
    split_ifs at h with hr
    have : rem = 0 := by omega
    subst this
    injection h with h
    subst h
    simp [staged]
  | succ fuel ih =>
    intro s s1 pos rem hm hpos h
    unfold display_row at h
    split_ifs at h with hr
    · have hsz := buffer_to_transfer_size cu s pos rem
      have hb1 : bytes_per_pixel s.buffer_color_mode_ = 1 := by
        unfold bytes_per_pixel; split <;> simp_all
      have h2 := ih _ _ _ _ (by simpa [buffer_to_transfer_, write_array] using hm)
        (by rw [Nat.mod_eq_of_lt (by omega)]; omega) h
      rw [h2]
      have hsplit : rem = (buffer_to_transfer_ cu s pos rem).2 +
          (rem - (buffer_to_transfer_ cu s pos rem).2) := by omega
      conv_rhs => rw [hsplit, staged_append, hb1, Nat.mul_one]
      rw [Nat.mod_eq_of_lt (by omega)]
      have htake : List.take (2 * (buffer_to_transfer_ cu s pos rem).2)
          (buffer_to_transfer_ cu s pos rem).1.transfer_buffer_ =
          staged cu s.buffer_color_mode_ s.palette_ s.buffer_
            (buffer_to_transfer_ cu s pos rem).2 pos := by
        have hl := length_staged cu s.buffer_color_mode_ s.palette_ s.buffer_
          (buffer_to_transfer_ cu s pos rem).2 pos
        have := take_store_bytes s.transfer_buffer_
          (staged cu s.buffer_color_mode_ s.palette_ s.buffer_
            (buffer_to_transfer_ cu s pos rem).2 pos) (by rw [hl, hsz]; omega)
        rw [hl] at this
        rw [← this]
        simp only [buffer_to_transfer_, transfer_loop_eq_store]
      simp only [write_array, htake]
      simp [buffer_to_transfer_, List.append_assoc]
    · have : rem = 0 := by omega
      subst this
      injection h with h
      subst h
      simp [staged]

/-- The rows of the flush in a one-byte encoding, when the loop finishes: row after row,
the wire bytes of the `w` pixels stored from the start of the row on. -/
theorem display_rows_data (cu : ColorUtil) (start_pos w n : Nat) :
    ∀ (row : Nat) (s s1 : ILI9XXXDisplay),
      s.buffer_color_mode_ ≠ ILI9XXXColorMode.BITS_16 →
      (∀ r, r < n → toU32 ((start_pos : Int) + ((row + r : Nat) : Int) * s.width_) + w <
        4294967296) →
      display_rows cu start_pos w n row s = some s1 →
      s1.bus = s.bus ++ (((List.range n).map fun r =>
        staged cu s.buffer_color_mode_ s.palette_ s.buffer_ w
          (toU32 ((start_pos : Int) + ((row + r : Nat) : Int) * s.width_))).flatten).map
        (BusEvent.write s.dc_pin_) := by
  induction n with
  | zero =>
    intro row s s1 _ _ h
    simp only [display_rows, Option.some.injEq] at h
    subst h
    simp
  | succ n ih =>
    intro row s s1 hm hpos h
    unfold display_rows at h
    simp only at h
    cases hrow : display_row cu w s (toU32 ((start_pos : Int) + row * s.width_)) w with
    | none => rw [hrow] at h; simp at h
    | some s2 =>
      rw [hrow] at h
      simp only at h
      have hd := display_row_data cu w s s2 _ w hm (by simpa using hpos 0 (by omega)) hrow
      obtain ⟨tb2, D, _, _, hs2⟩ := display_row_some cu w _ _ _ _ hrow
      have h2 := ih (row + 1) s2 s1 (by rw [hs2]; exact hm) (by
        intro r hr
        have := hpos (r + 1) (by omega)
        rw [hs2]
        simpa [Nat.add_assoc, Nat.add_comm 1 r] using this) h
      rw [h2, hd, List.range_succ_eq_map]
      rw [hs2]
      simp only [List.map_cons, List.flatten_cons, List.map_append, List.append_assoc,
        List.map_map, Nat.add_zero]
      congr 3
      apply congrArg
      apply List.map_congr_left
      intro r _
      simp only [Function.comp, Nat.succ_eq_add_one]
      rw [show row + 1 + r = row + (r + 1) by omega]

theorem staged_eq_pixels (cu : ColorUtil) (mode : ILI9XXXColorMode) (palette buffer : List Nat)
    (hm : mode ≠ ILI9XXXColorMode.BITS_16) (n : Nat) :
    ∀ src, staged cu mode palette buffer n src =
      ((List.range n).map fun i => wire_pixel cu mode palette buffer (src + i)).flatten := by
  have hb1 : bytes_per_pixel mode = 1 := by
    unfold bytes_per_pixel; split <;> simp_all
  induction n with
  | zero => intro src; rfl
  | succ n ih =>
    intro src
    rw [staged, hb1, ih, List.range_succ_eq_map]
    simp only [List.map_cons, List.flatten_cons, List.map_map, Nat.add_zero]
    congr 2
    apply List.map_congr_left
    intro i _
    simp only [Function.comp, Nat.succ_eq_add_one]
    rw [show src + 1 + i = src + (i + 1) by omega]

theorem row_position (yl r xl wn : Nat) (h1 : yl + r ≤ 32767) (h2 : wn ≤ 32767)
    (h3 : xl < wn) :
    toU32 (((toU32 ((yl : Int) * (wn : Int) + xl) : Nat) : Int) +
      ((0 + r : Nat) : Int) * (wn : Int)) = (yl + r) * wn + xl ∧
    (yl + r) * wn + wn ≤ 1073741824 := by
  have hb : (yl + r) * wn ≤ 32767 * 32767 := Nat.mul_le_mul h1 h2
  have e : (yl + r) * wn = yl * wn + r * wn := Nat.add_mul _ _ _
  have c1 : (yl : Int) * (wn : Int) = ((yl * wn : Nat) : Int) := by push_cast; rfl
  have c2 : ((0 + r : Nat) : Int) * (wn : Int) = ((r * wn : Nat) : Int) := by
    push_cast; ring
  rw [c1, c2, e]
  rw [e] at hb
  unfold toU32
  constructor <;> omega

theorem wire_pixel_one_byte (cu : ColorUtil) (s : ILI9XXXDisplay) (x y : Nat)
    (hm : s.buffer_color_mode_ ≠ ILI9XXXColorMode.BITS_16) :
    wire_pixel cu s.buffer_color_mode_ s.palette_ s.buffer_ (y * s.width_.toNat + x) =
      [decoded565 cu s x y / 256, decoded565 cu s x y % 256] := by
  have hhi : ∀ v : Nat, toU8 (((v % 65536) >>> 8 : Nat) : Int) = v % 65536 / 256 := fun v => by
    rw [Nat.shiftRight_eq_div_pow]
    exact toU8_of_lt (by omega)
  unfold wire_pixel decoded565
  cases h : s.buffer_color_mode_ with
  | BITS_8 => simp only [hhi, toU8_natCast]
  | BITS_8_INDEXED => simp only [hhi, toU8_natCast]
  | BITS_16 => exact absurd h hm

/-- C16: what the flush sends in the two one-byte encodings. In a state of `int16_t`
geometry whose dirty rectangle is not empty and lies on the panel, with a staging buffer
of at least one pixel, the flush finishes and sends, after the address window, in
row-major order (rows in increasing `y` from `y_low` to `y_high`, in a row `x` increasing
from `x_low` to `x_high`), for each pixel the high byte and then the low byte of the 565
value of the decoded stored byte `buffer[y * width + x]`, decoded by the palette for the
indexed encoding and by the 332 expansion otherwise. -/
theorem flush_one_byte_stream (cu : ColorUtil) (s : ILI9XXXDisplay)
    (hm : s.buffer_color_mode_ ≠ ILI9XXXColorMode.BITS_16)
    (hW : s.width_ ≤ 32767) (hH : s.height_ ≤ 32767) (hr : s.rect_within)
    (hcap : 2 ≤ s.transfer_buffer_.length) :
    ∃ s1 : ILI9XXXDisplay, display_ cu s = some s1 ∧
      s1.bus = s.bus ++ address_window s.x_low_ s.x_high_ s.y_low_ s.y_high_ ++
        (((List.range (s.y_high_ - s.y_low_ + 1)).map fun r =>
          ((List.range (s.x_high_ - s.x_low_ + 1)).map fun i =>
            [decoded565 cu s (s.x_low_ + i) (s.y_low_ + r) / 256,
             decoded565 cu s (s.x_low_ + i) (s.y_low_ + r) % 256]).flatten).flatten).map
          (BusEvent.write true) := by
  obtain ⟨hx, hxW, hy, hyH⟩ := hr
  obtain ⟨s1, h1⟩ := display_terminates cu s hcap
  refine ⟨s1, h1, ?_⟩
  have hne : ¬ (s.x_high_ < s.x_low_ ∨ s.y_high_ < s.y_low_) := by omega
  have hw : toU16 ((s.x_high_ : Int) - s.x_low_ + 1) = s.x_high_ - s.x_low_ + 1 := by
    unfold toU16; omega
  have hh : toU16 ((s.y_high_ : Int) - s.y_low_ + 1) = s.y_high_ - s.y_low_ + 1 := by
    unfold toU16; omega
  have hx2 : toU16 ((s.x_low_ : Int) + (s.x_high_ - s.x_low_ + 1 : Nat) - 1) = s.x_high_ := by
    unfold toU16; omega
  have hy2 : toU16 ((s.y_low_ : Int) + (s.y_high_ - s.y_low_ + 1 : Nat) - 1) = s.y_high_ := by
    unfold toU16; omega
  have hWn : s.width_ = (s.width_.toNat : Int) := by omega
  have hpos : ∀ r, r < s.y_high_ - s.y_low_ + 1 →
      toU32 (((toU32 ((s.y_low_ : Int) * s.width_ + s.x_low_) : Nat) : Int) +
        ((0 + r : Nat) : Int) * s.width_) = (s.y_low_ + r) * s.width_.toNat + s.x_low_ ∧
      (s.y_low_ + r) * s.width_.toNat + s.width_.toNat ≤ 1073741824 := by
    intro r hr
    rw [hWn]
    exact row_position s.y_low_ r s.x_low_ s.width_.toNat (by omega) (by omega) (by omega)
  unfold display_ at h1
  simp only [if_neg hne, set_addr_window_eq, start_data_, end_data_, hw, hh, hx2, hy2] at h1
  split at h1
  · simp at h1
  · rename_i s2 hrows
    have hd := display_rows_data cu _ _ _ 0 _ s2 (by exact hm) (by
      intro r hr
      have := hpos r hr
      simp only at this ⊢
      omega) hrows
    simp only [Option.some.injEq] at h1
    subst h1
    simp only [hd, List.append_assoc]
    congr 3
    apply congrArg
    apply List.map_congr_left
    intro r hr
    rw [(hpos r (List.mem_range.1 hr)).1, staged_eq_pixels cu _ _ _ hm]
    apply congrArg
    apply List.map_congr_left
    intro i _
    rw [show (s.y_low_ + r) * s.width_.toNat + s.x_low_ + i =
      (s.y_low_ + r) * s.width_.toNat + (s.x_low_ + i) by omega]
    exact wire_pixel_one_byte cu s _ _ hm

theorem flush_one_byte_stream_witness :
    (draw_absolute_pixel_internal sample_codec small8 1 1 red).rect_within ∧
    ∃ s1 : ILI9XXXDisplay,
      display_ sample_codec (draw_absolute_pixel_internal sample_codec small8 1 1 red) =
        some s1 ∧
      s1.bus = address_window 1 1 1 1 ++ [BusEvent.write true 224, BusEvent.write true 0] :=
  ⟨by decide,
    flush_one_byte_stream sample_codec (draw_absolute_pixel_internal sample_codec small8 1 1 red)
      (by decide) (by decide) (by decide) (by decide) (by decide)⟩

/-! ## Index safety of the flush -/

theorem transfer_loop_log_bounds (cu : ColorUtil) (mode : ILI9XXXColorMode)
    (palette buffer : List Nat) (n : Nat) : ∀ (src dst : Nat) (tb : List Nat),
    (∀ i ∈ (transfer_loop_log cu mode palette buffer n src dst tb).2.1,
      src ≤ i ∧ i < src + n * bytes_per_pixel mode) ∧
    (∀ j ∈ (transfer_loop_log cu mode palette buffer n src dst tb).2.2,
      dst ≤ j ∧ j < dst + 2 * n) := by
  induction n with
  | zero => intro src dst tb; simp [transfer_loop_log]
  | succ n ih =>
    intro src dst tb
    cases mode
    · obtain ⟨h1, h2⟩ := ih (src + 1) (dst + 2)
        ((tb.set dst (toU8 (((cu.color_to_565 (cu.rgb332_to_color (buffer.getD src 0)) %
          65536) >>> 8 : Nat)))).set (dst + 1)
          (toU8 ((cu.color_to_565 (cu.rgb332_to_color (buffer.getD src 0)) % 65536 : Nat))))
      simp only [transfer_loop_log, bytes_per_pixel, List.mem_cons] at h1 h2 ⊢
      constructor
      · rintro i (rfl | hi)
        · omega
        · have := h1 i hi; omega
      · rintro j (rfl | rfl | hj)
        · omega
        · omega
        · have := h2 j hj; omega
    · obtain ⟨h1, h2⟩ := ih (src + 1) (dst + 2)
        ((tb.set dst (toU8 (((cu.color_to_565 (cu.index8_to_color_palette888
          (buffer.getD src 0) palette) % 65536) >>> 8 : Nat)))).set (dst + 1)
          (toU8 ((cu.color_to_565 (cu.index8_to_color_palette888 (buffer.getD src 0) palette) %
            65536 : Nat))))
      simp only [transfer_loop_log, bytes_per_pixel, List.mem_cons] at h1 h2 ⊢
      constructor
      · rintro i (rfl | hi)
        · omega
        · have := h1 i hi; omega
      · rintro j (rfl | rfl | hj)
        · omega
        · omega
        · have := h2 j hj; omega
    · obtain ⟨h1, h2⟩ := ih (src + 2) (dst + 2)
        ((tb.set dst (buffer.getD src 0)).set (dst + 1) (buffer.getD (src + 1) 0))
      simp only [transfer_loop_log, bytes_per_pixel, List.mem_cons] at h1 h2 ⊢
      constructor
      · rintro i (rfl | rfl | hi)
        · omega
        · omega
        · have := h1 i hi; omega
      · rintro j (rfl | rfl | hj)
        · omega
        · omega
        · have := h2 j hj; omega

/-- The calls of one row: each stages pixels of the row only, at most as many as the
staging buffer holds, reads the framebuffer from its position on, one encoded pixel per
staged pixel, and writes the two staged bytes per pixel from the start of the staging
buffer. -/
theorem display_row_log_bounds (cu : ColorUtil) (fuel : Nat) :
    ∀ (s s1 : ILI9XXXDisplay) (pos rem : Nat) (log : List Chunk),
      pos + rem < 4294967296 → display_row_log cu fuel s pos rem = some (s1, log) →
      ∀ c ∈ log, pos ≤ c.pos ∧ c.pos + c.sz ≤ pos + rem ∧
        2 * c.sz ≤ s.transfer_buffer_.length ∧
        (∀ i ∈ c.reads, c.pos ≤ i ∧ i < c.pos + c.sz * bytes_per_pixel s.buffer_color_mode_) ∧
        (∀ j ∈ c.writes, j < 2 * c.sz) := by
  induction fuel with
  | zero =>
    intro s s1 pos rem log _ h c hc
    unfold display_row_log at h
    split_ifs at h
    simp only [Option.some.injEq, Prod.mk.injEq] at h
    rw [← h.2] at hc
    simp at hc
  | succ fuel ih =>
    intro s s1 pos rem log hpos h c hc
    unfold display_row_log at h
    split_ifs at h with hr
    · simp only at h
      have hsz : (buffer_to_transfer_log cu s pos rem).2.1 =
          min rem (s.transfer_buffer_.length / 2) := by
        have := congrArg Prod.snd (buffer_to_transfer_log_fst cu s pos rem)
        simp only at this
        rw [this, buffer_to_transfer_size]
      cases hrec : display_row_log cu fuel
          (write_array (buffer_to_transfer_log cu s pos rem).1
            (buffer_to_transfer_log cu s pos rem).1.transfer_buffer_
            (2 * (buffer_to_transfer_log cu s pos rem).2.1))
          ((pos + (buffer_to_transfer_log cu s pos rem).2.1) % 4294967296)
          (rem - (buffer_to_transfer_log cu s pos rem).2.1) with
      | none => rw [hrec] at h; simp at h
      | some t =>
        rw [hrec] at h
        simp only [Option.some.injEq, Prod.mk.injEq] at h
        rw [← h.2] at hc
        rcases List.mem_cons.1 hc with rfl | hc
        · have hb := transfer_loop_log_bounds cu s.buffer_color_mode_ s.palette_ s.buffer_
            (if rem > s.transfer_buffer_.length / 2 then s.transfer_buffer_.length / 2 else rem)
            pos 0 s.transfer_buffer_
          have hszc : (buffer_to_transfer_log cu s pos rem).2.2.sz =
              min rem (s.transfer_buffer_.length / 2) := by rw [← hsz]; rfl
          refine ⟨le_refl _, ?_, ?_, ?_, ?_⟩
          · rw [hszc]; show pos + _ ≤ _; omega
          · rw [hszc]; omega
          · intro i hi
            have := hb.1 i hi
            exact this
          · intro j hj
            have := hb.2 j hj
            show j < 2 * (buffer_to_transfer_log cu s pos rem).2.2.sz
            simp only [buffer_to_transfer_log]
            omega
        · have hlen : (write_array (buffer_to_transfer_log cu s pos rem).1
              (buffer_to_transfer_log cu s pos rem).1.transfer_buffer_
              (2 * (buffer_to_transfer_log cu s pos rem).2.1)).transfer_buffer_.length =
              s.transfer_buffer_.length := by
            simp [write_array, buffer_to_transfer_log, transfer_loop_log_fst,
              length_transfer_loop]
          have := ih _ t.1 _ _ t.2 (by rw [Nat.mod_eq_of_lt (by omega)]; omega) hrec c hc
          rw [hlen, Nat.mod_eq_of_lt (by omega)] at this
          obtain ⟨a1, a2, a3, a4, a5⟩ := this
          exact ⟨by omega, by omega, a3, a4, a5⟩
    · simp only [Option.some.injEq, Prod.mk.injEq] at h
      rw [← h.2] at hc
      simp at hc

/-- The calls of the rows loop: each belongs to one of the rows, stages pixels of that
row only, and reads and writes as `display_row_log_bounds` says. -/
theorem display_rows_log_bounds (cu : ColorUtil) (start_pos w n : Nat) :
    ∀ (row : Nat) (s s1 : ILI9XXXDisplay) (log : List Chunk),
      (∀ r, r < n → toU32 ((start_pos : Int) + ((row + r : Nat) : Int) * s.width_) + w <
        4294967296) →
      display_rows_log cu start_pos w n row s = some (s1, log) →
      ∀ c ∈ log, ∃ r, r < n ∧
        toU32 ((start_pos : Int) + ((row + r : Nat) : Int) * s.width_) ≤ c.pos ∧
        c.pos + c.sz ≤ toU32 ((start_pos : Int) + ((row + r : Nat) : Int) * s.width_) + w ∧
        2 * c.sz ≤ s.transfer_buffer_.length ∧
        (∀ i ∈ c.reads, c.pos ≤ i ∧ i < c.pos + c.sz * bytes_per_pixel s.buffer_color_mode_) ∧
        (∀ j ∈ c.writes, j < 2 * c.sz) := by
  induction n with
  | zero =>
    intro row s s1 log _ h c hc
    simp only [display_rows_log, Option.some.injEq, Prod.mk.injEq] at h
    rw [← h.2] at hc
    simp at hc
  | succ n ih =>
    intro row s s1 log hpos h c hc
    unfold display_rows_log at h
    simp only at h
    cases hrow : display_row_log cu w s (toU32 ((start_pos : Int) + row * s.width_)) w with
    | none => rw [hrow] at h; simp at h
    | some t =>
      rw [hrow] at h
      simp only at h
      cases hrest : display_rows_log cu start_pos w n (row + 1) t.1 with
      | none => rw [hrest] at h; simp at h
      | some u =>
        rw [hrest] at h
        simp only [Option.some.injEq, Prod.mk.injEq] at h
        rw [← h.2] at hc
        have hrow1 : display_row cu w s (toU32 ((start_pos : Int) + row * s.width_)) w =
            some t.1 := by
          rw [← display_row_log_fst, hrow]; rfl
        obtain ⟨tb2, D, hl2, _, ht⟩ := display_row_some cu w _ _ _ _ hrow1
        rcases List.mem_append.1 hc with hc | hc
        · have h0 := hpos 0 (by omega)
          simp only [Nat.add_zero] at h0
          have := display_row_log_bounds cu w s t.1 _ w t.2 h0 hrow c hc
          exact ⟨0, by omega, by simpa using this⟩
        · have := ih (row + 1) t.1 u.1 u.2 (by
            intro r hr
            have := hpos (r + 1) (by omega)
            rw [ht]
            simpa [Nat.add_assoc, Nat.add_comm 1 r] using this) hrest c hc
          obtain ⟨r, hr, a1, a2, a3, a4, a5⟩ := this
          rw [ht] at a1 a2 a3 a4
          simp only at a1 a2 a3 a4
          refine ⟨r + 1, by omega, ?_, ?_, by omega, a4, a5⟩
          · rw [show row + (r + 1) = row + 1 + r by omega]; exact a1
          · rw [show row + (r + 1) = row + 1 + r by omega]; exact a2

/-- C19: index safety of the flush. On a panel with `1 <= width, height <= 32767` whose
framebuffer has the length `width * height * bytes_per_pixel`, in every encoding, with a
dirty rectangle that is not empty and lies on the panel and a staging buffer of at least
one pixel, the flush finishes, and in every call of `buffer_to_transfer_` it makes every
framebuffer index read is below `width * height * bytes_per_pixel`, the length of the
framebuffer, and every staging-buffer index written is below the size of the staging
buffer in bytes. -/
theorem flush_index_safety (cu : ColorUtil) (s : ILI9XXXDisplay)
    (hW : 1 ≤ s.width_ ∧ s.width_ ≤ 32767) (hH : 1 ≤ s.height_ ∧ s.height_ ≤ 32767)
    (hb : s.buffer_sized) (hr : s.rect_within) (hcap : 2 ≤ s.transfer_buffer_.length) :
    ∃ (s1 : ILI9XXXDisplay) (log : List Chunk),
      display_log cu s = some (s1, log) ∧ display_ cu s = some s1 ∧
      ∀ c ∈ log,
        (∀ i ∈ c.reads,
          i < (s.width_ * s.height_).toNat * bytes_per_pixel s.buffer_color_mode_ ∧
          i < s.buffer_.length) ∧
        (∀ j ∈ c.writes, j < s.transfer_buffer_.length) := by
  obtain ⟨hx, hxW, hy, hyH⟩ := hr
  obtain ⟨s1, h1⟩ := display_terminates cu s hcap
  have hlog := display_log_fst cu s
  rw [h1] at hlog
  cases hl : display_log cu s with
  | none => rw [hl] at hlog; simp at hlog
  | some t =>
    rw [hl] at hlog
    simp only [Option.map_some', Option.some.injEq] at hlog
    refine ⟨s1, t.2, by rw [← hlog], h1, ?_⟩
    have hne : ¬ (s.x_high_ < s.x_low_ ∨ s.y_high_ < s.y_low_) := by omega
    have hw : toU16 ((s.x_high_ : Int) - s.x_low_ + 1) = s.x_high_ - s.x_low_ + 1 := by
      unfold toU16; omega
    have hh : toU16 ((s.y_high_ : Int) - s.y_low_ + 1) = s.y_high_ - s.y_low_ + 1 := by
      unfold toU16; omega
    have hWn : s.width_ = (s.width_.toNat : Int) := by omega
    have hpos : ∀ r, r < s.y_high_ - s.y_low_ + 1 →
        toU32 (((toU32 ((s.y_low_ : Int) * s.width_ + s.x_low_) : Nat) : Int) +
          ((0 + r : Nat) : Int) * s.width_) = (s.y_low_ + r) * s.width_.toNat + s.x_low_ ∧
        (s.y_low_ + r) * s.width_.toNat + s.width_.toNat ≤ 1073741824 := by
      intro r hr
      rw [hWn]
      exact row_position s.y_low_ r s.x_low_ s.width_.toNat (by omega) (by omega) (by omega)
    have harea : (s.width_ * s.height_).toNat = s.height_.toNat * s.width_.toNat := by
      have : s.width_ * s.height_ = ((s.height_.toNat * s.width_.toNat : Nat) : Int) := by
        push_cast
        rw [Int.toNat_of_nonneg (by omega), Int.toNat_of_nonneg (by omega)]
        ring
      rw [this, Int.toNat_natCast]
    unfold display_log at hl
    simp only [if_neg hne, set_addr_window_eq, start_data_, end_data_, hw, hh] at hl
    split at hl
    · simp at hl
    · rename_i u hrows
      simp only [Option.some.injEq] at hl
      have hbounds := display_rows_log_bounds cu _ _ _ 0 _ u.1 u.2 (by
        intro r hr
        have := hpos r hr
        simp only at this ⊢
        omega) hrows
      have hlog2 : t.2 = u.2 := by rw [← hl]
      intro c hc
      rw [hlog2] at hc
      obtain ⟨r, hr, a1, a2, a3, a4, a5⟩ := hbounds c hc
      simp only at a1 a2 a3 a4
      rw [(hpos r hr).1] at a1 a2
      have hrow : (s.y_low_ + r + 1) * s.width_.toNat ≤ s.height_.toNat * s.width_.toNat :=
        Nat.mul_le_mul_right _ (by omega)
      have hone : s.width_.toNat ≤ s.height_.toNat * s.width_.toNat :=
        Nat.le_mul_of_pos_left _ (by omega)
      rw [Nat.add_mul, Nat.one_mul] at hrow
      unfold buffer_sized at hb
      rw [hb, harea]
      refine ⟨?_, fun j hj => by have := a5 j hj; omega⟩
      intro i hi
      have hi2 := a4 i hi
      have hbpp : bytes_per_pixel s.buffer_color_mode_ = 1 ∨
          bytes_per_pixel s.buffer_color_mode_ = 2 := by
        unfold bytes_per_pixel; split <;> simp
      rcases hbpp with h1b | h2b
      · rw [h1b] at hi2 ⊢
        constructor <;> omega
      · rw [h2b] at hi2 ⊢
        constructor <;> omega

theorem flush_index_safety_witness :
    (draw_absolute_pixel_internal sample_codec small16 2 1 red).buffer_sized ∧
    (draw_absolute_pixel_internal sample_codec small16 2 1 red).rect_within ∧
    ∃ (s1 : ILI9XXXDisplay) (log : List Chunk),
      display_log sample_codec (draw_absolute_pixel_internal sample_codec small16 2 1 red) =
        some (s1, log) ∧
      ∀ c ∈ log, (∀ i ∈ c.reads, i < 12) ∧ (∀ j ∈ c.writes, j < 4) :=
  ⟨by decide, by decide,
    (flush_index_safety sample_codec (draw_absolute_pixel_internal sample_codec small16 2 1 red)
      (by decide) (by decide) (by decide) (by decide) (by decide)).imp
      fun _ h => h.imp fun _ h2 => ⟨h2.1, fun c hc =>
        ⟨fun i hi => ((h2.2.2 c hc).1 i hi).2, (h2.2.2 c hc).2⟩⟩⟩

end esphome.ili9xxx
